import Mathlib

/-!
# stringtable: a shallow embedding of `table.go`

A `Table` is a Go `[][]string`: a list of rows, each row a list of strings, with
row 0 the header.  An index or slice expression that is out of range panics at run
time, and `log.Fatalf` terminates the process; both are modelled as errors of the `Run`
monad, so that every operation is a computable function returning either a
value or the way it failed.

The operations are embedded twice. First over table values, Lean lists: this is what a
call returns when no `append` writes into cells that another row or table shows. Then,
in the namespace `Mem`, the three operations that call `append` on storage they did not
allocate (`Append`, `AddColumns`, `LeftJoin`) are embedded over an explicit memory of
backing arrays, with slices as windows into them, so that an `append` within the capacity
of a slice writes in place. The theorems on `AddColumns` and `LeftJoin` are stated over the
memory; those on table values are related to it by `Mem.AddColumns_refines_value`,
`Mem.LeftJoin_refines_value` and `Mem.Append_refines_value`.
-/

namespace stringtable

/-- A row of the table: Go `[]string`. -/
abbrev Row := List String

/-- Table defines a table of strings where the first row contains the header: Go `[][]string`. -/
abbrev Table := List Row

/-- The ways a call can fail to return. -/
inductive Failure where
  /-- A Go run-time panic: index out of range or slice bounds out of range. -/
  | panic : Failure
  /-- The call `log.Fatalf` of `Append`, with the four values its message prints. -/
  | fatal (leftCols rightCols : Nat) (leftHeader rightHeader : Row) : Failure
  deriving DecidableEq, Repr

/-- A computation that returns a value or fails. -/
abbrev Run := Except Failure

/-- Go `xs[i]`: panics when `i` is out of range. -/
def index {α : Type} (xs : List α) (i : Nat) : Run α :=
  match xs[i]? with
  | some x => .ok x
  | none => .error .panic

/-- Go `xs[lo:]`: panics when `lo` exceeds the length. -/
def sliceFrom {α : Type} (xs : List α) (lo : Nat) : Run (List α) :=
  if lo ≤ xs.length then .ok (xs.drop lo) else .error .panic

/-- Go `make([]string, n)`: `n` empty strings. -/
def makeStrings (n : Nat) : Row := List.replicate n ""

/-- A Go `map[string]V`: a lookup of a key finds the value stored last, or nothing. -/
def GoMap (V : Type) := String → Option V

/-- Go `make(map[string]V)`. -/
def GoMap.empty {V : Type} : GoMap V := fun _ => none

/-- Go `m[k] = v`. -/
def GoMap.set {V : Type} (m : GoMap V) (k : String) (v : V) : GoMap V :=
  fun s => if s = k then some v else m s

/-- Go `v, ok := m[k]`, with `none` for a key that is absent. -/
def GoMap.get {V : Type} (m : GoMap V) (k : String) : Option V := m k

/-- ColumnIndices maps the name of a column to its index. -/
abbrev ColumnIndices := GoMap Nat

/-! ## Append -/

/-- Append two tables with equal number of columns. The initial table may be empty.
Terminates with `fatal` if the number of columns varies. The table returned is `m ++ a[1:]`
whatever the capacity of `m`; what the call writes into the array of `m` is in
`Mem.Append`. -/
def Append (m a : Table) : Run Table :=
  if m.length > 0 then do
    let m0 ← index m 0
    let a0 ← index a 0
    if m0.length ≠ a0.length then
      throw (Failure.fatal m0.length a0.length m0 a0)
    else do
      let rest ← sliceFrom a 1
      pure (m ++ rest)
  else
    pure a

/-! ## AddColumns -/

/-- The loop of `AddColumns` on table values: `i` is the index of the first row of `rows` in
the table. `append(row, ...)` is taken as a new row here, which it is when the row has no
spare capacity or shares its array with no other row; `Mem.AddColumns.loop` is the loop with
the write in place. -/
def AddColumns.loop (columns : Table) (filler : Row) : Nat → Table → Run Table
  | _, [] => pure []
  | i, row :: rest => do
    let newRow ←
      if i < columns.length then do
        let c ← index columns i
        pure (row ++ c)
      else
        pure (row ++ filler)
    let newRest ← AddColumns.loop columns filler (i + 1) rest
    pure (newRow :: newRest)

/-- AddColumns to the table, on table values. The supplied columns must have the first row as
a header. If the columns are too short, empty filler values are added. The operation on
stored tables is `Mem.AddColumns`. -/
def AddColumns (m columns : Table) : Run Table := do
  let c0 ← index columns 0
  let filler := makeStrings c0.length
  AddColumns.loop columns filler 0 m

/-! ## Colmap -/

/-- The loop of `Colmap`: `columns[col] = i` for each header name in turn. -/
def Colmap.loop : Row → Nat → ColumnIndices → ColumnIndices
  | [], _, columns => columns
  | col :: rest, i, columns => Colmap.loop rest (i + 1) (columns.set col i)

/-- Colmap returns map of all the column names with which index they have in the table. -/
def Colmap (m : Table) : Run ColumnIndices := do
  let m0 ← index m 0
  pure (Colmap.loop m0 0 GoMap.empty)

/-! ## Filter -/

/-- The loop of `Filter`: appends to `result` the lines that satisfy `f`. -/
def Filter.loop (f : Row → ColumnIndices → Bool) (cmap : ColumnIndices) : Table → Table → Table
  | [], result => result
  | line :: rest, result =>
    if f line cmap then Filter.loop f cmap rest (result ++ [line])
    else Filter.loop f cmap rest result

/-- Filter keeps the lines satisfying the formula into a new table. Header row is skipped. -/
def Filter (m : Table) (f : Row → ColumnIndices → Bool) : Run Table := do
  let m0 ← index m 0
  let result : Table := [] ++ [m0]
  let cmap ← Colmap m
  let lines ← sliceFrom m 1
  pure (Filter.loop f cmap lines result)

/-! ## LeftJoin -/

/-- The first loop of `LeftJoin`: `k[v[0]] = v[1:]` for each row `v` of `right[1:]`. -/
def LeftJoin.keys : Table → GoMap Row → Run (GoMap Row)
  | [], k => pure k
  | v :: rest, k => do
    let v0 ← index v 0
    let v1 ← sliceFrom v 1
    LeftJoin.keys rest (k.set v0 v1)

/-- The second loop of `LeftJoin` on table values: `n` iterations from index `i`, each
replacing row `m[i+1]` by its extension. `append(m[i+1], ...)` is taken as a new row here,
which it is when the row has no spare capacity or shares its array with no other row;
`Mem.LeftJoin.rows` is the loop with the write in place. -/
def LeftJoin.rows (k : GoMap Row) (filler : Row) : Nat → Nat → Table → Run Table
  | 0, _, m => pure m
  | n + 1, i, m => do
    let row ← index m (i + 1)
    let key ← index row 0
    match k.get key with
    | none => LeftJoin.rows k filler n (i + 1) (m.set (i + 1) (row ++ filler))
    | some sl => LeftJoin.rows k filler n (i + 1) (m.set (i + 1) (row ++ sl))

/-- LeftJoin on table values: copies the values of `right` onto the lines of `m` with a
matching key; the key is the first column. Lines without a match get an empty filler. The
operation on stored tables is `Mem.LeftJoin`. -/
def LeftJoin (m right : Table) : Run Table := do
  let r0 ← index right 0
  let newcols ← sliceFrom r0 1
  let m0 ← index m 0
  let m := m.set 0 (m0 ++ newcols)
  let rrows ← sliceFrom right 1
  let k ← LeftJoin.keys rrows GoMap.empty
  let filler := makeStrings newcols.length
  let mrows ← sliceFrom m 1
  LeftJoin.rows k filler mrows.length 0 m

/-! ## Select -/

/-- The inner loop of `Select`: scans the header from index `j` and returns
`(found, foundNdx)` as they stand when the loop ends. -/
def Select.scan (colname : String) : Row → Nat → Bool × Nat
  | [], _ => (false, 0)
  | target :: rest, j =>
    if target = colname then (true, j) else Select.scan colname rest (j + 1)

/-- The text of the error `Select` returns for a column that is not found. -/
def Select.notFound (colname : String) : String :=
  "Column " ++ colname ++ " not found in table"

/-- The first loop of `Select`: the index of each requested column, or the error. -/
def Select.indices (m : Table) : List String → Run (Except String (List Nat))
  | [] => pure (.ok [])
  | colname :: rest => do
    let m0 ← index m 0
    let (found, foundNdx) := Select.scan colname m0 0
    if !found then
      pure (.error (Select.notFound colname))
    else do
      match ← Select.indices m rest with
      | .error e => pure (.error e)
      | .ok is => pure (.ok (foundNdx :: is))

/-- The loop that fills `tmp`: `tmp[i] = row[indices[i]]`. -/
def Select.pick (row : Row) : List Nat → Run Row
  | [] => pure []
  | ndx :: rest => do
    let v ← index row ndx
    let tmp ← Select.pick row rest
    pure (v :: tmp)

/-- The second loop of `Select`: appends the picked fields of each row to `table`. -/
def Select.rows (indices : List Nat) : Table → Table → Run Table
  | [], table => pure table
  | row :: rest, table => do
    let tmp ← Select.pick row indices
    Select.rows indices rest (table ++ [tmp])

/-- Select creates a table with the column names supplied and in that order. It returns
the pair `(table, err)` of the Go function; `err` is `none` for Go `nil`. -/
def Select (m : Table) (columns : List String) : Run (Table × Option String) := do
  match ← Select.indices m columns with
  | .error e => pure ([], some e)
  | .ok indices => do
    let table : Table := [] ++ [columns]
    let lines ← sliceFrom m 1
    let table ← Select.rows indices lines table
    pure (table, none)

/-! ## Equal -/

/-- The inner loop of `Equal` over the fields of row `i`, from column `j`: returns the
value of `ok` and whether the function returned from inside the loop. -/
def Equal.cols (right : Table) (i : Nat) : Row → Nat → Bool → Run (Bool × Bool)
  | [], _, ok => pure (ok, false)
  | col :: rest, j, _ => do
    let ri ← index right i
    let rij ← index ri j
    let ok := decide (col = rij)
    if !ok then pure (ok, true) else Equal.cols right i rest (j + 1) ok

/-- The outer loop of `Equal` over the rows from index `i`: returns the final `ok`. -/
def Equal.rows (right : Table) : Table → Nat → Bool → Run Bool
  | [], _, ok => pure ok
  | row :: rest, i, ok => do
    let (ok, returned) ← Equal.cols right i row 0 ok
    if returned then pure ok else Equal.rows right rest (i + 1) ok

/-- Equal compares two tables; the named result `ok` starts as `false`. -/
def Equal (m right : Table) : Run Bool :=
  if m.length ≠ right.length then pure false
  else do
    let m0 ← index m 0
    let r0 ← index right 0
    if m0.length ≠ r0.length then pure false
    else Equal.rows right m 0 false

/-! ## Auxiliary definitions used in the proofs -/

/-- What one iteration of the second loop of `LeftJoin` makes of a row. -/
def LeftJoin.extend (k : GoMap Row) (filler : Row) (row : Row) : Row :=
  match row[0]? with
  | none => row
  | some key =>
    match k.get key with
    | none => row ++ filler
    | some sl => row ++ sl

/-- The width of a table: the length of its row 0 (zero for a table without rows). -/
def headerWidth (t : Table) : Nat := (t.headD []).length

/-- A table is rectangular when every row is as long as row 0; a table with zero rows is
rectangular. -/
def Rectangular (t : Table) : Prop := ∀ row ∈ t, row.length = headerWidth t

instance (t : Table) : Decidable (Rectangular t) := by
  unfold Rectangular
  infer_instance

/-! ## Storage model

Go slices are not values: a `[]string` is a window (array, offset, length, capacity) into a
backing array, and `append` writes into that array when the capacity allows, whoever else
has a window on the same cells. `AddColumns` and `LeftJoin` append to the rows of the
receiver, and `Append` appends to the receiver itself, so what they return, and what they
leave behind, depends on how the tables are stored. The namespace `Mem` embeds these three
operations over an explicit memory. The definitions above, over table values, give the
returned table when no append can reach a cell that another row shows
(`Mem.LeftJoin_refines_value`, `Mem.AddColumns_refines_value`); the table that `Append`
returns does not depend on the storage (`Mem.Append_refines_value`), and `Filter`, `Select`,
`Colmap` and `Equal` only read their tables and build new rows.
-/

namespace Mem

/-- A Go slice value: the backing array it points into, the position of its element 0 in
that array, its length and its capacity. -/
structure Slice where
  arr : Nat
  off : Nat
  len : Nat
  cap : Nat
  deriving DecidableEq

/-- The memory: the backing arrays of rows (arrays of strings) and the backing arrays of
tables (arrays of slice values). A row is a slice into `strs`, a table a slice into
`rows`. -/
structure Heap where
  strs : List (List String)
  rows : List (List Slice)
  deriving DecidableEq

/-- The zero value of a slice: Go `nil`. -/
def Slice.nil : Slice := ⟨0, 0, 0, 0⟩

/-- Go `s[1:]`: panics when the slice is empty. -/
def Slice.from1 (s : Slice) : Run Slice :=
  if 1 ≤ s.len then .ok ⟨s.arr, s.off + 1, s.len - 1, s.cap - 1⟩ else .error .panic

/-- The elements a slice shows: `len` cells of its array from `off`. A slice without
elements shows none, whatever its array. -/
def contents {α : Type} (arrays : List (List α)) (s : Slice) : Run (List α) :=
  if s.len = 0 then .ok []
  else
    match arrays[s.arr]? with
    | some a => if s.off + s.len ≤ a.length then .ok ((a.drop s.off).take s.len)
      else .error .panic
    | none => .error .panic

/-- Go `s[i]`: panics when `i` is not below the length. -/
def getAt {α : Type} (arrays : List (List α)) (s : Slice) (i : Nat) : Run α :=
  if i < s.len then
    match arrays[s.arr]? with
    | some a => index a (s.off + i)
    | none => .error .panic
  else .error .panic

/-- Go `s[i] = v`: writes cell `off + i` of the array of `s`. -/
def setAt {α : Type} (arrays : List (List α)) (s : Slice) (i : Nat) (v : α) :
    Run (List (List α)) :=
  if i < s.len then
    match arrays[s.arr]? with
    | some a =>
      if s.off + i < a.length then .ok (arrays.set s.arr (a.set (s.off + i) v))
      else .error .panic
    | none => .error .panic
  else .error .panic

/-- The array `a` with the cells from `pos` on replaced by `vals`. -/
def overwrite {α : Type} (a : List α) (pos : Nat) (vals : List α) : List α :=
  a.take pos ++ vals ++ a.drop (pos + vals.length)

/-- Go `append(s, vals...)`. Without values the slice is returned as it is. When the values
fit into the capacity they are written into the array of `s`, behind its elements, whoever
else shows those cells; otherwise a new array is allocated, of a capacity that the run time
chooses (`grow`, given the old capacity and the length needed) and that is at least the
length needed, and the elements and the values are copied to it. -/
def appendTo {α : Type} (zero : α) (grow : Nat → Nat → Nat) (arrays : List (List α))
    (s : Slice) (vals : List α) : Run (Slice × List (List α)) :=
  if vals.length = 0 then .ok (s, arrays)
  else if s.len + vals.length ≤ s.cap then
    match arrays[s.arr]? with
    | some a =>
      .ok (⟨s.arr, s.off, s.len + vals.length, s.cap⟩,
        arrays.set s.arr (overwrite a (s.off + s.len) vals))
    | none => .error .panic
  else do
    let old ← contents arrays s
    let n := s.len + vals.length
    let c := max n (grow s.cap n)
    pure (⟨arrays.length, 0, n, c⟩, arrays ++ [old ++ vals ++ List.replicate (c - n) zero])

/-- Go `make([]T, n)`: a new array of `n` zero values and the slice of all of it. -/
def makeSlice {α : Type} (zero : α) (arrays : List (List α)) (n : Nat) :
    Slice × List (List α) :=
  (⟨arrays.length, 0, n, n⟩, arrays ++ [List.replicate n zero])

/-- The strings a row shows, if it lies within its array. -/
def Heap.viewRow (h : Heap) (s : Slice) : Option Row :=
  match contents h.strs s with
  | .ok row => some row
  | .error _ => none

/-- The rows that a list of slice values shows. -/
def Heap.viewRows (h : Heap) : List Slice → Option Table
  | [] => some []
  | s :: rest =>
    match h.viewRow s, h.viewRows rest with
    | some row, some tl => some (row :: tl)
    | _, _ => none

/-- The table a table slice shows: the value `[][]string` a Go program reads through it. -/
def Heap.viewTable (h : Heap) (t : Slice) : Option Table :=
  match contents h.rows t with
  | .ok ss => h.viewRows ss
  | .error _ => none

/-- A growth policy for `append`: twice the old capacity (the run time's choice for short
slices), used where a concrete policy is needed. -/
def doubling (cap _needed : Nat) : Nat := 2 * cap

/-! ### Append, with its storage -/

/-- Append as it works on memory (table.go:119-130): `m = append(m, a[1:]...)` writes into
the array of `m` when the rows of `a` fit into its capacity. Returns the table slice and the
memory. -/
def Append (grow : Nat → Nat → Nat) (h : Heap) (m a : Slice) : Run (Slice × Heap) :=
  if m.len > 0 then do
    let m0 ← getAt h.rows m 0
    let a0 ← getAt h.rows a 0
    if m0.len ≠ a0.len then do
      let m0v ← contents h.strs m0
      let a0v ← contents h.strs a0
      throw (Failure.fatal m0.len a0.len m0v a0v)
    else do
      let rest ← a.from1
      let vals ← contents h.rows rest
      let (m', rows') ← appendTo Slice.nil grow h.rows m vals
      pure (m', ⟨h.strs, rows'⟩)
  else
    pure (a, h)

/-! ### AddColumns, with its storage -/

/-- What iteration `i` of the loop of `AddColumns` appends: `columns[i]` when
`i < len(columns)`, the filler otherwise. -/
def AddColumns.source (h : Heap) (columns filler : Slice) (i : Nat) : Run Slice :=
  if i < columns.len then getAt h.rows columns i else pure filler

/-- The loop of `AddColumns` (table.go:141-147): `n` iterations from index `i`;
`newTable[i] = append(row, ...)` appends to the row of `m` itself. -/
def AddColumns.loop (grow : Nat → Nat → Nat) (m columns filler newTable : Slice) :
    Nat → Nat → Heap → Run Heap
  | 0, _, h => pure h
  | n + 1, i, h => do
    let row ← getAt h.rows m i
    let src ← AddColumns.source h columns filler i
    let vals ← contents h.strs src
    let (newRow, strs') ← appendTo "" grow h.strs row vals
    let rows' ← setAt h.rows newTable i newRow
    AddColumns.loop grow m columns filler newTable n (i + 1) ⟨strs', rows'⟩

/-- AddColumns as it works on memory (table.go:135-150): the filler and the new table are
new arrays, the rows of the new table are the rows of `m` appended to. Returns the new table
slice and the memory. -/
def AddColumns (grow : Nat → Nat → Nat) (h : Heap) (m columns : Slice) :
    Run (Slice × Heap) := do
  let c0 ← getAt h.rows columns 0
  let (filler, strs1) := makeSlice "" h.strs c0.len
  let (newTable, rows1) := makeSlice Slice.nil h.rows m.len
  let h' ← AddColumns.loop grow m columns filler newTable m.len 0 ⟨strs1, rows1⟩
  pure (newTable, h')

/-! ### LeftJoin, with its storage -/

/-- The first loop of `LeftJoin` (table.go:188-190): `k[v[0]] = v[1:]` for the `n` rows of
`rest` from index `j`; the map holds slice values, not copies of the fields. -/
def LeftJoin.keys (h : Heap) (rest : Slice) : Nat → Nat → GoMap Slice → Run (GoMap Slice)
  | 0, _, k => pure k
  | n + 1, j, k => do
    let v ← getAt h.rows rest j
    let v0 ← getAt h.strs v 0
    let v1 ← v.from1
    LeftJoin.keys h rest n (j + 1) (k.set v0 v1)

/-- What the second loop of `LeftJoin` appends for a key: `sl := k[key]`, or the filler
when `sl == nil`, that is, when the key is absent. -/
def LeftJoin.source (k : GoMap Slice) (filler : Slice) (key : String) : Slice :=
  match k.get key with
  | none => filler
  | some sl => sl

/-- The second loop of `LeftJoin` (table.go:193-203): `n` iterations from index `i`, each
with `m[i+1] = append(m[i+1], ...)`. -/
def LeftJoin.rows (grow : Nat → Nat → Nat) (m : Slice) (k : GoMap Slice) (filler : Slice) :
    Nat → Nat → Heap → Run Heap
  | 0, _, h => pure h
  | n + 1, i, h => do
    let row ← getAt h.rows m (i + 1)
    let key ← getAt h.strs row 0
    let vals ← contents h.strs (LeftJoin.source k filler key)
    let (newRow, strs') ← appendTo "" grow h.strs row vals
    let rows' ← setAt h.rows m (i + 1) newRow
    LeftJoin.rows grow m k filler n (i + 1) ⟨strs', rows'⟩

/-- LeftJoin as it works on memory (table.go:180-205): the header append, the map of the
right rows read after it, the filler, and the appends to the data rows, in this order.
Returns the table slice `m` and the memory. -/
def LeftJoin (grow : Nat → Nat → Nat) (h : Heap) (m right : Slice) : Run (Slice × Heap) := do
  let r0 ← getAt h.rows right 0
  let newcols ← r0.from1
  let m0 ← getAt h.rows m 0
  let vals ← contents h.strs newcols
  let (m0', strs1) ← appendTo "" grow h.strs m0 vals
  let rows1 ← setAt h.rows m 0 m0'
  let rest ← right.from1
  let k ← LeftJoin.keys ⟨strs1, rows1⟩ rest rest.len 0 GoMap.empty
  let (filler, strs2) := makeSlice "" strs1 newcols.len
  let mrows ← m.from1
  let h' ← LeftJoin.rows grow m k filler mrows.len 0 ⟨strs2, rows1⟩
  pure (m, h')

/-! ### Well-formed slices, storage conditions, and the memories of the examples -/

/-- A slice is valid in a list of arrays when its length is within its capacity and its
capacity within its array. -/
def Valid {α : Type} (arrays : List (List α)) (s : Slice) : Prop :=
  s.len ≤ s.cap ∧ (s.cap = 0 ∨ ∃ a, arrays[s.arr]? = some a ∧ s.off + s.cap ≤ a.length)

/-- Every array of `arrays` is still there in `arrays'`, with the same length. -/
def SameShape {α : Type} (arrays arrays' : List (List α)) : Prop :=
  ∀ (a : Nat) (x : List α), arrays[a]? = some x →
    ∃ x' : List α, arrays'[a]? = some x' ∧ x'.length = x.length

/-- The length of what iteration `idx` of the loop of `AddColumns` appends. -/
def AddColumns.srcLen (columns filler : Slice) (cs : List Slice) (idx : Nat) : Nat :=
  if idx < columns.len then
    match cs[idx]? with
    | some c => c.len
    | none => 0
  else filler.len

/-- The rows of a table are slices that memory can hold: the table shows a list of row
slices, each with its capacity within its array. -/
def Heap.Holds (h : Heap) (t : Slice) : Prop :=
  ∃ ss, contents h.rows t = .ok ss ∧ ∀ s ∈ ss, Valid h.strs s

/-- The map of slices `k` stands for the map of rows `kv`: they hold the same keys, and the
slice for a key shows, in the arrays `S`, the row for that key; the slice lies in one of the
arrays `arrs`. -/
def KRel (S : List (List String)) (arrs : List Nat) (k : GoMap Slice) (kv : GoMap Row) :
    Prop :=
  ∀ key : String, (k.get key = none ∧ kv.get key = none) ∨
    ∃ sl row, k.get key = some sl ∧ kv.get key = some row ∧ contents S sl = .ok row ∧
      (sl.len = 0 ∨ sl.arr ∈ arrs)

/-- Two row slices are stored apart: whichever of them has spare capacity has a backing
array that the other does not use, so an append in place to one leaves the other alone. -/
def Apart (p q : Slice) : Prop :=
  (p.len < p.cap → q.arr ≠ p.arr) ∧ (q.len < q.cap → p.arr ≠ q.arr)

/-- Every slice of the map `k` is valid in `S` and is a row of `srcs` without its first
field. -/
def KLens (S : List (List String)) (srcs : List Slice) (k : GoMap Slice) : Prop :=
  ∀ (key : String) (sl : Slice), k.get key = some sl →
    Valid S sl ∧ ∃ r ∈ srcs, sl.len = r.len - 1

instance {α : Type} (arrays : List (List α)) (s : Slice) : Decidable (Valid arrays s) :=
  decidable_of_iff (s.len ≤ s.cap ∧ (s.cap = 0 ∨
      (s.arr < arrays.length ∧ s.off + s.cap ≤ ((arrays[s.arr]?).getD []).length))) (by
    unfold Valid
    constructor
    · rintro ⟨h1, h2 | ⟨h3, h4⟩⟩
      · exact ⟨h1, Or.inl h2⟩
      · refine ⟨h1, Or.inr ⟨arrays[s.arr], List.getElem?_eq_getElem h3, ?_⟩⟩
        simpa [List.getElem?_eq_getElem h3] using h4
    · rintro ⟨h1, h2 | ⟨a, ha, h4⟩⟩
      · exact ⟨h1, Or.inl h2⟩
      · exact ⟨h1, Or.inr ⟨(List.getElem?_eq_some_iff.mp ha).1, by simpa [ha] using h4⟩⟩)

instance (p q : Slice) : Decidable (Apart p q) := by
  unfold Apart
  infer_instance

/-- The row slices of a table slice; none when the table slice cannot be read. -/
def Heap.rowSlices (h : Heap) (t : Slice) : List Slice :=
  match contents h.rows t with
  | .ok ss => ss
  | .error _ => []

/-- The storage of the rows of `m` is apart from the rows of `right` and from each other:
the slot of row 0 of `m` is not the slot of a data row of `right`; the capacity of each row
of `m` lies within its backing array; and a row of `m` with spare capacity has a backing
array that no other row of `m` and no row of `right` uses. Tables written as literals or
read by `ReadCSV` are stored this way: each row in an array of its own. -/
def Heap.RowsApart (h : Heap) (m right : Slice) : Prop :=
  (m.arr ≠ right.arr ∨ m.off ≤ right.off ∨ right.off + right.len ≤ m.off) ∧
  (∀ p ∈ h.rowSlices m, Valid h.strs p) ∧
  (h.rowSlices m).Pairwise Apart ∧
  ∀ p ∈ h.rowSlices m, p.len < p.cap → ∀ r ∈ h.rowSlices right, r.arr ≠ p.arr

instance (h : Heap) (m right : Slice) : Decidable (h.RowsApart m right) := by
  unfold Heap.RowsApart
  infer_instance

/-- Every row slice of the table has its capacity within its backing array, as every slice
of a Go program has. -/
def Heap.WellFormed (h : Heap) (t : Slice) : Prop :=
  ∀ p ∈ h.rowSlices t, Valid h.strs p

instance (h : Heap) (t : Slice) : Decidable (h.WellFormed t) := by
  unfold Heap.WellFormed
  infer_instance

/-- The memory of `TestLeftJoin`-like literals: a left table
`{{"queue","data1"},{"one","1"},{"three","3"}}` at `⟨0, 0, 3, 3⟩` and a right table
`{{"queue","data2","data3"},{"one","d2","d3"},{"one","e2"}}` at `⟨1, 0, 3, 3⟩`, each row in
an array of its own. -/
def literalTables : Heap :=
  ⟨[["queue", "data1"], ["one", "1"], ["three", "3"],
    ["queue", "data2", "data3"], ["one", "d2", "d3"], ["one", "e2"]],
   [[⟨0, 0, 2, 2⟩, ⟨1, 0, 2, 2⟩, ⟨2, 0, 2, 2⟩], [⟨3, 0, 3, 3⟩, ⟨4, 0, 3, 3⟩, ⟨5, 0, 2, 2⟩]]⟩

/-- The memory of
`flat := []string{"key","val","k1","a","k2","b"}`,
`left := Table{flat[0:2], flat[2:4], flat[4:6]}` at `⟨0, 0, 3, 3⟩` and
`right := Table{{"key","x"},{"k1","X1"},{"k2","X2"}}` at `⟨1, 0, 3, 3⟩`:
the rows of `left` are windows of one array, each with the rest of the array as capacity. -/
def flatJoinTables : Heap :=
  ⟨[["key", "val", "k1", "a", "k2", "b"], ["key", "x"], ["k1", "X1"], ["k2", "X2"]],
   [[⟨0, 0, 2, 6⟩, ⟨0, 2, 2, 4⟩, ⟨0, 4, 2, 2⟩], [⟨1, 0, 2, 2⟩, ⟨2, 0, 2, 2⟩, ⟨3, 0, 2, 2⟩]]⟩

/-- The memory of `flat := []string{"h","v1","v2"}`,
`A := Table{flat[0:1], flat[1:2], flat[2:3]}` at `⟨0, 0, 3, 3⟩` and
`B := Table{{"c"},{"x1"},{"x2"}}` at `⟨1, 0, 3, 3⟩`: the rows of `A` are windows of one
array, each with the rest of the array as capacity. -/
def flatColumnTables : Heap :=
  ⟨[["h", "v1", "v2"], ["c"], ["x1"], ["x2"]],
   [[⟨0, 0, 1, 3⟩, ⟨0, 1, 1, 2⟩, ⟨0, 2, 1, 1⟩], [⟨1, 0, 1, 1⟩, ⟨2, 0, 1, 1⟩, ⟨3, 0, 1, 1⟩]]⟩

/-- The memory of `big := Table{{"k","w"},{"k","v"},{"k","z"}}` with `right := big[0:2]` at
`⟨0, 0, 2, 3⟩` and `left := big[1:3]` at `⟨0, 1, 2, 2⟩`: row 0 of `left` is row 1 of
`right`. -/
def overlapTables : Heap :=
  ⟨[["k", "w"], ["k", "v"], ["k", "z"]], [[⟨0, 0, 2, 2⟩, ⟨1, 0, 2, 2⟩, ⟨2, 0, 2, 2⟩]]⟩

/-- The memory of `big := Table{{"ah"},{"ch"},{"c1"},{"c2"}}` with `A := big[0:1]` at
`⟨0, 0, 1, 4⟩` and `C := big[1:4]` at `⟨0, 1, 3, 3⟩`, and of
`B := Table{{"bh"},{"b1"},{"b2"}}` at `⟨1, 0, 3, 3⟩`: the rows of `C` lie in the spare
capacity of `A`. -/
def spareTables : Heap :=
  ⟨[["ah"], ["ch"], ["c1"], ["c2"], ["bh"], ["b1"], ["b2"]],
   [[⟨0, 0, 1, 1⟩, ⟨1, 0, 1, 1⟩, ⟨2, 0, 1, 1⟩, ⟨3, 0, 1, 1⟩],
    [⟨4, 0, 1, 1⟩, ⟨5, 0, 1, 1⟩, ⟨6, 0, 1, 1⟩]]⟩

/-- The memory of the literals `Table{{"k","a"},{"1","x"}}` at `⟨0, 0, 2, 2⟩`,
`Table{{"k","b"},{"1","y"}}` at `⟨1, 0, 2, 2⟩` and `Table{{"c"},{"p"},{"q"}}` at
`⟨2, 0, 3, 3⟩`, each row in an array of its own. -/
def joinedTwice : Heap :=
  ⟨[["k", "a"], ["1", "x"], ["k", "b"], ["1", "y"], ["c"], ["p"], ["q"]],
   [[⟨0, 0, 2, 2⟩, ⟨1, 0, 2, 2⟩], [⟨2, 0, 2, 2⟩, ⟨3, 0, 2, 2⟩],
    [⟨4, 0, 1, 1⟩, ⟨5, 0, 1, 1⟩, ⟨6, 0, 1, 1⟩]]⟩

end Mem

/-! ## Basic facts about the run-time operations -/

theorem bind_ok {α β : Type} (a : α) (f : α → Run β) : (Except.ok a >>= f) = f a := rfl

theorem bind_error {α β : Type} (e : Failure) (f : α → Run β) :
    ((Except.error e : Run α) >>= f) = Except.error e := rfl

theorem pure_eq_ok {α : Type} (a : α) : (pure a : Run α) = Except.ok a := rfl

theorem index_cons_zero {α : Type} (x : α) (xs : List α) : index (x :: xs) 0 = .ok x := by
  simp [index]

theorem index_cons_succ {α : Type} (x : α) (xs : List α) (i : Nat) :
    index (x :: xs) (i + 1) = index xs i := by
  simp [index]

theorem index_nil {α : Type} (i : Nat) : index ([] : List α) i = .error .panic := by
  simp [index]

theorem index_of_lt {α : Type} (xs : List α) (i : Nat) (h : i < xs.length) :
    index xs i = .ok xs[i] := by
  simp [index, List.getElem?_eq_getElem h]

theorem index_of_getElem? {α : Type} (xs : List α) (i : Nat) (x : α) (h : xs[i]? = some x) :
    index xs i = .ok x := by
  simp [index, h]

theorem index_of_le {α : Type} (xs : List α) (i : Nat) (h : xs.length ≤ i) :
    index xs i = .error .panic := by
  simp [index, List.getElem?_eq_none h]

theorem sliceFrom_cons_one {α : Type} (x : α) (xs : List α) :
    sliceFrom (x :: xs) 1 = .ok xs := by
  simp [sliceFrom]

theorem sliceFrom_nil_one {α : Type} : sliceFrom ([] : List α) 1 = .error .panic := rfl

/-! ## Append -/

/-- C4. Append of two non-empty tables with the same header width returns the rows of the
left table, header included, followed by rows 1..end of the right table; the right header
is dropped whatever it holds, and the result has `len(left) + len(right) - 1` rows. -/
theorem Append_same_width (lh rh : Row) (lt rt : Table) (hw : lh.length = rh.length) :
    Append (lh :: lt) (rh :: rt) = .ok ((lh :: lt) ++ rt) ∧
      ((lh :: lt) ++ rt).length = (lh :: lt).length + (rh :: rt).length - 1 := by
  constructor
  · simp [Append, index_cons_zero, sliceFrom_cons_one, bind_ok, pure_eq_ok, hw]
  · simp only [List.length_append, List.length_cons]
    omega

/-- The statement of `Append_same_width` at the tables of `TestAppend`, with a right header
of other names and two data rows. -/
theorem Append_same_width_witness :
    Append [["one", "two"], ["1", "2"]] [["x", "y"], ["3", "4"], ["5", "6"]]
        = .ok ([["one", "two"], ["1", "2"]] ++ [["3", "4"], ["5", "6"]]) ∧
      ([["one", "two"], ["1", "2"]] ++ [["3", "4"], ["5", "6"]]).length
        = [["one", "two"], ["1", "2"]].length + [["x", "y"], ["3", "4"], ["5", "6"]].length - 1 :=
  Append_same_width ["one", "two"] ["x", "y"] [["1", "2"]] [["3", "4"], ["5", "6"]] (by decide)

/-- C5. Append onto a table with zero rows returns exactly the other table: no shape check
is made and row 0 of the other table is kept. -/
theorem Append_empty_left (b : Table) : Append [] b = .ok b := rfl

/-- C6. For a left and a right table with at least one row each, Append terminates with
`fatal` exactly when the two headers differ in length (and otherwise returns a table); on a
left table with zero rows Append never fails. -/
theorem Append_fatal_iff (lh rh : Row) (lt rt : Table) :
    ((∃ a b c d, Append (lh :: lt) (rh :: rt) = .error (Failure.fatal a b c d))
        ↔ lh.length ≠ rh.length) ∧
      (lh.length = rh.length → ∃ t, Append (lh :: lt) (rh :: rt) = .ok t) ∧
      (∀ a : Table, ∃ t, Append [] a = .ok t) := by
  refine ⟨?_, ?_, fun a => ⟨a, rfl⟩⟩
  · by_cases hw : lh.length = rh.length
    · simp [Append, index_cons_zero, sliceFrom_cons_one, bind_ok, pure_eq_ok, hw]
    · simp [Append, index_cons_zero, bind_ok, hw, throw, throwThe, MonadExceptOf.throw]
  · intro hw
    exact ⟨_, (Append_same_width lh rh lt rt hw).1⟩

/-! ## AddColumns -/

theorem AddColumns_loop_spec (columns : Table) (filler : Row) (rows : Table) (i : Nat) :
    ∃ res, AddColumns.loop columns filler i rows = .ok res ∧ res.length = rows.length ∧
      ∀ j a, rows[j]? = some a →
        (∀ b, columns[i + j]? = some b → res[j]? = some (a ++ b)) ∧
        (columns.length ≤ i + j → res[j]? = some (a ++ filler)) := by
  induction rows generalizing i with
  | nil => exact ⟨[], rfl, rfl, by simp⟩
  | cons row rest ih =>
    obtain ⟨tl, htl, hlen, hrows⟩ := ih (i + 1)
    by_cases hi : i < columns.length
    · refine ⟨(row ++ columns.get ⟨i, hi⟩) :: tl, ?_, by simp [hlen], ?_⟩
      · simp [AddColumns.loop, hi, index_of_lt, htl, bind_ok, pure_eq_ok]
      · intro j a hj
        cases j with
        | zero =>
          simp only [List.getElem?_cons_zero, Option.some.injEq] at hj
          subst hj
          constructor
          · intro b hb
            rw [Nat.add_zero, List.getElem?_eq_getElem hi] at hb
            simp only [Option.some.injEq] at hb
            simp [← hb]
          · intro hle
            omega
        | succ j =>
          simp only [List.getElem?_cons_succ] at hj
          have h := hrows j a hj
          simp only [List.getElem?_cons_succ]
          rw [show i + (j + 1) = i + 1 + j by omega]
          exact h
    · refine ⟨(row ++ filler) :: tl, ?_, by simp [hlen], ?_⟩
      · simp [AddColumns.loop, hi, htl, bind_ok, pure_eq_ok]
      · intro j a hj
        cases j with
        | zero =>
          simp only [List.getElem?_cons_zero, Option.some.injEq] at hj
          subst hj
          constructor
          · intro b hb
            rw [Nat.add_zero, List.getElem?_eq_none (by omega)] at hb
            exact absurd hb (by simp)
          · intro _
            simp
        | succ j =>
          simp only [List.getElem?_cons_succ] at hj
          have h := hrows j a hj
          simp only [List.getElem?_cons_succ]
          rw [show i + (j + 1) = i + 1 + j by omega]
          exact h

theorem AddColumns_loop_ignores (columns ext : Table) (filler : Row) (rows : Table) (i : Nat)
    (h : i + rows.length ≤ columns.length) :
    AddColumns.loop (columns ++ ext) filler i rows = AddColumns.loop columns filler i rows := by
  induction rows generalizing i with
  | nil => rfl
  | cons row rest ih =>
    simp only [List.length_cons] at h
    have hi : i < columns.length := by omega
    have hi2 : i < (columns ++ ext).length := by simp; omega
    have hget : (columns ++ ext)[i]? = columns[i]? := List.getElem?_append_left hi
    have hidx : index (columns ++ ext) i = index columns i := by simp [index, hget]
    simp only [AddColumns.loop, hi, hi2, if_true, hidx, ih (i + 1) (by omega)]

/-- AddColumns on table values. For every table `a` and every table `b` with at least a
header row `bh`,
`AddColumns` returns a table with exactly `len(a)` rows; a row with index below `len(b)` is
the row of `a` followed by the row of `b`; a row with index at or beyond `len(b)` is the row
of `a` followed by `len(bh)` empty strings; rows of `b` beyond `len(a)` are ignored. -/
theorem AddColumns_spec (a : Table) (bh : Row) (bt : Table) :
    (∃ res, AddColumns a (bh :: bt) = .ok res ∧ res.length = a.length ∧
      ∀ i row, a[i]? = some row →
        (∀ brow, (bh :: bt)[i]? = some brow → res[i]? = some (row ++ brow)) ∧
        ((bh :: bt).length ≤ i → res[i]? = some (row ++ List.replicate bh.length ""))) ∧
    (∀ ext : Table, a.length ≤ (bh :: bt).length →
      AddColumns a ((bh :: bt) ++ ext) = AddColumns a (bh :: bt)) := by
  constructor
  · obtain ⟨res, hres, hlen, hrows⟩ :=
      AddColumns_loop_spec (bh :: bt) (makeStrings bh.length) a 0
    refine ⟨res, ?_, hlen, ?_⟩
    · simp only [AddColumns, index_cons_zero, bind_ok]
      exact hres
    · intro i row hrow
      have h := hrows i row hrow
      simp only [Nat.zero_add] at h
      exact h
  · intro ext hle
    simp only [AddColumns, List.cons_append, index_cons_zero, bind_ok]
    exact AddColumns_loop_ignores (bh :: bt) ext _ a 0 (by omega)

/-! ## Colmap -/

theorem GoMap_get_set_self {V : Type} (m : GoMap V) (k : String) (v : V) :
    (m.set k v).get k = some v := by
  simp [GoMap.get, GoMap.set]

theorem GoMap_get_set_ne {V : Type} (m : GoMap V) (k s : String) (v : V) (h : s ≠ k) :
    (m.set k v).get s = m.get s := by
  simp [GoMap.get, GoMap.set, h]

theorem GoMap_get_empty {V : Type} (s : String) : (GoMap.empty : GoMap V).get s = none := rfl

/-- A name that occurs in a list has a last occurrence. -/
theorem exists_last_occurrence (hdr : Row) (s : String) (h : s ∈ hdr) :
    ∃ i : Nat, hdr[i]? = some s ∧ ∀ j : Nat, i < j → hdr[j]? ≠ some s := by
  induction hdr with
  | nil => simp at h
  | cons col rest ih =>
    by_cases hr : s ∈ rest
    · obtain ⟨i, hi, hlast⟩ := ih hr
      refine ⟨i + 1, by simpa using hi, ?_⟩
      intro j hj
      cases j with
      | zero => omega
      | succ j => simpa using hlast j (by omega)
    · have hs : s = col := by
        rcases List.mem_cons.mp h with h | h
        · exact h
        · exact absurd h hr
      refine ⟨0, by simp [hs], ?_⟩
      intro j hj
      cases j with
      | zero => omega
      | succ j =>
        intro hget
        exact hr (List.getElem?_mem (by simpa using hget))

theorem Colmap_loop_get (hdr : Row) (i : Nat) (c : ColumnIndices) (s : String) :
    (s ∉ hdr → (Colmap.loop hdr i c).get s = c.get s) ∧
      (∀ j : Nat, hdr[j]? = some s → (∀ j' : Nat, j < j' → hdr[j']? ≠ some s) →
        (Colmap.loop hdr i c).get s = some (i + j)) := by
  induction hdr generalizing i c with
  | nil => simp [Colmap.loop]
  | cons col rest ih =>
    obtain ⟨ih1, ih2⟩ := ih (i + 1) (c.set col i)
    constructor
    · intro hs
      have hne : s ≠ col := fun h => hs (by simp [h])
      have hr : s ∉ rest := fun h => hs (by simp [h])
      rw [Colmap.loop, ih1 hr, GoMap_get_set_ne _ _ _ _ hne]
    · intro j hj hlast
      cases j with
      | zero =>
        have hs : col = s := by simpa using hj
        have hr : s ∉ rest := by
          intro hmem
          obtain ⟨n, hn⟩ := List.mem_iff_getElem?.mp hmem
          exact hlast (n + 1) (by omega) (by simpa using hn)
        rw [Colmap.loop, ih1 hr, ← hs, GoMap_get_set_self]
        rfl
      | succ j =>
        have hj2 : rest[j]? = some s := by simpa using hj
        have hlast2 : ∀ j', j < j' → rest[j']? ≠ some s := by
          intro j' hlt
          simpa using hlast (j' + 1) (by omega)
        rw [Colmap.loop, ih2 j hj2 hlast2]
        congr 1
        omega

/-- C9. For every table with a header row `hdr`, Colmap returns a map that contains a
string `s` exactly when `s` occurs in `hdr`, and then maps `s` to the greatest index at
which `hdr` holds `s`; for a header of distinct names every name is mapped to its index. -/
theorem Colmap_spec (hdr : Row) (rows : Table) :
    ∃ c, Colmap (hdr :: rows) = .ok c ∧
      (∀ s, (c.get s).isSome ↔ s ∈ hdr) ∧
      (∀ (s : String) (i : Nat),
        c.get s = some i ↔ (hdr[i]? = some s ∧ ∀ j : Nat, i < j → hdr[j]? ≠ some s)) ∧
      (hdr.Nodup → ∀ (i : Nat) (s : String), hdr[i]? = some s → c.get s = some i) := by
  have hlast : ∀ s i, hdr[i]? = some s → (∀ j, i < j → hdr[j]? ≠ some s) →
      (Colmap.loop hdr 0 GoMap.empty).get s = some i := by
    intro s i hi hl
    have h := (Colmap_loop_get hdr 0 GoMap.empty s).2 i hi hl
    simpa using h
  have hnot : ∀ s, s ∉ hdr → (Colmap.loop hdr 0 GoMap.empty).get s = none := by
    intro s hs
    rw [(Colmap_loop_get hdr 0 GoMap.empty s).1 hs]
    rfl
  have hiff : ∀ s i, (Colmap.loop hdr 0 GoMap.empty).get s = some i ↔
      (hdr[i]? = some s ∧ ∀ j, i < j → hdr[j]? ≠ some s) := by
    intro s i
    constructor
    · intro hget
      by_cases hs : s ∈ hdr
      · obtain ⟨k, hk, hkl⟩ := exists_last_occurrence hdr s hs
        have hk2 := hlast s k hk hkl
        rw [hget] at hk2
        have hik : i = k := by simpa using hk2
        subst hik
        exact ⟨hk, hkl⟩
      · rw [hnot s hs] at hget
        simp at hget
    · rintro ⟨hi, hl⟩
      exact hlast s i hi hl
  refine ⟨Colmap.loop hdr 0 GoMap.empty, ?_, ?_, hiff, ?_⟩
  · simp [Colmap, index_cons_zero, bind_ok, pure_eq_ok]
  · intro s
    constructor
    · intro hsome
      by_contra hs
      rw [hnot s hs] at hsome
      simp at hsome
    · intro hs
      obtain ⟨k, hk, hkl⟩ := exists_last_occurrence hdr s hs
      rw [hlast s k hk hkl]
      rfl
  · intro hnd i s hi
    refine hlast s i hi ?_
    intro j hij hj
    have hlt : i < hdr.length := (List.getElem?_eq_some_iff.mp hi).1
    have heq : hdr[i]? = hdr[j]? := hi.trans hj.symm
    have := List.getElem?_inj hlt hnd heq
    omega

/-! ## Filter -/

theorem Filter_loop_eq (f : Row → ColumnIndices → Bool) (cmap : ColumnIndices)
    (lines result : Table) :
    Filter.loop f cmap lines result = result ++ lines.filter (fun line => f line cmap) := by
  induction lines generalizing result with
  | nil => simp [Filter.loop]
  | cons line rest ih =>
    by_cases hf : f line cmap = true
    · simp [Filter.loop, hf, ih]
    · simp [Filter.loop, hf, ih]

/-- C8. For every table with a header row and every predicate, Filter returns the header
row unchanged followed by exactly those data rows for which the predicate, applied to the
row and the Colmap of the table, is true, in their original order; when no row satisfies
the predicate the result is the header alone. -/
theorem Filter_spec (hdr : Row) (rows : Table) (f : Row → ColumnIndices → Bool) :
    ∃ cmap, Colmap (hdr :: rows) = .ok cmap ∧
      Filter (hdr :: rows) f = .ok (hdr :: rows.filter (fun line => f line cmap)) ∧
      ((∀ line ∈ rows, f line cmap = false) → Filter (hdr :: rows) f = .ok [hdr]) := by
  have hF : Filter (hdr :: rows) f
      = .ok (hdr :: rows.filter (fun line => f line (Colmap.loop hdr 0 GoMap.empty))) := by
    simp [Filter, Colmap, index_cons_zero, sliceFrom_cons_one, bind_ok, pure_eq_ok,
      Filter_loop_eq]
  refine ⟨Colmap.loop hdr 0 GoMap.empty, ?_, hF, ?_⟩
  · simp [Colmap, index_cons_zero, bind_ok, pure_eq_ok]
  · intro hnone
    rw [hF]
    have : rows.filter (fun line => f line (Colmap.loop hdr 0 GoMap.empty)) = [] := by
      simp only [List.filter_eq_nil_iff]
      intro line hline
      simp [hnone line hline]
    rw [this]

/-! ## Select -/

theorem Select_scan_not_mem (name : String) (hdr : Row) (j : Nat) (h : name ∉ hdr) :
    Select.scan name hdr j = (false, 0) := by
  induction hdr generalizing j with
  | nil => rfl
  | cons target rest ih =>
    have hne : target ≠ name := fun e => h (by simp [e])
    have hr : name ∉ rest := fun e => h (by simp [e])
    simp [Select.scan, hne, ih (j + 1) hr]

theorem Select_scan_mem (name : String) (hdr : Row) (j : Nat) (h : name ∈ hdr) :
    ∃ k : Nat, Select.scan name hdr j = (true, j + k) ∧ hdr[k]? = some name ∧
      ∀ k' : Nat, k' < k → hdr[k']? ≠ some name := by
  induction hdr generalizing j with
  | nil => simp at h
  | cons target rest ih =>
    by_cases ht : target = name
    · exact ⟨0, by simp [Select.scan, ht], by simp [ht], by intro k' hk'; omega⟩
    · have hr : name ∈ rest := by
        rcases List.mem_cons.mp h with e | e
        · exact absurd e.symm ht
        · exact e
      obtain ⟨k, hk, hget, hfirst⟩ := ih (j + 1) hr
      refine ⟨k + 1, ?_, by simpa using hget, ?_⟩
      · simp only [Select.scan, ht, if_false, hk]
        congr 1
        omega
      · intro k' hk'
        cases k' with
        | zero => simpa using ht
        | succ k' => simpa using hfirst k' (by omega)

/-- The result of the first loop of `Select`, in closed form. -/
theorem Select_indices_eq (hdr : Row) (rows : Table) (columns : List String) :
    Select.indices (hdr :: rows) columns =
      .ok (match columns.find? (fun c => decide (c ∉ hdr)) with
        | some c => .error (Select.notFound c)
        | none => .ok (columns.map (fun c => (Select.scan c hdr 0).2))) := by
  induction columns with
  | nil => rfl
  | cons colname rest ih =>
    by_cases hc : colname ∈ hdr
    · obtain ⟨k, hk, _, _⟩ := Select_scan_mem colname hdr 0 hc
      simp only [Select.indices, index_cons_zero, bind_ok, hk, ih, List.find?_cons, hc,
        not_true_eq_false, decide_False, List.map_cons]
      cases List.find? (fun c => decide (c ∉ hdr)) rest <;> rfl
    · simp [Select.indices, index_cons_zero, bind_ok, Select_scan_not_mem colname hdr 0 hc,
        List.find?_cons, hc, pure_eq_ok]

/-- C3. For every table with a header row and every list of requested names, Select returns
an error exactly when some requested name does not occur in row 0; the table returned with
an error has no rows, and the error names the first requested name, in request order, that
is absent from the header. -/
theorem Select_error_iff (hdr : Row) (rows : Table) (columns : List String) :
    ((∃ t e, Select (hdr :: rows) columns = .ok (t, some e)) ↔ ∃ c ∈ columns, c ∉ hdr) ∧
      (∀ t e, Select (hdr :: rows) columns = .ok (t, some e) →
        t = [] ∧ ∃ c, columns.find? (fun c => decide (c ∉ hdr)) = some c ∧
          e = "Column " ++ c ++ " not found in table") := by
  have hsel : ∀ t e, Select (hdr :: rows) columns = .ok (t, some e) →
      t = [] ∧ ∃ c, columns.find? (fun c => decide (c ∉ hdr)) = some c ∧
        e = "Column " ++ c ++ " not found in table" := by
    intro t e h
    simp only [Select, Select_indices_eq, bind_ok] at h
    cases hf : columns.find? (fun c => decide (c ∉ hdr)) with
    | some c =>
      simp only [hf, pure_eq_ok, Except.ok.injEq, Prod.mk.injEq, Option.some.injEq] at h
      exact ⟨h.1.symm, c, rfl, h.2.symm⟩
    | none =>
      simp only [hf, sliceFrom_cons_one, bind_ok, List.nil_append] at h
      cases hr : Select.rows (columns.map (fun c => (Select.scan c hdr 0).2)) rows
          [columns] with
      | error err =>
        rw [hr, bind_error] at h
        exact absurd h (by simp)
      | ok tb =>
        rw [hr, bind_ok, pure_eq_ok] at h
        simp at h
  refine ⟨⟨?_, ?_⟩, hsel⟩
  · rintro ⟨t, e, h⟩
    obtain ⟨_, c, hc, _⟩ := hsel t e h
    have hmem := List.mem_of_find?_eq_some hc
    have hp := List.find?_some hc
    exact ⟨c, hmem, by simpa using hp⟩
  · rintro ⟨c, hc, hnot⟩
    cases hf : columns.find? (fun c => decide (c ∉ hdr)) with
    | some d =>
      refine ⟨[], Select.notFound d, ?_⟩
      simp only [Select, Select_indices_eq, bind_ok, hf]
      rfl
    | none =>
      rw [List.find?_eq_none] at hf
      exact absurd (by simpa using hnot) (hf c hc)

theorem Select_pick_eq (row : Row) (is : List Nat) (h : ∀ k ∈ is, k < row.length) :
    Select.pick row is = .ok (is.map (fun k => row[k]?.getD "")) := by
  induction is with
  | nil => rfl
  | cons ndx rest ih =>
    have hk : ndx < row.length := h ndx (by simp)
    have hrest : ∀ k ∈ rest, k < row.length := fun k hk => h k (by simp [hk])
    simp [Select.pick, index_of_lt row ndx hk, ih hrest, bind_ok, pure_eq_ok,
      List.getElem?_eq_getElem hk]

theorem Select_rows_eq (is : List Nat) (rows table : Table)
    (h : ∀ row ∈ rows, ∀ k ∈ is, k < row.length) :
    Select.rows is rows table
      = .ok (table ++ rows.map (fun row => is.map (fun k => row[k]?.getD ""))) := by
  induction rows generalizing table with
  | nil => simp [Select.rows, pure_eq_ok]
  | cons row rest ih =>
    have hrow : ∀ k ∈ is, k < row.length := h row (by simp)
    have hrest : ∀ r ∈ rest, ∀ k ∈ is, k < r.length := fun r hr => h r (by simp [hr])
    simp [Select.rows, Select_pick_eq row is hrow, bind_ok, ih _ hrest]

/-- C2. For every table with a header row whose data rows are at least as long as the
header, and every list of requested names that all occur in the header, Select returns no
error; the result has as many rows as the source; its row 0 is the requested list; and in
every data row the field at position `i` is the field of the source row at the first header
index that holds requested name `i`. -/
theorem Select_spec (hdr : Row) (rows : Table) (columns : List String)
    (hlen : ∀ row ∈ rows, hdr.length ≤ row.length) (hall : ∀ c ∈ columns, c ∈ hdr) :
    ∃ res, Select (hdr :: rows) columns = .ok (res, none) ∧
      res.length = (hdr :: rows).length ∧ res[0]? = some columns ∧
      ∀ (r : Nat) (row : Row), rows[r]? = some row →
        ∃ out, res[r + 1]? = some out ∧ out.length = columns.length ∧
          ∀ (i : Nat) (name : String), columns[i]? = some name →
            ∃ k : Nat, hdr[k]? = some name ∧ (∀ k' : Nat, k' < k → hdr[k']? ≠ some name) ∧
              ∃ v, row[k]? = some v ∧ out[i]? = some v := by
  have hfind : columns.find? (fun c => decide (c ∉ hdr)) = none := by
    rw [List.find?_eq_none]
    intro c hc
    simpa using hall c hc
  have hidx : ∀ row ∈ rows, ∀ k ∈ columns.map (fun c => (Select.scan c hdr 0).2),
      k < row.length := by
    intro row hrow k hk
    obtain ⟨c, hc, rfl⟩ := List.mem_map.mp hk
    obtain ⟨k, hscan, hget, _⟩ := Select_scan_mem c hdr 0 (hall c hc)
    have hklt : k < hdr.length := (List.getElem?_eq_some_iff.mp hget).1
    have := hlen row hrow
    simp only [hscan]
    omega
  refine ⟨columns :: rows.map (fun row =>
      (columns.map (fun c => (Select.scan c hdr 0).2)).map (fun k => row[k]?.getD "")),
    ?_, by simp, by simp, ?_⟩
  · simp only [Select, Select_indices_eq, hfind, bind_ok, sliceFrom_cons_one, List.nil_append,
      Select_rows_eq _ rows [columns] hidx, pure_eq_ok]
    rfl
  · intro r row hrow
    refine ⟨(columns.map (fun c => (Select.scan c hdr 0).2)).map (fun k => row[k]?.getD ""),
      by simp [hrow], by simp, ?_⟩
    intro i name hname
    obtain ⟨k, hscan, hget, hfirst⟩ :=
      Select_scan_mem name hdr 0 (hall name (List.getElem?_mem hname))
    have hklt : k < hdr.length := (List.getElem?_eq_some_iff.mp hget).1
    have hkrow : k < row.length := by
      have := hlen row (List.getElem?_mem hrow)
      omega
    refine ⟨k, hget, hfirst, row.get ⟨k, hkrow⟩, by simp [List.getElem?_eq_getElem hkrow], ?_⟩
    simp [hname, hscan, List.getElem?_eq_getElem hkrow]

/-- The statement of `Select_spec` at a table whose header repeats a name, which is requested
twice. -/
theorem Select_spec_witness :
    ∃ res, Select [["queue", "data2", "data2"], ["one", "d2", "d3"]] ["data2", "data2"]
        = .ok (res, none) ∧
      res.length = [["queue", "data2", "data2"], ["one", "d2", "d3"]].length ∧
      res[0]? = some ["data2", "data2"] ∧
      ∀ (r : Nat) (row : Row), [["one", "d2", "d3"]][r]? = some row →
        ∃ out, res[r + 1]? = some out ∧ out.length = ["data2", "data2"].length ∧
          ∀ (i : Nat) (name : String), ["data2", "data2"][i]? = some name →
            ∃ k : Nat, ["queue", "data2", "data2"][k]? = some name ∧
              (∀ k' : Nat, k' < k → ["queue", "data2", "data2"][k']? ≠ some name) ∧
              ∃ v, row[k]? = some v ∧ out[i]? = some v :=
  Select_spec ["queue", "data2", "data2"] [["one", "d2", "d3"]] ["data2", "data2"]
    (by decide) (by decide)

/-! ## LeftJoin -/

theorem LeftJoin_keys_spec (rrows : Table) (k : GoMap Row) (h : ∀ v ∈ rrows, v ≠ []) :
    ∃ k', LeftJoin.keys rrows k = .ok k' ∧ ∀ s : String,
      ((∀ v ∈ rrows, v[0]? ≠ some s) → k'.get s = k.get s) ∧
      (∀ (j : Nat) (v : Row), rrows[j]? = some v → v[0]? = some s →
        (∀ (j' : Nat) (w : Row), j < j' → rrows[j']? = some w → w[0]? ≠ some s) →
        k'.get s = some (v.drop 1)) := by
  induction rrows generalizing k with
  | nil => exact ⟨k, rfl, fun s => ⟨fun _ => rfl, by simp⟩⟩
  | cons v rest ih =>
    have hrest : ∀ w ∈ rest, w ≠ [] := fun w hw => h w (by simp [hw])
    cases v with
    | nil => exact absurd rfl (h [] (by simp))
    | cons x xs =>
      obtain ⟨k', hk', hspec⟩ := ih (k.set x xs) hrest
      refine ⟨k', ?_, ?_⟩
      · simp only [LeftJoin.keys, index_cons_zero, sliceFrom_cons_one, bind_ok]
        exact hk'
      · intro s
        obtain ⟨h1, h2⟩ := hspec s
        constructor
        · intro hno
          have hx : s ≠ x := by
            intro e
            exact hno (x :: xs) (by simp) (by simp [e])
          rw [h1 (fun w hw => hno w (by simp [hw])), GoMap_get_set_ne _ _ _ _ hx]
        · intro j v hj hv hlast
          cases j with
          | zero =>
            have hvx : x :: xs = v := by simpa using hj
            subst hvx
            have hxs : x = s := by simpa using hv
            have hno : ∀ w ∈ rest, w[0]? ≠ some s := by
              intro w hw
              obtain ⟨n, hn⟩ := List.mem_iff_getElem?.mp hw
              exact hlast (n + 1) w (by omega) (by simpa using hn)
            rw [h1 hno, ← hxs, GoMap_get_set_self]
            rfl
          | succ j =>
            refine h2 j v (by simpa using hj) hv ?_
            intro j' w hlt hw
            exact hlast (j' + 1) w (by omega) (by simpa using hw)

theorem LeftJoin_rows_eq (k : GoMap Row) (filler : Row) (n i : Nat) (pre rest : Table)
    (hpre : pre.length = i + 1) (hn : rest.length = n) (h : ∀ row ∈ rest, row ≠ []) :
    LeftJoin.rows k filler n i (pre ++ rest)
      = .ok (pre ++ rest.map (LeftJoin.extend k filler)) := by
  induction n generalizing i pre rest with
  | zero =>
    have : rest = [] := List.length_eq_zero.mp hn
    subst this
    simp [LeftJoin.rows, pure_eq_ok]
  | succ n ih =>
    cases rest with
    | nil => simp at hn
    | cons row rest =>
      have hrow : row ≠ [] := h row (by simp)
      have hrest : ∀ r ∈ rest, r ≠ [] := fun r hr => h r (by simp [hr])
      have hlen : rest.length = n := by simpa using hn
      have hidx : index (pre ++ row :: rest) (i + 1) = .ok row := by
        apply index_of_getElem?
        rw [List.getElem?_append_right (by omega)]
        simp [hpre]
      have hset : ∀ newRow : Row,
          (pre ++ row :: rest).set (i + 1) newRow = (pre ++ [newRow]) ++ rest := by
        intro newRow
        rw [List.set_append_right _ _ (by omega)]
        simp [hpre]
      cases row with
      | nil => exact absurd rfl hrow
      | cons key xs =>
        simp only [LeftJoin.rows, hidx, bind_ok, index_cons_zero]
        cases hk : k.get key with
        | none =>
          simp only [hset]
          rw [ih (i + 1) (pre ++ [(key :: xs) ++ filler]) rest (by simp [hpre]) hlen hrest]
          simp [LeftJoin.extend, hk]
        | some sl =>
          simp only [hset]
          rw [ih (i + 1) (pre ++ [(key :: xs) ++ sl]) rest (by simp [hpre]) hlen hrest]
          simp [LeftJoin.extend, hk]

/-- LeftJoin on table values. For every left table with a header row whose data rows each
have at least one field, and every right table with a header row whose rows each have at
least one field,
LeftJoin returns a table with as many rows as the left table; its row 0 is the left header
followed by the right header without its first field; and each data row is the left row
followed by the fields 1..end of the last data row of the right table whose field 0 equals
the left row's field 0, or, when no data row of the right table has that key, by exactly
`len(right[0]) - 1` empty strings. -/
theorem LeftJoin_spec (lh : Row) (lrows : Table) (rh : Row) (rrows : Table)
    (hl : ∀ row ∈ lrows, row ≠ []) (hr : ∀ v ∈ rh :: rrows, v ≠ []) :
    ∃ res, LeftJoin (lh :: lrows) (rh :: rrows) = .ok res ∧
      res.length = (lh :: lrows).length ∧ res[0]? = some (lh ++ rh.drop 1) ∧
      ∀ (i : Nat) (row : Row), lrows[i]? = some row →
        (∀ (j : Nat) (v : Row), rrows[j]? = some v → v[0]? = row[0]? →
          (∀ (j' : Nat) (w : Row), j < j' → rrows[j']? = some w → w[0]? ≠ row[0]?) →
          res[i + 1]? = some (row ++ v.drop 1)) ∧
        ((∀ v ∈ rrows, v[0]? ≠ row[0]?) →
          res[i + 1]? = some (row ++ List.replicate (rh.length - 1) "")) := by
  have hrrows : ∀ v ∈ rrows, v ≠ [] := fun v hv => hr v (by simp [hv])
  obtain ⟨k, hk, hkspec⟩ := LeftJoin_keys_spec rrows GoMap.empty hrrows
  cases rh with
  | nil => exact absurd rfl (hr [] (by simp))
  | cons rkey newcols =>
    have hrun : LeftJoin (lh :: lrows) ((rkey :: newcols) :: rrows)
        = .ok ([lh ++ newcols]
            ++ lrows.map (LeftJoin.extend k (makeStrings newcols.length))) := by
      simp only [LeftJoin, index_cons_zero, sliceFrom_cons_one, bind_ok, List.set_cons_zero,
        hk]
      exact LeftJoin_rows_eq k _ lrows.length 0 [lh ++ newcols] lrows rfl rfl hl
    refine ⟨_, hrun, by simp, by simp, ?_⟩
    intro i row hrow
    have hne : row ≠ [] := hl row (List.getElem?_mem hrow)
    cases row with
    | nil => exact absurd rfl hne
    | cons key xs =>
      obtain ⟨h1, h2⟩ := hkspec key
      have hres : ∀ out : Row, LeftJoin.extend k (makeStrings newcols.length) (key :: xs) = out →
          ([lh ++ newcols] ++ lrows.map (LeftJoin.extend k (makeStrings newcols.length)))[i + 1]?
            = some out := by
        intro out hout
        simp [hrow, hout]
      constructor
      · intro j v hj hv hlast
        apply hres
        have hget := h2 j v hj (by simpa using hv)
          (fun j' w hlt hw => by simpa using hlast j' w hlt hw)
        simp [LeftJoin.extend, hget]
      · intro hno
        apply hres
        have hget := h1 (fun v hv => by simpa using hno v hv)
        rw [GoMap_get_empty] at hget
        simp [LeftJoin.extend, hget, makeStrings]

/-- The statement of `LeftJoin_spec` at a right table with a repeated key and a left table
with one matching and one unmatched row. -/
theorem LeftJoin_spec_witness :
    ∃ res, LeftJoin [["queue", "data1"], ["one", "1"], ["three", "3"]]
        [["queue", "data2", "data3"], ["one", "d2", "d3"], ["one", "e2"]] = .ok res ∧
      res.length = [["queue", "data1"], ["one", "1"], ["three", "3"]].length ∧
      res[0]? = some (["queue", "data1"] ++ ["queue", "data2", "data3"].drop 1) ∧
      ∀ (i : Nat) (row : Row), [["one", "1"], ["three", "3"]][i]? = some row →
        (∀ (j : Nat) (v : Row), [["one", "d2", "d3"], ["one", "e2"]][j]? = some v →
          v[0]? = row[0]? →
          (∀ (j' : Nat) (w : Row), j < j' →
            [["one", "d2", "d3"], ["one", "e2"]][j']? = some w → w[0]? ≠ row[0]?) →
          res[i + 1]? = some (row ++ v.drop 1)) ∧
        ((∀ v ∈ [["one", "d2", "d3"], ["one", "e2"]], v[0]? ≠ row[0]?) →
          res[i + 1]? = some (row ++ List.replicate (["queue", "data2", "data3"].length - 1) "")) :=
  LeftJoin_spec ["queue", "data1"] [["one", "1"], ["three", "3"]]
    ["queue", "data2", "data3"] [["one", "d2", "d3"], ["one", "e2"]] (by decide) (by decide)

/-- On table values: a right table with zero rows satisfies "every row has at least one
field", and on it LeftJoin panics at `right[0]` instead of returning a table. -/
theorem LeftJoin_empty_right_panics :
    (∀ row ∈ [["one", "1"]], row ≠ ([] : Row)) ∧ (∀ v ∈ ([] : Table), v ≠ []) ∧
      LeftJoin [["queue", "data1"], ["one", "1"]] [] = .error Failure.panic :=
  ⟨by decide, by decide, rfl⟩

/-! ## Equal -/

theorem Equal_cols_eq (right : Table) (i : Nat) (rrow rest : Row) (j : Nat) (ok0 : Bool)
    (hri : index right i = .ok rrow) (hlen : rest.length + j = rrow.length) :
    Equal.cols right i rest j ok0
      = .ok (if rest = rrow.drop j then (if rest = [] then ok0 else true, false)
          else (false, true)) := by
  induction rest generalizing j ok0 with
  | nil =>
    have hdrop : rrow.drop j = [] := List.drop_eq_nil_of_le (by simp at hlen; omega)
    rw [hdrop]
    rfl
  | cons col rest ih =>
    have hj : j < rrow.length := by simp at hlen; omega
    have hdrop : rrow.drop j = rrow[j] :: rrow.drop (j + 1) := List.drop_eq_getElem_cons hj
    have hidx : index rrow j = .ok rrow[j] := index_of_getElem? rrow j _
      (List.getElem?_eq_getElem hj)
    have hih := ih (j + 1) true (by simp at hlen; omega)
    rw [Equal.cols, hri, bind_ok, hidx, bind_ok, hdrop]
    by_cases hc : col = rrow[j]
    · have hd : decide (col = rrow[j]) = true := by simp [hc]
      simp only [hd, Bool.not_true, Bool.false_eq_true, if_false]
      rw [hih]
      by_cases hr : rest = rrow.drop (j + 1)
      · have hcr : col :: rest = rrow[j] :: rrow.drop (j + 1) := by rw [hc, ← hr]
        rw [if_pos hr, if_pos hcr, if_neg (List.cons_ne_nil _ _)]
        by_cases hnil : rest = []
        · rw [if_pos hnil]
        · rw [if_neg hnil]
      · have hcr : ¬ (col :: rest = rrow[j] :: rrow.drop (j + 1)) := by
          intro e
          injection e with _ e2
          exact hr e2
        rw [if_neg hr, if_neg hcr]
    · have hd : decide (col = rrow[j]) = false := by simp [hc]
      have hcr : ¬ (col :: rest = rrow[j] :: rrow.drop (j + 1)) := by
        intro e
        injection e with e1 _
        exact hc e1
      simp only [hd, Bool.not_false, if_true]
      rw [if_neg hcr]
      rfl

theorem Equal_rows_eq (right mrest : Table) (i w : Nat) (ok0 : Bool) (hw : 0 < w)
    (hm : ∀ row ∈ mrest, row.length = w) (hr : ∀ row ∈ right, row.length = w)
    (hlen : mrest.length + i = right.length) :
    Equal.rows right mrest i ok0
      = .ok (if mrest = [] then ok0 else decide (mrest = right.drop i)) := by
  induction mrest generalizing i ok0 with
  | nil => rfl
  | cons row rest ih =>
    have hi : i < right.length := by simp at hlen; omega
    have hdrop : right.drop i = right[i] :: right.drop (i + 1) := List.drop_eq_getElem_cons hi
    have hrow : row.length = w := hm row (by simp)
    have hrrow : (right[i]).length = w := hr _ (List.getElem_mem _)
    have hne : row ≠ [] := by
      intro e
      rw [e] at hrow
      simp at hrow
      omega
    have hcols := Equal_cols_eq right i right[i] row 0 ok0
      (index_of_getElem? right i _ (List.getElem?_eq_getElem hi)) (by omega)
    rw [List.drop_zero, if_neg hne] at hcols
    have hih := ih (i + 1) true (fun r hr' => hm r (by simp [hr'])) (by simp at hlen; omega)
    rw [Equal.rows, hcols, bind_ok, if_neg (List.cons_ne_nil _ _), hdrop]
    by_cases hc : row = right[i]
    · rw [if_pos hc]
      simp only [Bool.false_eq_true, if_false]
      rw [hih]
      by_cases hrest : rest = []
      · have hd : right.drop (i + 1) = [] :=
          List.drop_eq_nil_of_le (by simp [hrest] at hlen; omega)
        simp only [hrest, hd, hc, if_true, decide_True]
      · simp only [hrest, hc, if_false, List.cons.injEq, true_and]
    · rw [if_neg hc]
      simp only [if_true, pure_eq_ok, List.cons.injEq, hc, false_and, decide_False]

/-- Outside the defect of C10 the function is structural equality: for rectangular tables
with a header row of width at least one, Equal returns true exactly when the two tables are
the same list of rows, that is, have the same shape and the same text at every position. -/
theorem Equal_eq_of_width_pos (mh rh : Row) (mrows rrows : Table) (hw : 0 < mh.length)
    (hm : ∀ row ∈ mrows, row.length = mh.length)
    (hr : ∀ row ∈ rrows, row.length = rh.length) :
    Equal (mh :: mrows) (rh :: rrows) = .ok (decide (mh :: mrows = rh :: rrows)) := by
  by_cases hlen : (mh :: mrows).length = (rh :: rrows).length
  · by_cases hwid : mh.length = rh.length
    · have hrows := Equal_rows_eq (rh :: rrows) (mh :: mrows) 0 mh.length false hw
        (by
          intro row hrow
          rcases List.mem_cons.mp hrow with e | e
          · rw [e]
          · exact hm row e)
        (by
          intro row hrow
          rcases List.mem_cons.mp hrow with e | e
          · rw [e, hwid]
          · rw [hr row e, hwid])
        (by simpa using hlen)
      simp only [Equal, hlen, ne_eq, not_true_eq_false, if_false, index_cons_zero, bind_ok,
        hwid, hrows]
      simp
    · have hne : ¬ (mh :: mrows = rh :: rrows) := by
        intro e
        injection e with e1 _
        exact hwid (by rw [e1])
      simp [Equal, hlen, index_cons_zero, bind_ok, hwid, hne, pure_eq_ok]
  · have hne : ¬ (mh :: mrows = rh :: rrows) := by
      intro e
      exact hlen (by rw [e])
    simp only [Equal, ne_eq, hlen, not_false_eq_true, if_true, pure_eq_ok, hne, decide_False]

/-- C10 (code defect). Two tables that each consist of a header row of width zero have the
same number of rows, the same header width and identical text at every position, yet Equal
returns false: the named result is never set when there is no field to compare. -/
theorem Equal_zero_width_false : Equal [[]] [[]] = .ok false := rfl

/-! ## Filter: identity and idempotence -/

/-- The result of `Filter` on a table with a header row, in closed form. -/
theorem Filter_cons_eq (hdr : Row) (rows : Table) (f : Row → ColumnIndices → Bool) :
    Filter (hdr :: rows) f
      = .ok (hdr :: rows.filter (fun line => f line (Colmap.loop hdr 0 GoMap.empty))) := by
  simp [Filter, Colmap, index_cons_zero, sliceFrom_cons_one, bind_ok, pure_eq_ok,
    Filter_loop_eq]

/-- C15. For every table with a header row, Filter with a predicate that returns true for
every row returns a table with exactly the rows of the input, in the same order. -/
theorem Filter_true_id (hdr : Row) (rows : Table) (f : Row → ColumnIndices → Bool)
    (htrue : ∀ row cmap, f row cmap = true) :
    Filter (hdr :: rows) f = .ok (hdr :: rows) := by
  rw [Filter_cons_eq]
  have : rows.filter (fun line => f line (Colmap.loop hdr 0 GoMap.empty)) = rows := by
    rw [List.filter_eq_self]
    intro row _
    exact htrue row _
  rw [this]

/-- The statement of `Filter_true_id` at the table of `TestFilter` with the constant
predicate. -/
theorem Filter_true_id_witness :
    Filter [["a", "b"], ["1", "2"], ["3", "4"], ["1", "5"]] (fun _ _ => true)
      = .ok [["a", "b"], ["1", "2"], ["3", "4"], ["1", "5"]] :=
  Filter_true_id ["a", "b"] [["1", "2"], ["3", "4"], ["1", "5"]] (fun _ _ => true)
    (fun _ _ => rfl)

/-- C16. For every table with a header row and every predicate, Filter returns a table, and
Filter applied to that table with the same predicate returns the same table again. -/
theorem Filter_idempotent (hdr : Row) (rows : Table) (f : Row → ColumnIndices → Bool) :
    ∃ once, Filter (hdr :: rows) f = .ok once ∧ Filter once f = .ok once ∧
      (Filter (hdr :: rows) f >>= fun t => Filter t f) = Filter (hdr :: rows) f := by
  have h2 : Filter (hdr :: rows.filter (fun line => f line (Colmap.loop hdr 0 GoMap.empty))) f
      = .ok (hdr :: rows.filter (fun line => f line (Colmap.loop hdr 0 GoMap.empty))) := by
    rw [Filter_cons_eq, List.filter_filter]
    simp
  refine ⟨_, Filter_cons_eq hdr rows f, h2, ?_⟩
  rw [Filter_cons_eq, bind_ok, h2]

/-! ## Append: associativity -/

/-- Append on table values, that is, when no call writes into cells that another of the
tables shows. For all tables `a`, `b`, `c` where `b` and `c` have at least one row and every
table among them with a row has the same header width, appending `c` to the result of
appending `b` to `a` gives the same table as appending to `a` the result of appending
`c` to `b`, and no call fails. -/
theorem Append_assoc (a : Table) (bh ch : Row) (bt ct : Table)
    (hbc : bh.length = ch.length) (ha : ∀ ah ∈ a.head?, ah.length = bh.length) :
    ∃ ab bc res, Append a (bh :: bt) = .ok ab ∧ Append ab (ch :: ct) = .ok res ∧
      Append (bh :: bt) (ch :: ct) = .ok bc ∧ Append a bc = .ok res := by
  have hbcEq : Append (bh :: bt) (ch :: ct) = .ok ((bh :: bt) ++ ct) := by
    simp [Append, index_cons_zero, sliceFrom_cons_one, bind_ok, pure_eq_ok, hbc]
  cases a with
  | nil => exact ⟨bh :: bt, (bh :: bt) ++ ct, (bh :: bt) ++ ct, rfl, hbcEq, hbcEq, rfl⟩
  | cons ah at_ =>
    have hab : ah.length = bh.length := ha ah (by simp)
    have hac : ah.length = ch.length := hab.trans hbc
    refine ⟨(ah :: at_) ++ bt, (bh :: bt) ++ ct, (ah :: at_) ++ bt ++ ct, ?_, ?_, hbcEq, ?_⟩
    · simp [Append, index_cons_zero, sliceFrom_cons_one, bind_ok, pure_eq_ok, hab]
    · simp [Append, index_cons_zero, sliceFrom_cons_one, bind_ok, pure_eq_ok, hac]
    · simp [Append, index_cons_zero, sliceFrom_cons_one, bind_ok, pure_eq_ok, hab]

/-- The statement of `Append_assoc` at three tables of width two. -/
theorem Append_assoc_witness :
    ∃ ab bc res, Append [["one", "two"], ["1", "2"]] [["x", "y"], ["3", "4"]] = .ok ab ∧
      Append ab [["u", "v"], ["5", "6"]] = .ok res ∧
      Append [["x", "y"], ["3", "4"]] [["u", "v"], ["5", "6"]] = .ok bc ∧
      Append [["one", "two"], ["1", "2"]] bc = .ok res :=
  Append_assoc [["one", "two"], ["1", "2"]] ["x", "y"] ["u", "v"] [["3", "4"]] [["5", "6"]]
    (by decide) (by decide)

/-! ## AddColumns with a header-only table -/

/-- AddColumns on table values. For every table `a` and every table consisting of a header
row `bh` only,
AddColumns returns a table in which each data row of `a` is followed by `len(bh)` empty
strings: it is widened by the number of columns of the added table, not by one less. -/
theorem AddColumns_header_only (a : Table) (bh : Row) :
    ∃ res, AddColumns a [bh] = .ok res ∧ res.length = a.length ∧
      ∀ (i : Nat) (row : Row), 1 ≤ i → a[i]? = some row →
        res[i]? = some (row ++ List.replicate bh.length "") ∧
        (row ++ List.replicate bh.length "").length = row.length + bh.length := by
  obtain ⟨res, hres, hlen, hrows⟩ := AddColumns_loop_spec [bh] (makeStrings bh.length) a 0
  refine ⟨res, ?_, hlen, ?_⟩
  · simp only [AddColumns, index_cons_zero, bind_ok]
    exact hres
  · intro i row hi hrow
    refine ⟨?_, by simp⟩
    have h := (hrows i row hrow).2 (by simpa using hi)
    simpa [makeStrings] using h

/-- The statement of `AddColumns_header_only` at the table of `TestAddColumn` and a header of
two names. -/
theorem AddColumns_header_only_witness :
    ∃ res, AddColumns [["AA", "BB"], ["1a", "1b"], ["2a", "2b"]] [["CC", "DD"]] = .ok res ∧
      res.length = [["AA", "BB"], ["1a", "1b"], ["2a", "2b"]].length ∧
      ∀ (i : Nat) (row : Row), 1 ≤ i →
        [["AA", "BB"], ["1a", "1b"], ["2a", "2b"]][i]? = some row →
        res[i]? = some (row ++ List.replicate ["CC", "DD"].length "") ∧
        (row ++ List.replicate ["CC", "DD"].length "").length
          = row.length + ["CC", "DD"].length :=
  AddColumns_header_only [["AA", "BB"], ["1a", "1b"], ["2a", "2b"]] ["CC", "DD"]

/-- On table values: with a header-only table of two columns the data row of the left
table is widened by two fields, the number of columns, and not by one. -/
theorem AddColumns_header_only_width :
    AddColumns [["AA"], ["1a"]] [["CC", "DD"]] = .ok [["AA", "CC", "DD"], ["1a", "", ""]] ∧
      ["1a", "", ""].length ≠ ["1a"].length + (["CC", "DD"].length - 1) :=
  ⟨rfl, by decide⟩

/-! ## Select: round trip and composition -/

theorem Rectangular_cons (hdr : Row) (rows : Table) :
    Rectangular (hdr :: rows) ↔ ∀ row ∈ rows, row.length = hdr.length := by
  simp [Rectangular, headerWidth]

/-- The result of a successful `Select`, in closed form, when every index found is within
every data row. -/
theorem Select_eq_of_idx (hdr : Row) (rows : Table) (columns : List String)
    (hall : ∀ c ∈ columns, c ∈ hdr)
    (hidx : ∀ row ∈ rows, ∀ c ∈ columns, (Select.scan c hdr 0).2 < row.length) :
    Select (hdr :: rows) columns
      = .ok (columns :: rows.map (fun row =>
          columns.map (fun c => row[(Select.scan c hdr 0).2]?.getD "")), none) := by
  have hfind : columns.find? (fun c => decide (c ∉ hdr)) = none := by
    rw [List.find?_eq_none]
    intro c hc
    simpa using hall c hc
  have hidx2 : ∀ row ∈ rows, ∀ k ∈ columns.map (fun c => (Select.scan c hdr 0).2),
      k < row.length := by
    intro row hrow k hk
    obtain ⟨c, hc, rfl⟩ := List.mem_map.mp hk
    exact hidx row hrow c hc
  simp only [Select, Select_indices_eq, hfind, bind_ok, sliceFrom_cons_one, List.nil_append,
    Select_rows_eq _ rows [columns] hidx2, pure_eq_ok, List.map_map]
  rfl

theorem Select_scan_lt (hdr : Row) (c : String) (hc : c ∈ hdr) :
    (Select.scan c hdr 0).2 < hdr.length := by
  obtain ⟨k, hscan, hget, _⟩ := Select_scan_mem c hdr 0 hc
  have hklt : k < hdr.length := (List.getElem?_eq_some_iff.mp hget).1
  simp only [hscan]
  omega

theorem Select_scan_getElem? (hdr : Row) (c : String) (hc : c ∈ hdr) :
    hdr[(Select.scan c hdr 0).2]? = some c := by
  obtain ⟨k, hscan, hget, _⟩ := Select_scan_mem c hdr 0 hc
  simp only [hscan, Nat.zero_add]
  exact hget

/-- In a header of distinct names the scan for the name at index `i` stops at `i`. -/
theorem Select_scan_nodup (hdr : Row) (hnd : hdr.Nodup) (i : Nat) (c : String)
    (hi : hdr[i]? = some c) : (Select.scan c hdr 0).2 = i := by
  have hget := Select_scan_getElem? hdr c (List.getElem?_mem hi)
  have hlt := Select_scan_lt hdr c (List.getElem?_mem hi)
  exact List.getElem?_inj hlt hnd (hget.trans hi.symm)

theorem Select_scan_append (c : String) (l1 l2 : Row) (j : Nat) (hc : c ∈ l1) :
    Select.scan c (l1 ++ l2) j = Select.scan c l1 j := by
  induction l1 generalizing j with
  | nil => simp at hc
  | cons target rest ih =>
    by_cases ht : target = c
    · simp [Select.scan, ht]
    · have hr : c ∈ rest := by
        rcases List.mem_cons.mp hc with e | e
        · exact absurd e.symm ht
        · exact e
      simp only [List.cons_append, Select.scan, ht, if_false]
      exact ih (j + 1) hr

/-- Picking, for each name of a header of distinct names, the field at the index found for
it gives back the first `len(hdr)` fields of a row. -/
theorem pick_all_eq (hdr : Row) (hnd : hdr.Nodup) (row extra : Row)
    (hlen : row.length = hdr.length) :
    hdr.map (fun c => (row ++ extra)[(Select.scan c hdr 0).2]?.getD "") = row := by
  apply List.ext_getElem?
  intro i
  rw [List.getElem?_map]
  by_cases hi : i < hdr.length
  · have hget : hdr[i]? = some hdr[i] := List.getElem?_eq_getElem hi
    have hrow : i < row.length := by omega
    rw [hget, Option.map_some', Select_scan_nodup hdr hnd i _ hget,
      List.getElem?_append_left hrow, List.getElem?_eq_getElem hrow]
    rfl
  · rw [List.getElem?_eq_none (by omega), List.getElem?_eq_none (by omega)]
    rfl

/-- C13 (amended). For every rectangular table with a header row of pairwise distinct names,
Select called with all the header names in their original order returns no error and a
table identical to the original. -/
theorem Select_all_id (hdr : Row) (rows : Table) (hrect : Rectangular (hdr :: rows))
    (hnd : hdr.Nodup) :
    Select (hdr :: rows) hdr = .ok (hdr :: rows, none) := by
  have hlen := (Rectangular_cons hdr rows).mp hrect
  rw [Select_eq_of_idx hdr rows hdr (fun c hc => hc)
    (fun row hrow c hc => by rw [hlen row hrow]; exact Select_scan_lt hdr c hc)]
  have hmap : rows.map (fun row => hdr.map (fun c => row[(Select.scan c hdr 0).2]?.getD ""))
      = rows := by
    conv => rhs; rw [← List.map_id rows]
    apply List.map_congr_left
    intro row hrow
    have h := pick_all_eq hdr hnd row [] (hlen row hrow)
    simpa using h
  rw [hmap]

/-- The statement of `Select_all_id` at the table of `TestSelect`. -/
theorem Select_all_id_witness :
    Select [["queue", "data2", "data3"], ["one", "d2", "d3"], ["two", "t2", "t3"]]
        ["queue", "data2", "data3"]
      = .ok ([["queue", "data2", "data3"], ["one", "d2", "d3"], ["two", "t2", "t3"]], none) :=
  Select_all_id ["queue", "data2", "data3"] [["one", "d2", "d3"], ["two", "t2", "t3"]]
    (by decide) (by decide)

/-- C13 (as stated) fails: in a rectangular table whose header repeats a name, selecting all
header names in order takes the first column of that name twice, so the result differs from
the original. -/
theorem Select_all_repeated_name :
    Rectangular [["a", "a"], ["1", "2"]] ∧
      Select [["a", "a"], ["1", "2"]] ["a", "a"] = .ok ([["a", "a"], ["1", "1"]], none) ∧
      ([["a", "a"], ["1", "1"]] : Table) ≠ [["a", "a"], ["1", "2"]] :=
  ⟨by decide, rfl, by decide⟩

/-- C20. For every rectangular table with a header row, every list `cs` of names that all
occur in the header and every list `ds` of names that all occur in `cs`, Select with `cs`
succeeds, Select with `ds` on its result succeeds, and the final table is the one Select with
`ds` returns on the original table; no name needs to be distinct. -/
theorem Select_compose (hdr : Row) (rows : Table) (cs ds : List String)
    (hrect : Rectangular (hdr :: rows)) (hcs : ∀ c ∈ cs, c ∈ hdr) (hds : ∀ d ∈ ds, d ∈ cs) :
    ∃ t1 t2, Select (hdr :: rows) cs = .ok (t1, none) ∧ Select t1 ds = .ok (t2, none) ∧
      Select (hdr :: rows) ds = .ok (t2, none) := by
  have hlen := (Rectangular_cons hdr rows).mp hrect
  have h1 := Select_eq_of_idx hdr rows cs hcs
    (fun row hrow c hc => by rw [hlen row hrow]; exact Select_scan_lt hdr c (hcs c hc))
  have h3 := Select_eq_of_idx hdr rows ds (fun d hd => hcs d (hds d hd))
    (fun row hrow d hd => by
      rw [hlen row hrow]; exact Select_scan_lt hdr d (hcs d (hds d hd)))
  have h2 := Select_eq_of_idx cs
    (rows.map (fun row => cs.map (fun c => row[(Select.scan c hdr 0).2]?.getD ""))) ds hds
    (fun row' hrow' d hd => by
      obtain ⟨row, _, rfl⟩ := List.mem_map.mp hrow'
      rw [List.length_map]
      exact Select_scan_lt cs d (hds d hd))
  refine ⟨_, _, h1, h2, ?_⟩
  rw [h3, List.map_map]
  congr 3
  apply List.map_congr_left
  intro row _
  apply List.map_congr_left
  intro d hd
  simp only [Function.comp_apply, List.getElem?_map, Select_scan_getElem? cs d (hds d hd),
    Option.map_some', Option.getD_some]

/-- The statement of `Select_compose` at a table whose header repeats a name, with a first
selection that repeats a name as well. -/
theorem Select_compose_witness :
    ∃ t1 t2, Select [["q", "d", "d"], ["one", "d2", "d3"]] ["d", "q", "d"] = .ok (t1, none) ∧
      Select t1 ["q", "d"] = .ok (t2, none) ∧
      Select [["q", "d", "d"], ["one", "d2", "d3"]] ["q", "d"] = .ok (t2, none) :=
  Select_compose ["q", "d", "d"] [["one", "d2", "d3"]] ["d", "q", "d"] ["q", "d"]
    (by decide) (by decide) (by decide)

/-! ## Select after LeftJoin -/

/-- The result of `LeftJoin` on tables with a header row, in closed form. -/
theorem LeftJoin_cons_eq (lh : Row) (lrows : Table) (rkey : String) (newcols : Row)
    (rrows : Table) (hl : ∀ row ∈ lrows, row ≠ []) (hr : ∀ v ∈ rrows, v ≠ []) :
    ∃ k, LeftJoin.keys rrows GoMap.empty = .ok k ∧
      LeftJoin (lh :: lrows) ((rkey :: newcols) :: rrows)
        = .ok ((lh ++ newcols) :: lrows.map (LeftJoin.extend k (makeStrings newcols.length))) := by
  obtain ⟨k, hk, _⟩ := LeftJoin_keys_spec rrows GoMap.empty hr
  refine ⟨k, hk, ?_⟩
  simp only [LeftJoin, index_cons_zero, sliceFrom_cons_one, bind_ok, List.set_cons_zero, hk]
  exact LeftJoin_rows_eq k _ lrows.length 0 [lh ++ newcols] lrows rfl rfl hl

theorem LeftJoin_extend_append (k : GoMap Row) (filler row : Row) :
    ∃ extra, LeftJoin.extend k filler row = row ++ extra := by
  cases row with
  | nil => exact ⟨[], rfl⟩
  | cons key xs =>
    cases hk : k.get key with
    | none => exact ⟨filler, by simp [LeftJoin.extend, hk]⟩
    | some sl => exact ⟨sl, by simp [LeftJoin.extend, hk]⟩

/-- Select after LeftJoin on table values. For every rectangular left table of width at
least 1 whose header names are pairwise distinct, and every right table with a header row
whose rows each have at least one field, whatever its column names,
LeftJoin returns a table, and Select on that table
with the names of the left header in order returns no error and the original left table. -/
theorem Select_LeftJoin_left (lh : Row) (lrows : Table) (rh : Row) (rrows : Table)
    (hrect : Rectangular (lh :: lrows)) (hw : 1 ≤ lh.length) (hnd : lh.Nodup)
    (hr : ∀ v ∈ rh :: rrows, v ≠ []) :
    ∃ joined, LeftJoin (lh :: lrows) (rh :: rrows) = .ok joined ∧
      Select joined lh = .ok (lh :: lrows, none) := by
  have hlen := (Rectangular_cons lh lrows).mp hrect
  have hl : ∀ row ∈ lrows, row ≠ [] := by
    intro row hrow e
    have := hlen row hrow
    rw [e] at this
    simp at this
    omega
  cases rh with
  | nil => exact absurd rfl (hr [] (by simp))
  | cons rkey newcols =>
    obtain ⟨k, _, hjoin⟩ := LeftJoin_cons_eq lh lrows rkey newcols rrows hl
      (fun v hv => hr v (by simp [hv]))
    refine ⟨_, hjoin, ?_⟩
    have hscan : ∀ c ∈ lh, (Select.scan c (lh ++ newcols) 0).2 = (Select.scan c lh 0).2 := by
      intro c hc
      rw [Select_scan_append c lh newcols 0 hc]
    rw [Select_eq_of_idx (lh ++ newcols) _ lh (fun c hc => by simp [hc])
      (fun row' hrow' c hc => by
        obtain ⟨row, hrow, rfl⟩ := List.mem_map.mp hrow'
        obtain ⟨extra, hext⟩ := LeftJoin_extend_append k (makeStrings newcols.length) row
        have h1 := Select_scan_lt lh c hc
        have h2 := hlen row hrow
        rw [hscan c hc, hext, List.length_append]
        omega)]
    rw [List.map_map]
    have hmap : lrows.map ((fun row => lh.map
          (fun c => row[(Select.scan c (lh ++ newcols) 0).2]?.getD ""))
          ∘ LeftJoin.extend k (makeStrings newcols.length)) = lrows := by
      conv => rhs; rw [← List.map_id lrows]
      apply List.map_congr_left
      intro row hrow
      obtain ⟨extra, hext⟩ := LeftJoin_extend_append k (makeStrings newcols.length) row
      simp only [Function.comp_apply, hext, id_eq]
      rw [← pick_all_eq lh hnd row extra (hlen row hrow)]
      apply List.map_congr_left
      intro c hc
      rw [hscan c hc]
      rw [pick_all_eq lh hnd row extra (hlen row hrow)]
    rw [hmap]

/-- The statement of `Select_LeftJoin_left` at the tables of `TestLeftJoin`, with a right
column renamed to a name of the left header. -/
theorem Select_LeftJoin_left_witness :
    ∃ joined, LeftJoin [["queue", "data1"], ["one", "1"], ["three", "3"]]
        [["queue", "data1", "data3"], ["one", "d2", "d3"], ["two", "t2"]] = .ok joined ∧
      Select joined ["queue", "data1"]
        = .ok ([["queue", "data1"], ["one", "1"], ["three", "3"]], none) :=
  Select_LeftJoin_left ["queue", "data1"] [["one", "1"], ["three", "3"]]
    ["queue", "data1", "data3"] [["one", "d2", "d3"], ["two", "t2"]]
    (by decide) (by decide) (by decide) (by decide)

/-- On table values: a right table with zero rows satisfies "every row has at least
one field", and LeftJoin panics on it, so there is no joined table to select from. -/
theorem Select_LeftJoin_empty_right :
    Rectangular [["queue", "data1"], ["one", "1"]] ∧ ["queue", "data1"].Nodup ∧
      (∀ v ∈ ([] : Table), v ≠ []) ∧
      (LeftJoin [["queue", "data1"], ["one", "1"]] [] >>= fun joined =>
        Select joined ["queue", "data1"]) = .error Failure.panic :=
  ⟨by decide, by decide, by decide, rfl⟩

/-! ## Equal: reflexivity -/

/-- C11 (amended). For every rectangular table with a header row of width at least 1, Equal
of the table with itself returns true. -/
theorem Equal_refl_of_width_pos (hdr : Row) (rows : Table)
    (hrect : Rectangular (hdr :: rows)) (hw : 1 ≤ hdr.length) :
    Equal (hdr :: rows) (hdr :: rows) = .ok true := by
  have hlen := (Rectangular_cons hdr rows).mp hrect
  rw [Equal_eq_of_width_pos hdr hdr rows rows (by omega) hlen hlen]
  simp

/-- The statement of `Equal_refl_of_width_pos` at the table of `TestAddColumn`. -/
theorem Equal_refl_of_width_pos_witness :
    Equal [["AA", "BB"], ["1a", "1b"], ["2a", "2b"]] [["AA", "BB"], ["1a", "1b"], ["2a", "2b"]]
      = .ok true :=
  Equal_refl_of_width_pos ["AA", "BB"] [["1a", "1b"], ["2a", "2b"]] (by decide) (by decide)

/-- C11 (as stated) fails: the table with zero rows is well formed, and Equal of it with
itself panics at `m[0]`; and for a well-formed table of width zero with a data row Equal
returns false, the named result never being set. -/
theorem Equal_not_reflexive :
    (Rectangular [] ∧ Equal [] [] = .error Failure.panic) ∧
      (Rectangular [[], []] ∧ Equal [[], []] [[], []] = .ok false) :=
  ⟨⟨by decide, rfl⟩, ⟨by decide, rfl⟩⟩

/-! ## Which inputs make the operations return -/

theorem Equal_cols_nil (right : Table) (i j : Nat) (ok0 : Bool) :
    Equal.cols right i [] j ok0 = .ok (ok0, false) := rfl

theorem Equal_rows_of_nil (right mrest : Table) (i : Nat) (ok0 : Bool)
    (h : ∀ row ∈ mrest, row = []) : Equal.rows right mrest i ok0 = .ok ok0 := by
  induction mrest generalizing i with
  | nil => rfl
  | cons row rest ih =>
    have hrow : row = [] := h row (by simp)
    subst hrow
    rw [Equal.rows, Equal_cols_nil, bind_ok]
    simp only [Bool.false_eq_true, if_false]
    exact ih (i + 1) (fun r hr => h r (by simp [hr]))

theorem Equal_returns (mh rh : Row) (mrows rrows : Table)
    (hm : ∀ row ∈ mrows, row.length = mh.length)
    (hr : ∀ row ∈ rrows, row.length = rh.length) :
    ∃ r, Equal (mh :: mrows) (rh :: rrows) = .ok r := by
  by_cases hw : 0 < mh.length
  · exact ⟨_, Equal_eq_of_width_pos mh rh mrows rrows hw hm hr⟩
  · have hmh : mh = [] := List.length_eq_zero.mp (by omega)
    by_cases hlen : (mh :: mrows).length = (rh :: rrows).length
    · by_cases hwid : mh.length = rh.length
      · refine ⟨false, ?_⟩
        simp only [Equal, hlen, ne_eq, not_true_eq_false, if_false, index_cons_zero, bind_ok,
          hwid]
        apply Equal_rows_of_nil
        intro row hrow
        rcases List.mem_cons.mp hrow with e | e
        · rw [e, hmh]
        · exact List.length_eq_zero.mp (by rw [hm row e, hmh]; rfl)
      · exact ⟨false, by simp [Equal, hlen, index_cons_zero, bind_ok, hwid, pure_eq_ok]⟩
    · exact ⟨false, by simp only [Equal, ne_eq, hlen, not_false_eq_true, if_true, pure_eq_ok]⟩

/-- C14 (amended). On rectangular tables with at least a header row, Filter, Equal and Colmap
return a result; AddColumns returns a result for every left table when the added table has a
header row; LeftJoin returns a result when moreover the right header has at least one field
and the left table has no data rows or a header of at least one field. -/
theorem returns_on_header_tables (ah bh : Row) (at_ bt : Table) (a : Table)
    (f : Row → ColumnIndices → Bool)
    (ha : Rectangular (ah :: at_)) (hb : Rectangular (bh :: bt)) :
    (∃ r, Filter (ah :: at_) f = .ok r) ∧ (∃ r, AddColumns a (bh :: bt) = .ok r) ∧
      (∃ r, Equal (ah :: at_) (bh :: bt) = .ok r) ∧ (∃ c, Colmap (ah :: at_) = .ok c) ∧
      (1 ≤ bh.length → (at_ = [] ∨ 1 ≤ ah.length) →
        ∃ r, LeftJoin (ah :: at_) (bh :: bt) = .ok r) := by
  have hla := (Rectangular_cons ah at_).mp ha
  have hlb := (Rectangular_cons bh bt).mp hb
  refine ⟨⟨_, Filter_cons_eq ah at_ f⟩, ?_, Equal_returns ah bh at_ bt hla hlb,
    ⟨Colmap.loop ah 0 GoMap.empty, by simp [Colmap, index_cons_zero, bind_ok, pure_eq_ok]⟩, ?_⟩
  · obtain ⟨res, hres, _, _⟩ := AddColumns_loop_spec (bh :: bt) (makeStrings bh.length) a 0
    exact ⟨res, by simp only [AddColumns, index_cons_zero, bind_ok]; exact hres⟩
  · intro hbw hleft
    have hl : ∀ row ∈ at_, row ≠ [] := by
      intro row hrow e
      rcases hleft with h | h
      · rw [h] at hrow
        simp at hrow
      · have := hla row hrow
        rw [e] at this
        simp at this
        omega
    have hrr : ∀ v ∈ bt, v ≠ [] := by
      intro v hv e
      have := hlb v hv
      rw [e] at this
      simp at this
      omega
    cases bh with
    | nil => simp at hbw
    | cons rkey newcols =>
      obtain ⟨k, _, hjoin⟩ := LeftJoin_cons_eq ah at_ rkey newcols bt hl hrr
      exact ⟨_, hjoin⟩

/-- The statement of `returns_on_header_tables` at the tables of `TestLeftJoin`. -/
theorem returns_on_header_tables_witness :
    (∃ r, Filter [["queue", "data1"], ["one", "1"]] (fun _ _ => false) = .ok r) ∧
      (∃ r, AddColumns [] [["queue", "data2"], ["one", "d2"]] = .ok r) ∧
      (∃ r, Equal [["queue", "data1"], ["one", "1"]] [["queue", "data2"], ["one", "d2"]]
        = .ok r) ∧
      (∃ c, Colmap [["queue", "data1"], ["one", "1"]] = .ok c) ∧
      (1 ≤ ["queue", "data2"].length → ([["one", "1"]] = [] ∨ 1 ≤ ["queue", "data1"].length) →
        ∃ r, LeftJoin [["queue", "data1"], ["one", "1"]] [["queue", "data2"], ["one", "d2"]]
          = .ok r) :=
  returns_on_header_tables ["queue", "data1"] ["queue", "data2"] [["one", "1"]]
    [["one", "d2"]] [] (fun _ _ => false) (by decide) (by decide)

/-- C14 (as stated) fails: the table with zero rows is valid in the data model, and on it
Colmap, Filter, Equal, AddColumns and LeftJoin panic at the index of row 0; LeftJoin also
panics on rectangular tables of width zero. -/
theorem panics_on_degenerate_tables :
    (Rectangular [] ∧ Colmap [] = .error Failure.panic ∧
      Filter [] (fun _ _ => true) = .error Failure.panic ∧
      Equal [] [] = .error Failure.panic ∧
      AddColumns [["a"], ["1"]] [] = .error Failure.panic ∧
      LeftJoin [["k"], ["1"]] [] = .error Failure.panic ∧
      LeftJoin [] [["k"], ["1"]] = .error Failure.panic) ∧
    (Rectangular [[]] ∧ Rectangular [["k"], ["1"]] ∧
      LeftJoin [["k"], ["1"]] [[]] = .error Failure.panic) ∧
    (Rectangular [[], []] ∧ LeftJoin [[], []] [["k"], ["1"]] = .error Failure.panic) :=
  ⟨⟨by decide, rfl, rfl, rfl, rfl, rfl, rfl⟩, ⟨by decide, by decide, rfl⟩, ⟨by decide, rfl⟩⟩

/-! ## Rectangularity -/

theorem Rectangular_of_forall (t : Table) (w : Nat) (h : ∀ row ∈ t, row.length = w) :
    Rectangular t := by
  cases t with
  | nil => intro row hrow; simp at hrow
  | cons hd tl =>
    intro row hrow
    rw [h row hrow]
    simp [headerWidth, h hd (by simp)]

theorem Append_rectangular (a b res : Table) (ha : Rectangular a) (hb : Rectangular b)
    (h : Append a b = .ok res) : Rectangular res := by
  cases a with
  | nil =>
    have : b = res := by simpa [Append, pure_eq_ok] using h
    rw [← this]
    exact hb
  | cons ah at_ =>
    cases b with
    | nil => simp [Append, index_cons_zero, index_nil, bind_ok, bind_error] at h
    | cons bh bt =>
      have hla := (Rectangular_cons ah at_).mp ha
      have hlb := (Rectangular_cons bh bt).mp hb
      by_cases hw : ah.length = bh.length
      · have : (ah :: at_) ++ bt = res := by
          simpa [Append, index_cons_zero, sliceFrom_cons_one, bind_ok, pure_eq_ok, hw] using h
        rw [← this]
        apply Rectangular_of_forall _ ah.length
        intro row hrow
        rcases List.mem_append.mp hrow with e | e
        · rcases List.mem_cons.mp e with e | e
          · rw [e]
          · exact hla row e
        · rw [hlb row e, hw]
      · simp [Append, index_cons_zero, bind_ok, hw, throw, throwThe, MonadExceptOf.throw] at h

theorem AddColumns_widths (a b res : Table) (ha : Rectangular a) (hb : Rectangular b)
    (h : AddColumns a b = .ok res) :
    ∀ row ∈ res, row.length = headerWidth a + headerWidth b := by
  cases b with
  | nil => simp [AddColumns, index_nil, bind_error] at h
  | cons bh bt =>
    obtain ⟨res', hres', hlen, hrows⟩ :=
      AddColumns_loop_spec (bh :: bt) (makeStrings bh.length) a 0
    simp only [AddColumns, index_cons_zero, bind_ok] at h
    rw [hres'] at h
    have hr : res' = res := by simpa using h
    subst hr
    intro row hrow
    obtain ⟨i, hi⟩ := List.mem_iff_getElem?.mp hrow
    have hilt : i < a.length := by
      rw [← hlen]
      exact (List.getElem?_eq_some_iff.mp hi).1
    have harow : a[i]? = some a[i] := List.getElem?_eq_getElem hilt
    have halen : (a[i]).length = headerWidth a := ha _ (List.getElem_mem _)
    obtain ⟨h1, h2⟩ := hrows i a[i] harow
    by_cases hib : i < (bh :: bt).length
    · have hbrow : (bh :: bt)[i]? = some (bh :: bt)[i] := List.getElem?_eq_getElem hib
      have hblen : ((bh :: bt)[i]).length = headerWidth (bh :: bt) := hb _ (List.getElem_mem _)
      have := h1 (bh :: bt)[i] (by rw [Nat.zero_add]; exact hbrow)
      rw [hi] at this
      have hrw : row = a[i] ++ (bh :: bt)[i] := by simpa using this
      rw [hrw, List.length_append, halen, hblen]
    · have := h2 (by omega)
      rw [hi] at this
      have hrw : row = a[i] ++ makeStrings bh.length := by simpa using this
      rw [hrw, List.length_append, halen]
      simp [makeStrings, headerWidth]

theorem Filter_rectangular (a res : Table) (f : Row → ColumnIndices → Bool)
    (ha : Rectangular a) (h : Filter a f = .ok res) : Rectangular res := by
  cases a with
  | nil => simp [Filter, index_nil, bind_error] at h
  | cons hdr rows =>
    have hla := (Rectangular_cons hdr rows).mp ha
    rw [Filter_cons_eq] at h
    have hr : hdr :: rows.filter (fun line => f line (Colmap.loop hdr 0 GoMap.empty)) = res := by
      simpa using h
    rw [← hr]
    apply Rectangular_of_forall _ hdr.length
    intro row hrow
    rcases List.mem_cons.mp hrow with e | e
    · rw [e]
    · exact hla row (List.mem_filter.mp e).1

theorem LeftJoin_keys_values (rrows : Table) (k k' : GoMap Row)
    (h : LeftJoin.keys rrows k = .ok k') (s : String) (sl : Row) (hs : k'.get s = some sl) :
    k.get s = some sl ∨ ∃ v ∈ rrows, sl = v.drop 1 := by
  induction rrows generalizing k with
  | nil =>
    have : k = k' := by simpa [LeftJoin.keys, pure_eq_ok] using h
    rw [this]
    exact Or.inl hs
  | cons v rest ih =>
    cases v with
    | nil => simp [LeftJoin.keys, index_nil, bind_error] at h
    | cons x xs =>
      simp only [LeftJoin.keys, index_cons_zero, sliceFrom_cons_one, bind_ok] at h
      rcases ih (k.set x xs) h with h1 | ⟨v, hv, hsl⟩
      · by_cases hx : s = x
        · rw [hx, GoMap_get_set_self] at h1
          refine Or.inr ⟨x :: xs, by simp, ?_⟩
          simpa using h1.symm
        · rw [GoMap_get_set_ne _ _ _ _ hx] at h1
          exact Or.inl h1
      · exact Or.inr ⟨v, by simp [hv], hsl⟩

theorem LeftJoin_widths (a b res : Table) (ha : Rectangular a) (hb : Rectangular b)
    (h : LeftJoin a b = .ok res) :
    ∀ row ∈ res, row.length = headerWidth a + headerWidth b - 1 := by
  cases b with
  | nil => simp [LeftJoin, index_nil, bind_error] at h
  | cons bh bt =>
    cases bh with
    | nil => simp [LeftJoin, index_cons_zero, bind_ok, sliceFrom_nil_one, bind_error] at h
    | cons rkey newcols =>
      cases a with
      | nil =>
        simp [LeftJoin, index_cons_zero, sliceFrom_cons_one, bind_ok, index_nil, bind_error]
          at h
      | cons lh lrows =>
        have hla := (Rectangular_cons lh lrows).mp ha
        have hlb := (Rectangular_cons (rkey :: newcols) bt).mp hb
        have hrr : ∀ v ∈ bt, v ≠ [] := by
          intro v hv e
          have := hlb v hv
          rw [e] at this
          simp at this
        obtain ⟨k, hk, _⟩ := LeftJoin_keys_spec bt GoMap.empty hrr
        by_cases hl : ∀ row ∈ lrows, row ≠ []
        · obtain ⟨k2, hk2, hjoin⟩ := LeftJoin_cons_eq lh lrows rkey newcols bt hl hrr
          have hkk : k2 = k := by
            rw [hk] at hk2
            simpa using hk2.symm
          subst hkk
          rw [hjoin] at h
          have hr : (lh ++ newcols) ::
              lrows.map (LeftJoin.extend k2 (makeStrings newcols.length)) = res := by
            simpa using h
          rw [← hr]
          intro row hrow
          simp only [headerWidth, List.headD_cons, List.length_cons]
          rcases List.mem_cons.mp hrow with e | e
          · rw [e, List.length_append]
            omega
          · obtain ⟨lrow, hlrow, rfl⟩ := List.mem_map.mp e
            have hlen := hla lrow hlrow
            cases lrow with
            | nil => exact absurd rfl (hl [] hlrow)
            | cons key xs =>
              cases hget : k2.get key with
              | none =>
                simp only [LeftJoin.extend, List.getElem?_cons_zero, hget, List.length_append,
                  makeStrings, List.length_replicate]
                omega
              | some sl =>
                rcases LeftJoin_keys_values bt GoMap.empty k2 hk key sl hget with h1 | h1
                · rw [GoMap_get_empty] at h1
                  simp at h1
                · obtain ⟨v, hv, hsl⟩ := h1
                  have hvlen := hlb v hv
                  simp only [LeftJoin.extend, List.getElem?_cons_zero, hget,
                    List.length_append, hsl, List.length_drop]
                  simp only [List.length_cons] at hvlen hlen ⊢
                  omega
        · exfalso
          have hex : ∃ row ∈ lrows, row = [] := by
            by_contra hne
            exact hl (fun row hrow e => hne ⟨row, hrow, e⟩)
          obtain ⟨row, hrow, e⟩ := hex
          have hlh : lh.length = 0 := by
            have := hla row hrow
            rw [e] at this
            exact this.symm
          cases lrows with
          | nil => simp at hrow
          | cons r0 rest =>
            have hr0 : r0 = [] := List.length_eq_zero.mp (by rw [hla r0 (by simp), hlh])
            subst hr0
            simp [LeftJoin, index_cons_zero, sliceFrom_cons_one, bind_ok, hk, LeftJoin.rows,
              index_cons_succ, index_nil, bind_error] at h

theorem Select_pick_length (row : Row) (is : List Nat) (out : Row)
    (h : Select.pick row is = .ok out) : out.length = is.length := by
  induction is generalizing out with
  | nil =>
    have : [] = out := by simpa [Select.pick, pure_eq_ok] using h
    subst this
    rfl
  | cons ndx rest ih =>
    rw [Select.pick] at h
    cases hv : index row ndx with
    | error e => rw [hv, bind_error] at h; exact absurd h (by simp)
    | ok v =>
      rw [hv, bind_ok] at h
      cases ht : Select.pick row rest with
      | error e => rw [ht, bind_error] at h; exact absurd h (by simp)
      | ok tmp =>
        rw [ht, bind_ok, pure_eq_ok] at h
        have : v :: tmp = out := by simpa using h
        rw [← this, List.length_cons, ih tmp ht, List.length_cons]

theorem Select_rows_shape (is : List Nat) (rows table res : Table)
    (h : Select.rows is rows table = .ok res) :
    ∃ outs, res = table ++ outs ∧ ∀ o ∈ outs, o.length = is.length := by
  induction rows generalizing table with
  | nil =>
    have : table = res := by simpa [Select.rows, pure_eq_ok] using h
    exact ⟨[], by simp [this], by simp⟩
  | cons row rest ih =>
    rw [Select.rows] at h
    cases hp : Select.pick row is with
    | error e => rw [hp, bind_error] at h; exact absurd h (by simp)
    | ok tmp =>
      rw [hp, bind_ok] at h
      obtain ⟨outs, hres, houts⟩ := ih (table ++ [tmp]) h
      refine ⟨tmp :: outs, by simp [hres], ?_⟩
      intro o ho
      rcases List.mem_cons.mp ho with e | e
      · rw [e]
        exact Select_pick_length row is tmp hp
      · exact houts o e

theorem Select_rectangular (a : Table) (columns : List String) (res : Table)
    (h : Select a columns = .ok (res, none)) : Rectangular res := by
  cases a with
  | nil =>
    cases columns with
    | nil => simp [Select, Select.indices, pure_eq_ok, bind_ok, sliceFrom, bind_error] at h
    | cons c cs => simp [Select, Select.indices, index_nil, bind_error] at h
  | cons hdr rows =>
    simp only [Select, Select_indices_eq, bind_ok] at h
    cases hf : columns.find? (fun c => decide (c ∉ hdr)) with
    | some c =>
      simp only [hf, pure_eq_ok, Except.ok.injEq, Prod.mk.injEq] at h
      exact absurd h.2 (by simp)
    | none =>
      simp only [hf, sliceFrom_cons_one, bind_ok, List.nil_append] at h
      cases hr : Select.rows (columns.map (fun c => (Select.scan c hdr 0).2)) rows
          [columns] with
      | error err =>
        rw [hr, bind_error] at h
        exact absurd h (by simp)
      | ok tb =>
        rw [hr, bind_ok, pure_eq_ok] at h
        have htb : tb = res := by simpa using h
        subst htb
        obtain ⟨outs, hres, houts⟩ := Select_rows_shape _ rows [columns] tb hr
        rw [hres]
        apply Rectangular_of_forall _ columns.length
        intro row hrow
        rcases List.mem_append.mp hrow with e | e
        · have : row = columns := by simpa using e
          rw [this]
        · rw [houts row e, List.length_map]

/-- Rectangularity on table values. Whenever the input tables are rectangular, the table
returned by each of Append
(which returns only for equal header widths or an empty left table), AddColumns, Filter,
LeftJoin and a Select without error is rectangular; every row of the table LeftJoin
returns has width `len(left[0]) + len(right[0]) - 1`, and every row of the table AddColumns
returns has width `len(A[0]) + len(B[0])`. The operations do return such a table when both
tables have a header row: Append for equal header widths, LeftJoin for headers with at least
one field, Select for names that occur in the header. -/
theorem Rectangular_preserved (a b : Table) (f : Row → ColumnIndices → Bool)
    (columns : List String) (ha : Rectangular a) (hb : Rectangular b) :
    (∀ res, Append a b = .ok res → Rectangular res) ∧
      (∀ res, AddColumns a b = .ok res →
        Rectangular res ∧ ∀ row ∈ res, row.length = headerWidth a + headerWidth b) ∧
      (∀ res, Filter a f = .ok res → Rectangular res) ∧
      (∀ res, LeftJoin a b = .ok res →
        Rectangular res ∧ ∀ row ∈ res, row.length = headerWidth a + headerWidth b - 1) ∧
      (∀ res, Select a columns = .ok (res, none) → Rectangular res) ∧
      (∀ (ah bh : Row) (at_ bt : Table), a = ah :: at_ → b = bh :: bt →
        (ah.length = bh.length → ∃ res, Append a b = .ok res) ∧
        (∃ res, AddColumns a b = .ok res) ∧ (∃ res, Filter a f = .ok res) ∧
        (1 ≤ ah.length → 1 ≤ bh.length → ∃ res, LeftJoin a b = .ok res) ∧
        ((∀ c ∈ columns, c ∈ ah) → ∃ res, Select a columns = .ok (res, none))) := by
  refine ⟨fun res h => Append_rectangular a b res ha hb h, ?_,
    fun res h => Filter_rectangular a res f ha h, ?_,
    fun res h => Select_rectangular a columns res h, ?_⟩
  · intro res h
    have hw := AddColumns_widths a b res ha hb h
    exact ⟨Rectangular_of_forall res _ hw, hw⟩
  · intro res h
    have hw := LeftJoin_widths a b res ha hb h
    exact ⟨Rectangular_of_forall res _ hw, hw⟩
  · intro ah bh at_ bt ea eb
    subst ea
    subst eb
    have hla := (Rectangular_cons ah at_).mp ha
    have hlb := (Rectangular_cons bh bt).mp hb
    refine ⟨?_, ?_, ⟨_, Filter_cons_eq ah at_ f⟩, ?_, ?_⟩
    · intro hw
      exact ⟨(ah :: at_) ++ bt,
        by simp [Append, index_cons_zero, sliceFrom_cons_one, bind_ok, pure_eq_ok, hw]⟩
    · obtain ⟨res, hres, _, _⟩ :=
        AddColumns_loop_spec (bh :: bt) (makeStrings bh.length) (ah :: at_) 0
      exact ⟨res, by simp only [AddColumns, index_cons_zero, bind_ok]; exact hres⟩
    · intro haw hbw
      have hl : ∀ row ∈ at_, row ≠ [] := by
        intro row hrow e
        have := hla row hrow
        rw [e] at this
        simp at this
        omega
      have hrr : ∀ v ∈ bt, v ≠ [] := by
        intro v hv e
        have := hlb v hv
        rw [e] at this
        simp at this
        omega
      cases bh with
      | nil => simp at hbw
      | cons rkey newcols =>
        obtain ⟨k, _, hjoin⟩ := LeftJoin_cons_eq ah at_ rkey newcols bt hl hrr
        exact ⟨_, hjoin⟩
    · intro hall
      exact ⟨_, Select_eq_of_idx ah at_ columns hall
        (fun row hrow c hc => by rw [hla row hrow]; exact Select_scan_lt ah c (hall c hc))⟩

/-- The statement of `Rectangular_preserved` at two tables of width two, for which every
operation returns a table. -/
theorem Rectangular_preserved_witness :
    Rectangular [["queue", "data1"], ["one", "1"], ["three", "3"], ["one", "d2"]] ∧
      (Rectangular [["queue", "data1", "queue", "data2"], ["one", "1", "one", "d2"],
          ["three", "3", "", ""]] ∧
        ∀ row ∈ ([["queue", "data1", "queue", "data2"], ["one", "1", "one", "d2"],
            ["three", "3", "", ""]] : Table),
          row.length = headerWidth [["queue", "data1"], ["one", "1"], ["three", "3"]]
            + headerWidth [["queue", "data2"], ["one", "d2"]]) ∧
      Rectangular [["queue", "data1"], ["one", "1"]] ∧
      (Rectangular [["queue", "data1", "data2"], ["one", "1", "d2"], ["three", "3", ""]] ∧
        ∀ row ∈ ([["queue", "data1", "data2"], ["one", "1", "d2"], ["three", "3", ""]] : Table),
          row.length = headerWidth [["queue", "data1"], ["one", "1"], ["three", "3"]]
            + headerWidth [["queue", "data2"], ["one", "d2"]] - 1) ∧
      Rectangular [["data1", "queue"], ["1", "one"], ["3", "three"]] :=
  have h := Rectangular_preserved [["queue", "data1"], ["one", "1"], ["three", "3"]]
    [["queue", "data2"], ["one", "d2"]]
    (fun row _ => decide (row = ["one", "1"])) ["data1", "queue"] (by decide) (by decide)
  ⟨h.1 _ rfl, h.2.1 _ rfl, h.2.2.1 _ rfl, h.2.2.2.1 _ rfl, h.2.2.2.2.1 _ rfl⟩

/-! ## The operations on memory -/

namespace Mem

/-! ### Slices, `append`, and the lengths of the rows of AddColumns -/

theorem window_getElem? {α : Type} (a : List α) (off len i : Nat) (hi : i < len) :
    ((a.drop off).take len)[i]? = a[off + i]? := by
  rw [List.getElem?_take_of_lt hi, List.getElem?_drop]

theorem window_length {α : Type} (a : List α) (off len : Nat) (h : off + len ≤ a.length) :
    ((a.drop off).take len).length = len := by
  simp only [List.length_take, List.length_drop]
  omega

theorem contents_eq_window {α : Type} (arrays : List (List α)) (s : Slice) (a : List α)
    (ha : arrays[s.arr]? = some a) (hb : s.off + s.len ≤ a.length) :
    contents arrays s = .ok ((a.drop s.off).take s.len) := by
  unfold contents
  by_cases h0 : s.len = 0
  · simp [h0]
  · simp [h0, ha, hb]

theorem contents_of_valid {α : Type} (arrays : List (List α)) (s : Slice)
    (h : Valid arrays s) : ∃ v, contents arrays s = .ok v := by
  obtain ⟨hlen, h0 | ⟨a, ha, hcap⟩⟩ := h
  · exact ⟨[], by simp [contents, show s.len = 0 by omega]⟩
  · exact ⟨_, contents_eq_window arrays s a ha (by omega)⟩

theorem contents_length {α : Type} (arrays : List (List α)) (s : Slice) (v : List α)
    (h : contents arrays s = .ok v) : v.length = s.len := by
  unfold contents at h
  by_cases h0 : s.len = 0
  · simp only [h0, if_true, Except.ok.injEq] at h
    rw [← h, h0]
    rfl
  · simp only [h0, if_false] at h
    cases ha : arrays[s.arr]? with
    | none => simp [ha] at h
    | some a =>
      simp only [ha] at h
      by_cases hb : s.off + s.len ≤ a.length
      · simp only [hb, if_true, Except.ok.injEq] at h
        rw [← h]
        exact window_length a s.off s.len hb
      · simp [hb] at h

theorem contents_congr {α : Type} (arrays arrays' : List (List α)) (s : Slice)
    (h : arrays'[s.arr]? = arrays[s.arr]?) : contents arrays' s = contents arrays s := by
  unfold contents
  rw [h]

theorem contents_frame {α : Type} (arrays arrays' : List (List α)) (s : Slice)
    (h : s.len = 0 ∨ arrays'[s.arr]? = arrays[s.arr]?) :
    contents arrays' s = contents arrays s := by
  rcases h with h | h
  · simp [contents, h]
  · exact contents_congr arrays arrays' s h

theorem SameShape.refl {α : Type} (arrays : List (List α)) : SameShape arrays arrays :=
  fun _ x hx => ⟨x, hx, rfl⟩

theorem SameShape.trans {α : Type} {a1 a2 a3 : List (List α)} (h12 : SameShape a1 a2)
    (h23 : SameShape a2 a3) : SameShape a1 a3 := by
  intro a x hx
  obtain ⟨x2, hx2, hl2⟩ := h12 a x hx
  obtain ⟨x3, hx3, hl3⟩ := h23 a x2 hx2
  exact ⟨x3, hx3, hl3.trans hl2⟩

theorem Valid.mono {α : Type} {arrays arrays' : List (List α)} {s : Slice}
    (hv : Valid arrays s) (h : SameShape arrays arrays') : Valid arrays' s := by
  obtain ⟨hlen, h0 | ⟨a, ha, hcap⟩⟩ := hv
  · exact ⟨hlen, Or.inl h0⟩
  · obtain ⟨a', ha', hl⟩ := h _ a ha
    exact ⟨hlen, Or.inr ⟨a', ha', by omega⟩⟩

theorem getAt_of_contents {α : Type} (arrays : List (List α)) (s : Slice) (v : List α)
    (i : Nat) (x : α) (h : contents arrays s = .ok v) (hx : v[i]? = some x) :
    getAt arrays s i = .ok x := by
  have hlen := contents_length arrays s v h
  have hi : i < s.len := by
    rw [← hlen]
    exact (List.getElem?_eq_some_iff.mp hx).1
  unfold contents at h
  have h0 : s.len ≠ 0 := by omega
  simp only [h0, if_false] at h
  cases ha : arrays[s.arr]? with
  | none => simp [ha] at h
  | some a =>
    simp only [ha] at h
    by_cases hb : s.off + s.len ≤ a.length
    · simp only [hb, if_true, Except.ok.injEq] at h
      rw [← h, window_getElem? a s.off s.len i hi] at hx
      simp only [getAt, hi, if_true, ha]
      exact index_of_getElem? a _ x hx
    · simp [hb] at h

theorem from1_of_contents {α : Type} (arrays : List (List α)) (s : Slice) (x : α)
    (xs : List α) (h : contents arrays s = .ok (x :: xs)) :
    s.from1 = .ok ⟨s.arr, s.off + 1, s.len - 1, s.cap - 1⟩ ∧
      contents arrays ⟨s.arr, s.off + 1, s.len - 1, s.cap - 1⟩ = .ok xs := by
  have hlen := contents_length arrays s _ h
  simp only [List.length_cons] at hlen
  have h1 : 1 ≤ s.len := by omega
  refine ⟨by simp [Slice.from1, h1], ?_⟩
  unfold contents at h ⊢
  have h0 : s.len ≠ 0 := by omega
  simp only [h0, if_false] at h
  cases ha : arrays[s.arr]? with
  | none => simp [ha] at h
  | some a =>
    simp only [ha] at h
    by_cases hb : s.off + s.len ≤ a.length
    · simp only [hb, if_true, Except.ok.injEq] at h
      have hxs : xs = (a.drop (s.off + 1)).take (s.len - 1) := by
        have : (x :: xs).drop 1 = ((a.drop s.off).take s.len).drop 1 := by rw [h]
        simp only [List.drop_succ_cons, List.drop_zero] at this
        rw [this, List.drop_take, List.drop_drop]
      by_cases h2 : s.len - 1 = 0
      · simp only [h2, if_true, Except.ok.injEq]
        rw [hxs, h2]
        rfl
      · have hb2 : s.off + 1 + (s.len - 1) ≤ a.length := by omega
        simp [h2, ha, hb2, hxs]
    · simp [hb] at h

theorem overwrite_length {α : Type} (a : List α) (pos : Nat) (vals : List α)
    (h : pos + vals.length ≤ a.length) : (overwrite a pos vals).length = a.length := by
  simp only [overwrite, List.length_append, List.length_take, List.length_drop]
  omega

theorem overwrite_window {α : Type} (a : List α) (off len : Nat) (vals : List α)
    (h : off + len + vals.length ≤ a.length) :
    ((overwrite a (off + len) vals).drop off).take (len + vals.length)
      = (a.drop off).take len ++ vals := by
  have h1 : off ≤ (a.take (off + len)).length := by
    simp only [List.length_take]
    omega
  have h2 : ((a.drop off).take len ++ vals).length = len + vals.length := by
    simp only [List.length_append, List.length_take, List.length_drop]
    omega
  rw [overwrite, List.append_assoc, List.drop_append_of_le_length h1, List.drop_take,
    show off + len - off = len by omega, ← List.append_assoc, List.take_left' h2]

theorem appendTo_spec {α : Type} (zero : α) (grow : Nat → Nat → Nat)
    (arrays : List (List α)) (s : Slice) (vals v : List α)
    (hv : Valid arrays s) (hc : contents arrays s = .ok v) :
    ∃ s' arrays', appendTo zero grow arrays s vals = .ok (s', arrays') ∧
      contents arrays' s' = .ok (v ++ vals) ∧ Valid arrays' s' ∧
      s'.len = s.len + vals.length ∧ arrays.length ≤ arrays'.length ∧
      (s'.arr = s.arr ∨ s'.arr = arrays.length) ∧
      (∀ a : Nat, a < arrays.length → (s.len < s.cap → a ≠ s.arr) →
        arrays'[a]? = arrays[a]?) ∧
      SameShape arrays arrays' := by
  have hvlen : v.length = s.len := contents_length arrays s v hc
  by_cases h0 : vals.length = 0
  · have hnil : vals = [] := List.length_eq_zero.mp h0
    exact ⟨s, arrays, by simp [appendTo, h0], by simp [hnil, hc], hv,
      by simp [h0], Nat.le_refl _, Or.inl rfl, fun _ _ _ => rfl, SameShape.refl _⟩
  · by_cases hfit : s.len + vals.length ≤ s.cap
    · obtain ⟨hlc, hz | ⟨a2, ha, hcap⟩⟩ := hv
      · omega
      have hva : v = (a2.drop s.off).take s.len := by
        rw [contents_eq_window arrays s a2 ha (by omega)] at hc
        simpa using hc.symm
      have harr : s.arr < arrays.length := (List.getElem?_eq_some_iff.mp ha).1
      have hover : (overwrite a2 (s.off + s.len) vals).length = a2.length :=
        overwrite_length a2 _ vals (by omega)
      have hset : (arrays.set s.arr (overwrite a2 (s.off + s.len) vals))[s.arr]?
          = some (overwrite a2 (s.off + s.len) vals) := List.getElem?_set_self harr
      refine ⟨⟨s.arr, s.off, s.len + vals.length, s.cap⟩,
        arrays.set s.arr (overwrite a2 (s.off + s.len) vals),
        by simp [appendTo, h0, hfit, ha], ?_, ?_, rfl, by simp, Or.inl rfl, ?_, ?_⟩
      · rw [contents_eq_window _ ⟨s.arr, s.off, s.len + vals.length, s.cap⟩ _ hset
          (by rw [hover]; show s.off + (s.len + vals.length) ≤ a2.length; omega)]
        show Except.ok (List.take (s.len + vals.length)
          (List.drop s.off (overwrite a2 (s.off + s.len) vals))) = _
        rw [overwrite_window a2 s.off s.len vals (by omega), hva]
      · exact ⟨hfit, Or.inr ⟨_, hset, by rw [hover]; exact hcap⟩⟩
      · intro b _ hb
        have hlt : s.len < s.cap := by omega
        exact List.getElem?_set_ne (fun e => hb hlt e.symm)
      · intro b x hx
        by_cases hb : b = s.arr
        · subst hb
          rw [ha] at hx
          have : a2 = x := by simpa using hx
          subst this
          exact ⟨_, hset, hover⟩
        · refine ⟨x, ?_, rfl⟩
          rw [List.getElem?_set_ne (fun e => hb e.symm)]
          exact hx
    · have hn : s.len + vals.length ≤ max (s.len + vals.length) (grow s.cap (s.len + vals.length)) :=
        Nat.le_max_left _ _
      have hget : (arrays ++ [v ++ vals ++ List.replicate
          (max (s.len + vals.length) (grow s.cap (s.len + vals.length))
            - (s.len + vals.length)) zero])[arrays.length]?
          = some (v ++ vals ++ List.replicate
          (max (s.len + vals.length) (grow s.cap (s.len + vals.length))
            - (s.len + vals.length)) zero) := List.getElem?_concat_length _ _
      refine ⟨⟨arrays.length, 0, s.len + vals.length,
          max (s.len + vals.length) (grow s.cap (s.len + vals.length))⟩,
        arrays ++ [v ++ vals ++ List.replicate
          (max (s.len + vals.length) (grow s.cap (s.len + vals.length))
            - (s.len + vals.length)) zero],
        by simp [appendTo, h0, hfit, hc, bind_ok, pure_eq_ok], ?_, ?_, rfl, by simp,
        Or.inr rfl, ?_, ?_⟩
      · rw [contents_eq_window _ _ _ hget (by
          show 0 + (s.len + vals.length) ≤ _
          simp only [List.length_append, List.length_replicate, hvlen]
          omega)]
        show Except.ok (List.take (s.len + vals.length) (List.drop 0 _)) = _
        rw [List.drop_zero, List.take_left' (by simp [hvlen])]
      · refine ⟨hn, Or.inr ⟨_, hget, ?_⟩⟩
        show 0 + max (s.len + vals.length) (grow s.cap (s.len + vals.length)) ≤ _
        simp only [List.length_append, List.length_replicate, hvlen]
        omega
      · intro b hb _
        exact List.getElem?_append_left hb
      · intro b x hx
        have hb : b < arrays.length := (List.getElem?_eq_some_iff.mp hx).1
        exact ⟨x, by rw [List.getElem?_append_left hb]; exact hx, rfl⟩

theorem setAt_eq {α : Type} (arrays : List (List α)) (s : Slice) (i : Nat) (v : α)
    (a : List α) (ha : arrays[s.arr]? = some a) (hi : i < s.len) (hb : s.off + i < a.length) :
    setAt arrays s i v = .ok (arrays.set s.arr (a.set (s.off + i) v)) := by
  simp [setAt, hi, ha, hb]

theorem contents_arr_lt {α : Type} (arrays : List (List α)) (s : Slice) (v : List α)
    (h : contents arrays s = .ok v) (h0 : s.len ≠ 0) : s.arr < arrays.length := by
  unfold contents at h
  simp only [h0, if_false] at h
  cases ha : arrays[s.arr]? with
  | none => simp [ha] at h
  | some a => exact (List.getElem?_eq_some_iff.mp ha).1

theorem contents_append_frame {α : Type} (arrays extra : List (List α)) (s : Slice)
    (v : List α) (h : contents arrays s = .ok v) :
    contents (arrays ++ extra) s = .ok v := by
  rw [← h]
  apply contents_frame
  by_cases h0 : s.len = 0
  · exact Or.inl h0
  · exact Or.inr (List.getElem?_append_left (contents_arr_lt arrays s v h h0))

theorem SameShape.append {α : Type} (arrays extra : List (List α)) :
    SameShape arrays (arrays ++ extra) := by
  intro a x hx
  have ha : a < arrays.length := (List.getElem?_eq_some_iff.mp hx).1
  exact ⟨x, by rw [List.getElem?_append_left ha]; exact hx, rfl⟩

theorem AddColumns_loop_lens (grow : Nat → Nat → Nat) (m columns filler T : Slice)
    (ms cs : List Slice) (hT : T.len = m.len) (hT0 : T.off = 0)
    (hmT : m.len = 0 ∨ m.arr ≠ T.arr) (hcT : columns.len = 0 ∨ columns.arr ≠ T.arr) :
    ∀ (n i : Nat) (S : List (List String)) (R : List (List Slice)) (done : List Slice),
      i + n = m.len → contents R m = .ok ms → contents R columns = .ok cs →
      R[T.arr]? = some (done ++ List.replicate n Slice.nil) → done.length = i →
      (∀ s ∈ ms, Valid S s) → (∀ s ∈ cs, Valid S s) → Valid S filler →
      ∃ S' R' done', AddColumns.loop grow m columns filler T n i ⟨S, R⟩ = .ok ⟨S', R'⟩ ∧
        R'[T.arr]? = some (done ++ done') ∧ done'.length = n ∧ SameShape S S' ∧
        ∀ (j : Nat) (s' : Slice), done'[j]? = some s' →
          Valid S' s' ∧ ∃ s, ms[i + j]? = some s ∧
            s'.len = s.len + AddColumns.srcLen columns filler cs (i + j) := by
  intro n
  induction n with
  | zero =>
    intro i S R done _ _ _ hRT _ _ _ _
    exact ⟨S, R, [], rfl, by simpa using hRT, rfl, SameShape.refl S, by simp⟩
  | succ n ih =>
    intro i S R done hin hm hc hRT hdone hvm hvc hvf
    have hmslen : ms.length = m.len := contents_length R m ms hm
    have hcslen : cs.length = columns.len := contents_length R columns cs hc
    have hi : i < ms.length := by omega
    -- the row
    have hrow : getAt R m i = .ok ms[i] :=
      getAt_of_contents R m ms i _ hm (List.getElem?_eq_getElem hi)
    have hvrow : Valid S ms[i] := hvm _ (List.getElem_mem _)
    obtain ⟨v, hv⟩ := contents_of_valid S _ hvrow
    -- the source of the appended fields
    have hsrc : ∃ src, AddColumns.source ⟨S, R⟩ columns filler i
        = .ok src ∧ Valid S src ∧ src.len = AddColumns.srcLen columns filler cs i := by
      by_cases hic : i < columns.len
      · have hic2 : i < cs.length := by omega
        refine ⟨cs[i], ?_, hvc _ (List.getElem_mem _), ?_⟩
        · simp only [AddColumns.source, hic, if_true]
          exact getAt_of_contents R columns cs i _ hc (List.getElem?_eq_getElem hic2)
        · simp [AddColumns.srcLen, hic, List.getElem?_eq_getElem hic2]
      · exact ⟨filler, by simp [AddColumns.source, hic, pure_eq_ok], hvf,
          by simp [AddColumns.srcLen, hic]⟩
    obtain ⟨src, hsrcEq, hvsrc, hsrcLen⟩ := hsrc
    obtain ⟨vals, hvals⟩ := contents_of_valid S src hvsrc
    have hvalsLen : vals.length = src.len := contents_length S src vals hvals
    obtain ⟨row', S1, happ, _, hvrow', hlen', _, _, _, hshape⟩ :=
      appendTo_spec "" grow S ms[i] vals v hvrow hv
    -- the write of the new row
    have hTi : i < T.len := by omega
    have hTb : T.off + i < (done ++ List.replicate (n + 1) Slice.nil).length := by
      simp only [List.length_append, List.length_replicate, hdone, hT0]
      omega
    have hset := setAt_eq R T i row' _ hRT hTi hTb
    have hnew : (done ++ List.replicate (n + 1) Slice.nil).set (T.off + i) row'
        = (done ++ [row']) ++ List.replicate n Slice.nil := by
      rw [hT0, Nat.zero_add, List.set_append_right _ _ (by omega), hdone, Nat.sub_self,
        List.replicate_succ, List.set_cons_zero]
      simp
    rw [hnew] at hset
    have hTlt : T.arr < R.length := (List.getElem?_eq_some_iff.mp hRT).1
    have hmR : contents (R.set T.arr ((done ++ [row']) ++ List.replicate n Slice.nil)) m
        = .ok ms := by
      rw [← hm]
      apply contents_frame
      rcases hmT with h0 | hne
      · exact Or.inl h0
      · exact Or.inr (List.getElem?_set_ne (fun e => hne e.symm))
    have hcR : contents (R.set T.arr ((done ++ [row']) ++ List.replicate n Slice.nil)) columns
        = .ok cs := by
      rw [← hc]
      apply contents_frame
      rcases hcT with h0 | hne
      · exact Or.inl h0
      · exact Or.inr (List.getElem?_set_ne (fun e => hne e.symm))
    obtain ⟨S', R', done', hloop, hR', hdlen, hshape', hout⟩ :=
      ih (i + 1) S1 (R.set T.arr ((done ++ [row']) ++ List.replicate n Slice.nil))
        (done ++ [row']) (by omega) hmR hcR (List.getElem?_set_self hTlt)
        (by simp [hdone]) (fun s hs => (hvm s hs).mono hshape)
        (fun s hs => (hvc s hs).mono hshape) (hvf.mono hshape)
    refine ⟨S', R', row' :: done', ?_, by simpa using hR', by simp [hdlen],
      hshape.trans hshape', ?_⟩
    · simp only [AddColumns.loop, hrow, bind_ok, hsrcEq, hvals, happ, hset]
      exact hloop
    · intro j s' hj
      cases j with
      | zero =>
        have : row' = s' := by simpa using hj
        subst this
        refine ⟨hvrow'.mono hshape', ms[i], by simp [List.getElem?_eq_getElem hi], ?_⟩
        rw [hlen', hvalsLen, hsrcLen]
        rfl
      | succ j =>
        have hj2 : done'[j]? = some s' := by simpa using hj
        obtain ⟨hv', s, hs, hl⟩ := hout j s' hj2
        refine ⟨hv', s, ?_, ?_⟩
        · rw [show i + (j + 1) = i + 1 + j by omega]
          exact hs
        · rw [show i + (j + 1) = i + 1 + j by omega]
          exact hl

theorem viewRow_eq_some (h : Heap) (s : Slice) (row : Row) :
    h.viewRow s = some row ↔ contents h.strs s = .ok row := by
  unfold Heap.viewRow
  cases hc : contents h.strs s with
  | error e => simp
  | ok v => simp

theorem viewRows_eq_some (h : Heap) (ss : List Slice) (res : Table) :
    h.viewRows ss = some res ↔
      List.Forall₂ (fun s row => contents h.strs s = .ok row) ss res := by
  induction ss generalizing res with
  | nil =>
    cases res with
    | nil => simp [Heap.viewRows]
    | cons r rs => simp [Heap.viewRows]
  | cons s rest ih =>
    cases res with
    | nil =>
      simp only [Heap.viewRows, List.forall₂_nil_right_iff]
      cases h.viewRow s <;> cases h.viewRows rest <;> simp
    | cons r rs =>
      rw [List.forall₂_cons, ← ih rs, ← viewRow_eq_some]
      simp only [Heap.viewRows]
      cases h.viewRow s <;> cases h.viewRows rest <;> simp

theorem viewTable_eq_some (h : Heap) (t : Slice) (res : Table) :
    h.viewTable t = some res ↔
      ∃ ss, contents h.rows t = .ok ss ∧
        List.Forall₂ (fun s row => contents h.strs s = .ok row) ss res := by
  unfold Heap.viewTable
  cases hc : contents h.rows t with
  | error e => simp
  | ok ss => simp [viewRows_eq_some]

theorem forall₂_contents_of_valid (S : List (List String)) (ss : List Slice)
    (hv : ∀ s ∈ ss, Valid S s) :
    ∃ res, List.Forall₂ (fun s row => contents S s = .ok row) ss res := by
  induction ss with
  | nil => exact ⟨[], List.Forall₂.nil⟩
  | cons s rest ih =>
    obtain ⟨row, hrow⟩ := contents_of_valid S s (hv s (by simp))
    obtain ⟨tl, htl⟩ := ih (fun x hx => hv x (by simp [hx]))
    exact ⟨row :: tl, List.Forall₂.cons hrow htl⟩

theorem forall₂_getElem? {α β : Type} {P : α → β → Prop} {xs : List α} {ys : List β}
    (h : List.Forall₂ P xs ys) (j : Nat) (x : α) (y : β) (hx : xs[j]? = some x)
    (hy : ys[j]? = some y) : P x y := by
  induction h generalizing j with
  | nil => simp at hx
  | cons hxy _ ih =>
    cases j with
    | zero =>
      simp only [List.getElem?_cons_zero, Option.some.injEq] at hx hy
      rw [← hx, ← hy]
      exact hxy
    | succ j => exact ih j (by simpa using hx) (by simpa using hy)

/-- The slices of the rows that AddColumns returns: one for each row of `m`, with the length
of that row plus the length of the row of `columns` at its index, or of row 0 of `columns`
when there is no such row. No condition on how the rows are stored. -/
theorem AddColumns_lens (grow : Nat → Nat → Nat) (h : Heap) (m columns : Slice)
    (ms : List Slice) (c0 : Slice) (ct : List Slice)
    (hm : contents h.rows m = .ok ms) (hc : contents h.rows columns = .ok (c0 :: ct))
    (hvm : ∀ s ∈ ms, Valid h.strs s) (hvc : ∀ s ∈ c0 :: ct, Valid h.strs s) :
    ∃ T h' out, AddColumns grow h m columns = .ok (T, h') ∧
      contents h'.rows T = .ok out ∧ out.length = ms.length ∧
      ∀ (j : Nat) (s' : Slice), out[j]? = some s' →
        Valid h'.strs s' ∧ ∃ s, ms[j]? = some s ∧
          s'.len = s.len + (match (c0 :: ct)[j]? with
            | some c => c.len
            | none => c0.len) := by
  have hmslen : ms.length = m.len := contents_length h.rows m ms hm
  have hcslen : (c0 :: ct).length = columns.len := contents_length h.rows columns _ hc
  have hc0 : getAt h.rows columns 0 = .ok c0 :=
    getAt_of_contents h.rows columns _ 0 c0 hc (by simp)
  have hshape1 : SameShape h.strs (h.strs ++ [List.replicate c0.len ""]) :=
    SameShape.append _ _
  have hvf : Valid (h.strs ++ [List.replicate c0.len ""]) ⟨h.strs.length, 0, c0.len, c0.len⟩ :=
    ⟨Nat.le_refl _, Or.inr ⟨_, List.getElem?_concat_length _ _, by simp⟩⟩
  have hmT : m.len = 0 ∨ m.arr ≠ h.rows.length := by
    by_cases h0 : m.len = 0
    · exact Or.inl h0
    · exact Or.inr (Nat.ne_of_lt (contents_arr_lt h.rows m ms hm h0))
  have hcT : columns.len = 0 ∨ columns.arr ≠ h.rows.length := by
    refine Or.inr (Nat.ne_of_lt (contents_arr_lt h.rows columns _ hc ?_))
    simp only [List.length_cons] at hcslen
    omega
  obtain ⟨S', R', done', hloop, hR', hdlen, _, hout⟩ :=
    AddColumns_loop_lens grow m columns ⟨h.strs.length, 0, c0.len, c0.len⟩
      ⟨h.rows.length, 0, m.len, m.len⟩ ms (c0 :: ct) rfl rfl hmT hcT m.len 0
      (h.strs ++ [List.replicate c0.len ""]) (h.rows ++ [List.replicate m.len Slice.nil]) []
      (by omega) (contents_append_frame h.rows _ m ms hm)
      (contents_append_frame h.rows _ columns _ hc)
      (by simp [List.getElem?_concat_length]) rfl
      (fun s hs => (hvm s hs).mono hshape1) (fun s hs => (hvc s hs).mono hshape1) hvf
  refine ⟨⟨h.rows.length, 0, m.len, m.len⟩, ⟨S', R'⟩, done', ?_, ?_, by omega, ?_⟩
  · simp only [AddColumns, hc0, bind_ok, makeSlice, hloop, pure_eq_ok]
  · rw [contents_eq_window R' ⟨h.rows.length, 0, m.len, m.len⟩ done' (by simpa using hR')
      (by simp [hdlen])]
    simp [List.take_of_length_le (Nat.le_of_eq hdlen)]
  · intro j s' hj
    obtain ⟨hv', s, hs, hl⟩ := hout j s' hj
    rw [Nat.zero_add] at hs hl
    refine ⟨hv', s, hs, ?_⟩
    rw [hl]
    congr 1
    unfold AddColumns.srcLen
    by_cases hjc : j < columns.len
    · have hjc2 : j < (c0 :: ct).length := by omega
      simp [hjc, List.getElem?_eq_getElem hjc2]
    · have hjc2 : (c0 :: ct).length ≤ j := by omega
      simp [hjc, List.getElem?_eq_none hjc2]

theorem forall₂_getElem?_left {α β : Type} {P : α → β → Prop} {xs : List α} {ys : List β}
    (h : List.Forall₂ P xs ys) (j : Nat) (y : β) (hy : ys[j]? = some y) :
    ∃ x, xs[j]? = some x ∧ P x y := by
  have hlen := h.length_eq
  have hj : j < xs.length := by
    rw [hlen]
    exact (List.getElem?_eq_some_iff.mp hy).1
  exact ⟨xs[j], List.getElem?_eq_getElem hj,
    forall₂_getElem? h j _ y (List.getElem?_eq_getElem hj) hy⟩

theorem forall₂_getElem?_right {α β : Type} {P : α → β → Prop} {xs : List α} {ys : List β}
    (h : List.Forall₂ P xs ys) (j : Nat) (x : α) (hx : xs[j]? = some x) :
    ∃ y, ys[j]? = some y ∧ P x y := by
  have hlen := h.length_eq
  have hj : j < ys.length := by
    rw [← hlen]
    exact (List.getElem?_eq_some_iff.mp hx).1
  exact ⟨ys[j], List.getElem?_eq_getElem hj,
    forall₂_getElem? h j x _ hx (List.getElem?_eq_getElem hj)⟩

/-- The widths of the table AddColumns returns, read from memory: row `j` is as wide as row
`j` of the left table plus row `j` of the added table, or plus the header of the added table
when it has no row `j`. This holds however the rows of the two tables are stored. -/
theorem AddColumns_view_widths (grow : Nat → Nat → Nat) (h : Heap) (m columns : Slice)
    (L : Table) (bh : Row) (bt : Table) (hm : h.Holds m) (hc : h.Holds columns)
    (hL : h.viewTable m = some L) (hB : h.viewTable columns = some (bh :: bt)) :
    ∃ T h' res, AddColumns grow h m columns = .ok (T, h') ∧ h'.viewTable T = some res ∧
      res.length = L.length ∧
      ∀ (j : Nat) (row out : Row), L[j]? = some row → res[j]? = some out →
        out.length = row.length + (match (bh :: bt)[j]? with
          | some b => b.length
          | none => bh.length) := by
  obtain ⟨ms, hms, hvm⟩ := hm
  obtain ⟨cs, hcs, hvc⟩ := hc
  obtain ⟨ms2, hms2, hLf⟩ := (viewTable_eq_some h m L).mp hL
  obtain ⟨cs2, hcs2, hBf⟩ := (viewTable_eq_some h columns _).mp hB
  have e1 : ms2 = ms := by
    rw [hms] at hms2
    simpa using hms2.symm
  have e2 : cs2 = cs := by
    rw [hcs] at hcs2
    simpa using hcs2.symm
  subst e1
  subst e2
  cases cs2 with
  | nil => cases hBf
  | cons c0 ct =>
    obtain ⟨T, h', out, hrun, hout, holen, hspec⟩ :=
      AddColumns_lens grow h m columns ms2 c0 ct hms hcs hvm hvc
    have hvout : ∀ s ∈ out, Valid h'.strs s := by
      intro s hs
      obtain ⟨j, hj⟩ := List.mem_iff_getElem?.mp hs
      exact (hspec j s hj).1
    obtain ⟨res, hres⟩ := forall₂_contents_of_valid h'.strs out hvout
    refine ⟨T, h', res, hrun, (viewTable_eq_some h' T res).mpr ⟨out, hout, hres⟩, ?_, ?_⟩
    · rw [← hres.length_eq, holen, hLf.length_eq]
    · intro j row outRow hrow hor
      obtain ⟨s', hs', hcont'⟩ := forall₂_getElem?_left hres j outRow hor
      obtain ⟨_, s, hs, hl⟩ := hspec j s' hs'
      have hrowc := forall₂_getElem? hLf j s row hs hrow
      rw [contents_length h'.strs s' outRow hcont', hl, contents_length h.strs s row hrowc]
      congr 1
      have hc0 : contents h.strs c0 = .ok bh := by
        cases hBf with
        | cons hhd _ => exact hhd
      cases hcj : (c0 :: ct)[j]? with
      | none =>
        have hbj : (bh :: bt)[j]? = none := by
          rw [List.getElem?_eq_none_iff] at hcj ⊢
          rw [← hBf.length_eq]
          exact hcj
        rw [hbj]
        exact (contents_length h.strs c0 bh hc0).symm
      | some c =>
        obtain ⟨b, hb, hcb⟩ := forall₂_getElem?_right hBf j c hcj
        rw [hb]
        exact (contents_length h.strs c b hcb).symm

/-! ### LeftJoin: memory against table values -/

theorem window_split {α : Type} (a : List α) (off len : Nat) (_h : off + len ≤ a.length) :
    a = a.take off ++ (a.drop off).take len ++ a.drop (off + len) := by
  rw [List.append_assoc]
  conv => lhs; rw [← List.take_append_drop off a]
  congr 1
  conv => lhs; rw [← List.take_append_drop len (a.drop off)]
  rw [List.drop_drop]

/-- What the array of a table slice looks like when the slice shows `xs`. -/
theorem contents_split {α : Type} (arrays : List (List α)) (s : Slice) (xs : List α)
    (h : contents arrays s = .ok xs) (h0 : s.len ≠ 0) :
    ∃ front back, arrays[s.arr]? = some (front ++ xs ++ back) ∧ front.length = s.off := by
  unfold contents at h
  simp only [h0, if_false] at h
  cases ha : arrays[s.arr]? with
  | none => simp [ha] at h
  | some a =>
    simp only [ha] at h
    by_cases hb : s.off + s.len ≤ a.length
    · simp only [hb, if_true, Except.ok.injEq] at h
      refine ⟨a.take s.off, a.drop (s.off + s.len), ?_, ?_⟩
      · rw [← h, ← window_split a s.off s.len hb]
      · simp only [List.length_take]
        omega
    · simp [hb] at h

theorem contents_of_split {α : Type} (arrays : List (List α)) (s : Slice)
    (front xs back : List α) (ha : arrays[s.arr]? = some (front ++ xs ++ back))
    (hf : front.length = s.off) (hx : xs.length = s.len) : contents arrays s = .ok xs := by
  rw [contents_eq_window arrays s _ ha (by simp; omega)]
  rw [List.append_assoc, List.drop_left' hf, List.take_left' hx]

theorem getAt_of_split {α : Type} (arrays : List (List α)) (s : Slice)
    (front : List α) (x : α) (back : List α) (i : Nat)
    (ha : arrays[s.arr]? = some (front ++ x :: back)) (hf : front.length = s.off + i)
    (hi : i < s.len) : getAt arrays s i = .ok x := by
  simp only [getAt, hi, if_true, ha]
  apply index_of_getElem?
  rw [List.getElem?_append_right (by omega), hf, Nat.sub_self]
  simp

theorem setAt_of_split {α : Type} (arrays : List (List α)) (s : Slice)
    (front : List α) (x y : α) (back : List α) (i : Nat)
    (ha : arrays[s.arr]? = some (front ++ x :: back)) (hf : front.length = s.off + i)
    (hi : i < s.len) :
    setAt arrays s i y = .ok (arrays.set s.arr (front ++ y :: back)) := by
  rw [setAt_eq arrays s i y _ ha hi (by simp; omega)]
  congr 2
  rw [List.set_append_right _ _ (by omega), hf, Nat.sub_self, List.set_cons_zero]

/-- A slice whose cells do not include cell `idx` of its array shows the same after that
cell is written. -/
theorem contents_set_outside {α : Type} (arrays : List (List α)) (s : Slice) (a : List α)
    (idx : Nat) (x : α) (ha : arrays[s.arr]? = some a)
    (hout : idx < s.off ∨ s.off + s.len ≤ idx) :
    contents (arrays.set s.arr (a.set idx x)) s = contents arrays s := by
  have harr : s.arr < arrays.length := (List.getElem?_eq_some_iff.mp ha).1
  unfold contents
  by_cases h0 : s.len = 0
  · simp [h0]
  · simp only [h0, if_false, List.getElem?_set_self harr, ha, List.length_set]
    by_cases hb : s.off + s.len ≤ a.length
    · simp only [hb, if_true, Except.ok.injEq]
      apply List.ext_getElem?
      intro n
      by_cases hn : n < s.len
      · rw [window_getElem? _ _ _ _ hn, window_getElem? _ _ _ _ hn,
          List.getElem?_set_ne (by omega)]
      · rw [List.getElem?_eq_none (by simp; omega), List.getElem?_eq_none (by simp; omega)]
    · simp [hb]

theorem KRel_empty (S : List (List String)) (arrs : List Nat) :
    KRel S arrs GoMap.empty GoMap.empty := fun _ => Or.inl ⟨rfl, rfl⟩

theorem LeftJoin_keys_refines (h : Heap) (rest : Slice) (arrs : List Nat) :
    ∀ (pend : List Slice) (pv : Table) (j : Nat) (k : GoMap Slice) (kv : GoMap Row),
      (∀ (i : Nat) (v : Slice), pend[i]? = some v → getAt h.rows rest (j + i) = .ok v) →
      List.Forall₂ (fun s row => contents h.strs s = .ok row) pend pv →
      (∀ v ∈ pv, v ≠ []) → (∀ s ∈ pend, s.arr ∈ arrs) → KRel h.strs arrs k kv →
      ∃ k' kv', LeftJoin.keys h rest pend.length j k = .ok k' ∧
        stringtable.LeftJoin.keys pv kv = .ok kv' ∧ KRel h.strs arrs k' kv' := by
  intro pend
  induction pend with
  | nil =>
    intro pv j k kv _ hf _ _ hrel
    cases hf
    exact ⟨k, kv, rfl, rfl, hrel⟩
  | cons s pend ih =>
    intro pv j k kv hget hf hne harr hrel
    cases hf with
    | @cons _ v _ pv' hsv hrest =>
      cases v with
      | nil => exact absurd rfl (hne [] (by simp))
      | cons x xs =>
        have hrow : getAt h.rows rest j = .ok s := by
          have := hget 0 s (by simp)
          simpa using this
        have hkey : getAt h.strs s 0 = .ok x :=
          getAt_of_contents h.strs s _ 0 x hsv (by simp)
        obtain ⟨hfrom, hcont1⟩ := from1_of_contents h.strs s x xs hsv
        have hrel' : KRel h.strs arrs (k.set x ⟨s.arr, s.off + 1, s.len - 1, s.cap - 1⟩)
            (kv.set x xs) := by
          intro key
          by_cases hk : key = x
          · subst hk
            exact Or.inr ⟨_, xs, GoMap_get_set_self _ _ _, GoMap_get_set_self _ _ _, hcont1,
              Or.inr (harr s (by simp))⟩
          · rw [GoMap_get_set_ne _ _ _ _ hk, GoMap_get_set_ne _ _ _ _ hk]
            exact hrel key
        obtain ⟨k', kv', hk', hkv', hrel''⟩ := ih pv' (j + 1) _ _
          (fun i v hi => by
            have := hget (i + 1) v (by simpa using hi)
            rw [show j + 1 + i = j + (i + 1) by omega]
            exact this)
          hrest (fun v hv => hne v (by simp [hv])) (fun t ht => harr t (by simp [ht])) hrel'
        refine ⟨k', kv', ?_, ?_, hrel''⟩
        · simp only [List.length_cons, LeftJoin.keys, hrow, bind_ok, hkey, hfrom]
          exact hk'
        · simp only [stringtable.LeftJoin.keys, index_cons_zero, sliceFrom_cons_one, bind_ok]
          exact hkv'

theorem forall₂_contents_frame (S S1 : List (List String)) (ss : List Slice) (vs : Table)
    (hfr : ∀ q ∈ ss, q.len = 0 ∨ S1[q.arr]? = S[q.arr]?)
    (h : List.Forall₂ (fun s row => contents S s = .ok row) ss vs) :
    List.Forall₂ (fun s row => contents S1 s = .ok row) ss vs := by
  induction h with
  | nil => exact List.Forall₂.nil
  | @cons q w ss' vs' hqw _ ih =>
    refine List.Forall₂.cons ?_ (ih (fun x hx => hfr x (by simp [hx])))
    rw [contents_frame S S1 q (hfr q (by simp))]
    exact hqw

theorem KRel_frame (S S1 : List (List String)) (arrs : List Nat) (k : GoMap Slice)
    (kv : GoMap Row) (hfr : ∀ a ∈ arrs, a < S.length → S1[a]? = S[a]?)
    (h : KRel S arrs k kv) : KRel S1 arrs k kv := by
  intro key
  rcases h key with hn | ⟨sl, row, hk, hkv, hc, hs⟩
  · exact Or.inl hn
  · refine Or.inr ⟨sl, row, hk, hkv, ?_, hs⟩
    rw [← hc]
    apply contents_frame
    rcases hs with h0 | hmem
    · exact Or.inl h0
    · by_cases h0 : sl.len = 0
      · exact Or.inl h0
      · exact Or.inr (hfr _ hmem (contents_arr_lt S sl row hc h0))

theorem valid_arr_lt {α : Type} (arrays : List (List α)) (s : Slice) (hv : Valid arrays s)
    (hs : s.len < s.cap) : s.arr < arrays.length := by
  obtain ⟨_, h0 | ⟨a, ha, _⟩⟩ := hv
  · omega
  · exact (List.getElem?_eq_some_iff.mp ha).1

theorem LeftJoin_rows_refines (grow : Nat → Nat → Nat) (m : Slice) (k : GoMap Slice)
    (kv : GoMap Row) (filler : Slice) (fv : Row) (arrs : List Nat) (post : List Slice) :
    ∀ (pend : List Slice) (pv : Table) (i : Nat) (S : List (List String))
      (R : List (List Slice)) (pre : List Slice),
      R[m.arr]? = some (pre ++ pend ++ post) → pre.length = m.off + i + 1 →
      i + 1 + pend.length = m.len →
      List.Forall₂ (fun s row => contents S s = .ok row) pend pv →
      (∀ p ∈ pend, Valid S p) → (∀ v ∈ pv, v ≠ []) →
      KRel S arrs k kv → contents S filler = .ok fv →
      pend.Pairwise Apart →
      (∀ p ∈ pend, p.len < p.cap → p.arr ∉ arrs ∧ p.arr ≠ filler.arr) →
      ∃ S' R' pend', LeftJoin.rows grow m k filler pend.length i ⟨S, R⟩ = .ok ⟨S', R'⟩ ∧
        R'[m.arr]? = some (pre ++ pend' ++ post) ∧
        List.Forall₂ (fun s row =>
          contents S' s = .ok (stringtable.LeftJoin.extend kv fv row)) pend' pv ∧
        S.length ≤ S'.length ∧
        (∀ a : Nat, a < S.length → (∀ p ∈ pend, p.len < p.cap → a ≠ p.arr) →
          S'[a]? = S[a]?) := by
  intro pend
  induction pend with
  | nil =>
    intro pv i S R pre hA _ _ hf _ _ _ _ _ _
    cases hf
    exact ⟨S, R, [], rfl, hA, List.Forall₂.nil, Nat.le_refl _, fun _ _ _ => rfl⟩
  | cons p rest ih =>
    intro pv i S R pre hA hpre hlen hf hvalid hne hrel hfill hpair hpriv
    cases hf with
    | @cons _ v _ pv' hpv hrestf =>
      cases v with
      | nil => exact absurd rfl (hne [] (by simp))
      | cons key xs =>
        have hA2 : R[m.arr]? = some (pre ++ p :: (rest ++ post)) := by
          rw [hA]
          simp
        have hmlt : m.arr < R.length := (List.getElem?_eq_some_iff.mp hA).1
        simp only [List.length_cons] at hlen
        have hrow : getAt R m (i + 1) = .ok p :=
          getAt_of_split R m pre p _ (i + 1) hA2 (by omega) (by omega)
        have hkey : getAt S p 0 = .ok key :=
          getAt_of_contents S p _ 0 key hpv (by simp)
        have hvp : Valid S p := hvalid p (by simp)
        obtain ⟨hprivA, hprivF⟩ : (p.len < p.cap → p.arr ∉ arrs) ∧
            (p.len < p.cap → p.arr ≠ filler.arr) :=
          ⟨fun hs => (hpriv p (by simp) hs).1, fun hs => (hpriv p (by simp) hs).2⟩
        -- the source of the appended fields
        have hsrc : ∃ pay, contents S (LeftJoin.source k filler key) = .ok pay ∧
            stringtable.LeftJoin.extend kv fv (key :: xs) = (key :: xs) ++ pay := by
          rcases hrel key with ⟨hk, hkv⟩ | ⟨sl, row, hk, hkv, hc, _⟩
          · exact ⟨fv, by simp [LeftJoin.source, hk, hfill],
              by simp [stringtable.LeftJoin.extend, hkv]⟩
          · exact ⟨row, by simp [LeftJoin.source, hk, hc],
              by simp [stringtable.LeftJoin.extend, hkv]⟩
        obtain ⟨pay, hpay, hext⟩ := hsrc
        obtain ⟨p', S1, happ, hcont', _, _, hSlen, harr', hframe, hshape⟩ :=
          appendTo_spec "" grow S p pay (key :: xs) hvp hpv
        have hset : setAt R m (i + 1) p' = .ok (R.set m.arr (pre ++ p' :: (rest ++ post))) :=
          setAt_of_split R m pre p p' _ (i + 1) hA2 (by omega) (by omega)
        have hpc := List.pairwise_cons.mp hpair
        -- the facts that carry over to the memory after this step
        have hfrRest : ∀ q ∈ rest, q.len = 0 ∨ S1[q.arr]? = S[q.arr]? := by
          intro q hq
          by_cases h0 : q.len = 0
          · exact Or.inl h0
          · obtain ⟨w, -, hw⟩ : ∃ w, w ∈ pv' ∧ contents S q = .ok w := by
              obtain ⟨j, hj⟩ := List.mem_iff_getElem?.mp hq
              obtain ⟨w, hw, hqw⟩ := forall₂_getElem?_right hrestf j q hj
              exact ⟨w, List.getElem?_mem hw, hqw⟩
            exact Or.inr (hframe q.arr (contents_arr_lt S q w hw h0)
              (fun hs => (hpc.1 q hq).1 hs))
        have hrel1 : KRel S1 arrs k kv :=
          KRel_frame S S1 arrs k kv (fun a ha hlt => hframe a hlt
            (fun hs e => hprivA hs (e ▸ ha))) hrel
        have hfill1 : contents S1 filler = .ok fv := by
          rw [← hfill]
          apply contents_frame
          by_cases h0 : filler.len = 0
          · exact Or.inl h0
          · exact Or.inr (hframe filler.arr (contents_arr_lt S filler fv hfill h0)
              (fun hs e => hprivF hs e.symm))
        obtain ⟨S', R', pend', hloop, hR', hfo, hSlen', hframe'⟩ :=
          ih pv' (i + 1) S1 (R.set m.arr (pre ++ p' :: (rest ++ post))) (pre ++ [p'])
            (by rw [List.getElem?_set_self hmlt]; simp)
            (by simp; omega) (by omega)
            (forall₂_contents_frame S S1 rest pv' hfrRest hrestf)
            (fun q hq => (hvalid q (by simp [hq])).mono hshape)
            (fun w hw => hne w (by simp [hw])) hrel1 hfill1 hpc.2
            (fun q hq hs => hpriv q (by simp [hq]) hs)
        refine ⟨S', R', p' :: pend', ?_, by rw [hR']; simp, ?_, by omega, ?_⟩
        · simp only [List.length_cons, LeftJoin.rows, hrow, bind_ok, hkey, hpay, happ, hset]
          exact hloop
        · refine List.Forall₂.cons ?_ hfo
          rw [hext, ← hcont']
          apply contents_frame
          by_cases h0 : p'.len = 0
          · exact Or.inl h0
          · refine Or.inr (hframe' p'.arr
              (contents_arr_lt S1 p' _ hcont' h0) ?_)
            intro q hq hs
            rcases harr' with e | e
            · rw [e]
              exact (hpc.1 q hq).2 hs
            · rw [e]
              exact Nat.ne_of_gt (valid_arr_lt S q (hvalid q (by simp [hq])) hs)
        · intro a ha hap
          rw [hframe' a (by omega) (fun q hq hs => hap q (by simp [hq]) hs)]
          exact hframe a ha (fun hs => hap p (by simp) hs)

/-- LeftJoin on memory does what LeftJoin on table values does, when the tables are stored
so that no append in place can reach another row: the slot of the left header is not a slot
of a data row of the right table, and every left row with spare capacity has a backing array
that no other row of the two tables uses. -/
theorem LeftJoin_refines (grow : Nat → Nat → Nat) (h : Heap) (m right : Slice)
    (m0 : Slice) (lsd : List Slice) (r0 : Slice) (rsd : List Slice)
    (lh : Row) (lrows : Table) (rkey : String) (ncv : Row) (rrows : Table)
    (hm : contents h.rows m = .ok (m0 :: lsd)) (hr : contents h.rows right = .ok (r0 :: rsd))
    (hlv : List.Forall₂ (fun s row => contents h.strs s = .ok row) (m0 :: lsd) (lh :: lrows))
    (hrv : List.Forall₂ (fun s row => contents h.strs s = .ok row) (r0 :: rsd)
      ((rkey :: ncv) :: rrows))
    (hvalid : ∀ p ∈ m0 :: lsd, Valid h.strs p)
    (hl : ∀ row ∈ lrows, row ≠ []) (hrne : ∀ v ∈ rrows, v ≠ [])
    (hslot : m.arr ≠ right.arr ∨ m.off ≤ right.off ∨ right.off + right.len ≤ m.off)
    (hpair : (m0 :: lsd).Pairwise Apart)
    (hpriv : ∀ p ∈ m0 :: lsd, p.len < p.cap → ∀ r ∈ r0 :: rsd, r.arr ≠ p.arr) :
    ∃ h' kv, stringtable.LeftJoin.keys rrows GoMap.empty = .ok kv ∧
      LeftJoin grow h m right = .ok (m, h') ∧
      h'.viewTable m = some ((lh ++ ncv) ::
        lrows.map (stringtable.LeftJoin.extend kv (makeStrings ncv.length))) := by
  have hmlen : (m0 :: lsd).length = m.len := contents_length h.rows m _ hm
  have hrlen : (r0 :: rsd).length = right.len := contents_length h.rows right _ hr
  simp only [List.length_cons] at hmlen hrlen
  obtain ⟨hm0v, hlsdv⟩ := List.forall₂_cons.mp hlv
  obtain ⟨hr0v, hrsdv⟩ := List.forall₂_cons.mp hrv
  have hpc := List.pairwise_cons.mp hpair
  -- the new header
  have hr0 : getAt h.rows right 0 = .ok r0 := getAt_of_contents h.rows right _ 0 r0 hr (by simp)
  obtain ⟨hnc, hncv⟩ := from1_of_contents h.strs r0 rkey ncv hr0v
  have hnclen : ncv.length = r0.len - 1 := contents_length h.strs _ ncv hncv
  have hm0 : getAt h.rows m 0 = .ok m0 := getAt_of_contents h.rows m _ 0 m0 hm (by simp)
  obtain ⟨m0', S1, happ, hcont0, _, _, hSlen, harr0, hframe0, hshape0⟩ :=
    appendTo_spec "" grow h.strs m0 ncv lh (hvalid m0 (by simp)) hm0v
  obtain ⟨front, back, hAm, hfront⟩ := contents_split h.rows m _ hm (by omega)
  have hAm2 : h.rows[m.arr]? = some (front ++ m0 :: (lsd ++ back)) := by
    rw [hAm]
    simp
  have hmlt : m.arr < h.rows.length := (List.getElem?_eq_some_iff.mp hAm).1
  have hset0 : setAt h.rows m 0 m0' = .ok (h.rows.set m.arr (front ++ m0' :: (lsd ++ back))) :=
    setAt_of_split h.rows m front m0 m0' _ 0 hAm2 (by omega) (by omega)
  have hR1 : (h.rows.set m.arr (front ++ m0' :: (lsd ++ back)))[m.arr]?
      = some ((front ++ [m0']) ++ lsd ++ back) := by
    rw [List.getElem?_set_self hmlt]
    simp
  -- the rows of the right table, read after the header was written
  obtain ⟨hrest, hrestc⟩ := from1_of_contents h.rows right r0 rsd hr
  have hrestc1 : contents (h.rows.set m.arr (front ++ m0' :: (lsd ++ back)))
      ⟨right.arr, right.off + 1, right.len - 1, right.cap - 1⟩ = .ok rsd := by
    rw [← hrestc]
    by_cases hsame : m.arr = right.arr
    · have hset : front ++ m0' :: (lsd ++ back)
          = (front ++ m0 :: (lsd ++ back)).set m.off m0' := by
        rw [List.set_append_right _ _ (by omega), hfront, Nat.sub_self, List.set_cons_zero]
      rw [hset, hsame]
      exact contents_set_outside h.rows ⟨right.arr, right.off + 1, right.len - 1, right.cap - 1⟩
        _ m.off m0' (by rw [← hsame]; exact hAm2)
        (by
          rcases hslot with e | e | e
          · exact absurd hsame e
          · exact Or.inl (by show m.off < right.off + 1; omega)
          · exact Or.inr (by show right.off + 1 + (right.len - 1) ≤ m.off; omega))
    · exact contents_frame _ _ _ (Or.inr (List.getElem?_set_ne hsame))
  have hrsd1 : List.Forall₂ (fun s row => contents S1 s = .ok row) rsd rrows := by
    refine forall₂_contents_frame h.strs S1 rsd rrows ?_ hrsdv
    intro r hrm
    by_cases h0 : r.len = 0
    · exact Or.inl h0
    · obtain ⟨j, hj⟩ := List.mem_iff_getElem?.mp hrm
      obtain ⟨w, _, hw⟩ := forall₂_getElem?_right hrsdv j r hj
      exact Or.inr (hframe0 r.arr (contents_arr_lt h.strs r w hw h0)
        (fun hs => hpriv m0 (by simp) hs r (by simp [hrm])))
  obtain ⟨k, kv, hkeys, hkv, hrel⟩ :=
    LeftJoin_keys_refines ⟨S1, h.rows.set m.arr (front ++ m0' :: (lsd ++ back))⟩
      ⟨right.arr, right.off + 1, right.len - 1, right.cap - 1⟩ (rsd.map (fun r => r.arr))
      rsd rrows 0 GoMap.empty GoMap.empty
      (fun i v hi => by
        rw [Nat.zero_add]
        exact getAt_of_contents _ _ rsd i v hrestc1 hi)
      hrsd1 hrne (fun s hs => List.mem_map_of_mem _ hs) (KRel_empty _ _)
  have hrsdlen : rsd.length = right.len - 1 := by omega
  -- the filler
  have hfill : contents (S1 ++ [List.replicate (r0.len - 1) ""])
      ⟨S1.length, 0, r0.len - 1, r0.len - 1⟩ = .ok (makeStrings ncv.length) := by
    rw [contents_eq_window _ _ _ (List.getElem?_concat_length _ _) (by simp)]
    simp [makeStrings, hnclen]
  have hrel2 : KRel (S1 ++ [List.replicate (r0.len - 1) ""]) (rsd.map (fun r => r.arr)) k kv :=
    KRel_frame S1 _ _ k kv (fun a _ hlt => List.getElem?_append_left hlt) hrel
  have hlsd2 : List.Forall₂ (fun s row => contents (S1 ++ [List.replicate (r0.len - 1) ""]) s
      = .ok row) lsd lrows := by
    refine forall₂_contents_frame h.strs _ lsd lrows ?_ hlsdv
    intro q hq
    by_cases h0 : q.len = 0
    · exact Or.inl h0
    · obtain ⟨j, hj⟩ := List.mem_iff_getElem?.mp hq
      obtain ⟨w, _, hw⟩ := forall₂_getElem?_right hlsdv j q hj
      have hlt := contents_arr_lt h.strs q w hw h0
      refine Or.inr ?_
      rw [List.getElem?_append_left (by omega)]
      exact hframe0 q.arr hlt (fun hs => (hpc.1 q hq).1 hs)
  have hmfrom : m.from1 = .ok ⟨m.arr, m.off + 1, m.len - 1, m.cap - 1⟩ := by
    simp [Slice.from1, show 1 ≤ m.len by omega]
  obtain ⟨S', R', pend', hloop, hR', hfo, _, hframeL⟩ :=
    LeftJoin_rows_refines grow m k kv ⟨S1.length, 0, r0.len - 1, r0.len - 1⟩
      (makeStrings ncv.length) (rsd.map (fun r => r.arr)) back lsd lrows 0
      (S1 ++ [List.replicate (r0.len - 1) ""])
      (h.rows.set m.arr (front ++ m0' :: (lsd ++ back))) (front ++ [m0'])
      hR1 (by simp; omega) (by omega) hlsd2
      (fun p hp => ((hvalid p (by simp [hp])).mono hshape0).mono (SameShape.append _ _))
      hl hrel2 hfill hpc.2
      (fun p hp hs => by
        constructor
        · intro hmem
          obtain ⟨r, hrm, hra⟩ := List.mem_map.mp hmem
          exact hpriv p (by simp [hp]) hs r (by simp [hrm]) hra
        · have := valid_arr_lt h.strs p (hvalid p (by simp [hp])) hs
          show p.arr ≠ S1.length
          omega)
  refine ⟨⟨S', R'⟩, kv, hkv, ?_, ?_⟩
  · have hk2 : LeftJoin.keys ⟨S1, h.rows.set m.arr (front ++ m0' :: (lsd ++ back))⟩
        ⟨right.arr, right.off + 1, right.len - 1, right.cap - 1⟩ (right.len - 1) 0
        GoMap.empty = .ok k := by
      have hk3 := hkeys
      rw [hrsdlen] at hk3
      exact hk3
    have hl2 : LeftJoin.rows grow m k ⟨S1.length, 0, r0.len - 1, r0.len - 1⟩ (m.len - 1) 0
        ⟨S1 ++ [List.replicate (r0.len - 1) ""],
          h.rows.set m.arr (front ++ m0' :: (lsd ++ back))⟩ = .ok ⟨S', R'⟩ := by
      rw [show m.len - 1 = lsd.length by omega]
      exact hloop
    simp only [LeftJoin, hr0, bind_ok, hnc, hm0, hncv, happ, hset0, hrest, hk2, makeSlice,
      hmfrom, hl2, pure_eq_ok]
  · rw [viewTable_eq_some]
    have hplen : pend'.length = lsd.length := by
      rw [hfo.length_eq, hlsdv.length_eq]
    refine ⟨m0' :: pend', ?_, ?_⟩
    · exact contents_of_split R' m front (m0' :: pend') back (by rw [hR']; simp) hfront
        (by simp [hplen]; omega)
    · refine List.Forall₂.cons ?_ (List.forall₂_map_right_iff.mpr hfo)
      show contents S' m0' = .ok (lh ++ ncv)
      rw [← hcont0]
      apply contents_frame
      by_cases h0 : m0'.len = 0
      · exact Or.inl h0
      · have hlt := contents_arr_lt S1 m0' _ hcont0 h0
        refine Or.inr ?_
        rw [hframeL m0'.arr (by simp; omega) ?_, List.getElem?_append_left hlt]
        intro q hq hs
        rcases harr0 with e | e
        · rw [e]
          exact (hpc.1 q hq).2 hs
        · rw [e]
          exact Nat.ne_of_gt (valid_arr_lt h.strs q (hvalid q (by simp [hq])) hs)

/-! ### LeftJoin: the lengths of the rows, however they are stored -/

theorem getAt_of_valid {α : Type} (arrays : List (List α)) (s : Slice) (i : Nat)
    (hv : Valid arrays s) (hi : i < s.len) : ∃ x, getAt arrays s i = .ok x := by
  obtain ⟨v, hc⟩ := contents_of_valid arrays s hv
  have hlen := contents_length arrays s v hc
  have hiv : i < v.length := by omega
  exact ⟨v[i], getAt_of_contents arrays s v i _ hc (List.getElem?_eq_getElem hiv)⟩

theorem valid_from1 {α : Type} (arrays : List (List α)) (s : Slice)
    (hv : Valid arrays s) (h1 : 1 ≤ s.len) :
    s.from1 = .ok ⟨s.arr, s.off + 1, s.len - 1, s.cap - 1⟩ ∧
      Valid arrays ⟨s.arr, s.off + 1, s.len - 1, s.cap - 1⟩ := by
  refine ⟨by simp [Slice.from1, h1], ?_⟩
  obtain ⟨hlen, h0 | ⟨a, ha, hcap⟩⟩ := hv
  · omega
  · exact ⟨by show s.len - 1 ≤ s.cap - 1; omega,
      Or.inr ⟨a, ha, by show s.off + 1 + (s.cap - 1) ≤ a.length; omega⟩⟩

theorem KLens.sameShape {S S' : List (List String)} {srcs : List Slice} {k : GoMap Slice}
    (h : KLens S srcs k) (hs : SameShape S S') : KLens S' srcs k :=
  fun key sl hk => ⟨(h key sl hk).1.mono hs, (h key sl hk).2⟩

theorem LeftJoin_keys_lens (h : Heap) (rest : Slice) (srcs : List Slice) :
    ∀ (pend : List Slice) (j : Nat) (k : GoMap Slice),
      (∀ (i : Nat) (v : Slice), pend[i]? = some v → getAt h.rows rest (j + i) = .ok v) →
      (∀ v ∈ pend, Valid h.strs v ∧ 1 ≤ v.len ∧ v ∈ srcs) → KLens h.strs srcs k →
      ∃ k', LeftJoin.keys h rest pend.length j k = .ok k' ∧ KLens h.strs srcs k' := by
  intro pend
  induction pend with
  | nil => exact fun j k _ _ hk => ⟨k, rfl, hk⟩
  | cons s pend ih =>
    intro j k hget hv hk
    obtain ⟨hvs, hs1, hsrc⟩ := hv s (by simp)
    have hrow : getAt h.rows rest j = .ok s := by
      have := hget 0 s (by simp)
      simpa using this
    obtain ⟨x, hx⟩ := getAt_of_valid h.strs s 0 hvs (by omega)
    obtain ⟨hfrom, hv1⟩ := valid_from1 h.strs s hvs hs1
    have hk' : KLens h.strs srcs (k.set x ⟨s.arr, s.off + 1, s.len - 1, s.cap - 1⟩) := by
      intro key sl hsl
      by_cases hkey : key = x
      · subst hkey
        rw [GoMap_get_set_self] at hsl
        have : (⟨s.arr, s.off + 1, s.len - 1, s.cap - 1⟩ : Slice) = sl := by simpa using hsl
        subst this
        exact ⟨hv1, s, hsrc, rfl⟩
      · rw [GoMap_get_set_ne _ _ _ _ hkey] at hsl
        exact hk key sl hsl
    obtain ⟨k', hk2, hk3⟩ := ih (j + 1) _
      (fun i v hi => by
        have := hget (i + 1) v (by simpa using hi)
        rw [show j + 1 + i = j + (i + 1) by omega]
        exact this)
      (fun v hvm => hv v (by simp [hvm])) hk'
    refine ⟨k', ?_, hk3⟩
    simp only [List.length_cons, LeftJoin.keys, hrow, bind_ok, hx, hfrom]
    exact hk2

theorem LeftJoin_rows_lens (grow : Nat → Nat → Nat) (m : Slice) (k : GoMap Slice)
    (filler : Slice) (srcs post : List Slice) :
    ∀ (pend : List Slice) (i : Nat) (S : List (List String)) (R : List (List Slice))
      (pre : List Slice),
      R[m.arr]? = some (pre ++ pend ++ post) → pre.length = m.off + i + 1 →
      i + 1 + pend.length = m.len →
      (∀ p ∈ pend, Valid S p ∧ 1 ≤ p.len) → KLens S srcs k → Valid S filler →
      ∃ S' R' pend', LeftJoin.rows grow m k filler pend.length i ⟨S, R⟩ = .ok ⟨S', R'⟩ ∧
        R'[m.arr]? = some (pre ++ pend' ++ post) ∧ SameShape S S' ∧
        List.Forall₂ (fun p p' => Valid S' p' ∧
          (p'.len = p.len + filler.len ∨ ∃ r ∈ srcs, p'.len = p.len + (r.len - 1)))
          pend pend' := by
  intro pend
  induction pend with
  | nil =>
    intro i S R pre hA _ _ _ _ _
    exact ⟨S, R, [], rfl, hA, SameShape.refl S, List.Forall₂.nil⟩
  | cons p rest ih =>
    intro i S R pre hA hpre hlen hv hk hvf
    have hA2 : R[m.arr]? = some (pre ++ p :: (rest ++ post)) := by
      rw [hA]
      simp
    have hmlt : m.arr < R.length := (List.getElem?_eq_some_iff.mp hA).1
    simp only [List.length_cons] at hlen
    obtain ⟨hvp, hp1⟩ := hv p (by simp)
    have hrow : getAt R m (i + 1) = .ok p :=
      getAt_of_split R m pre p _ (i + 1) hA2 (by omega) (by omega)
    obtain ⟨key, hkey⟩ := getAt_of_valid S p 0 hvp (by omega)
    have hsrc : Valid S (LeftJoin.source k filler key) ∧
        ((LeftJoin.source k filler key).len = filler.len ∨
          ∃ r ∈ srcs, (LeftJoin.source k filler key).len = r.len - 1) := by
      cases hkk : k.get key with
      | none => exact ⟨by simp [LeftJoin.source, hkk, hvf], Or.inl (by simp [LeftJoin.source, hkk])⟩
      | some sl =>
        obtain ⟨hvsl, r, hr, hl⟩ := hk key sl hkk
        exact ⟨by simp [LeftJoin.source, hkk, hvsl],
          Or.inr ⟨r, hr, by simp [LeftJoin.source, hkk, hl]⟩⟩
    obtain ⟨hvsrc, hsrclen⟩ := hsrc
    obtain ⟨pay, hpay⟩ := contents_of_valid S _ hvsrc
    have hpaylen := contents_length S _ pay hpay
    obtain ⟨v, hpv⟩ := contents_of_valid S p hvp
    obtain ⟨p', S1, happ, _, hvp', hlen', _, _, _, hshape⟩ :=
      appendTo_spec "" grow S p pay v hvp hpv
    have hset : setAt R m (i + 1) p' = .ok (R.set m.arr (pre ++ p' :: (rest ++ post))) :=
      setAt_of_split R m pre p p' _ (i + 1) hA2 (by omega) (by omega)
    obtain ⟨S', R', pend', hloop, hR', hshape', hfo⟩ :=
      ih (i + 1) S1 (R.set m.arr (pre ++ p' :: (rest ++ post))) (pre ++ [p'])
        (by rw [List.getElem?_set_self hmlt]; simp)
        (by simp; omega) (by omega)
        (fun q hq => ⟨(hv q (by simp [hq])).1.mono hshape, (hv q (by simp [hq])).2⟩)
        (hk.sameShape hshape) (hvf.mono hshape)
    refine ⟨S', R', p' :: pend', ?_, by rw [hR']; simp, hshape.trans hshape', ?_⟩
    · simp only [List.length_cons, LeftJoin.rows, hrow, bind_ok, hkey, hpay, happ, hset]
      exact hloop
    · refine List.Forall₂.cons ⟨hvp'.mono hshape', ?_⟩ hfo
      rw [hlen', hpaylen]
      rcases hsrclen with e | ⟨r, hr, e⟩
      · exact Or.inl (by rw [e])
      · exact Or.inr ⟨r, hr, by rw [e]⟩

/-- The slices of the rows LeftJoin leaves in the left table, whatever the rows hold and
however they are stored, as long as the slot of the left header is not a slot of a data row
of the right table: the header grows by the right header without its first field, and each
data row by a row of the right table without its first field. -/
theorem LeftJoin_lens (grow : Nat → Nat → Nat) (h : Heap) (m right : Slice)
    (m0 : Slice) (lsd : List Slice) (r0 : Slice) (rsd : List Slice)
    (hm : contents h.rows m = .ok (m0 :: lsd)) (hr : contents h.rows right = .ok (r0 :: rsd))
    (hvl : ∀ p ∈ m0 :: lsd, Valid h.strs p) (hvr : ∀ r ∈ r0 :: rsd, Valid h.strs r)
    (hl1 : ∀ p ∈ lsd, 1 ≤ p.len) (hr1 : ∀ r ∈ r0 :: rsd, 1 ≤ r.len)
    (hslot : m.arr ≠ right.arr ∨ m.off ≤ right.off ∨ right.off + right.len ≤ m.off) :
    ∃ h' m0' pend', LeftJoin grow h m right = .ok (m, h') ∧
      contents h'.rows m = .ok (m0' :: pend') ∧ Valid h'.strs m0' ∧
      m0'.len = m0.len + (r0.len - 1) ∧
      List.Forall₂ (fun p p' => Valid h'.strs p' ∧
        ∃ r ∈ r0 :: rsd, p'.len = p.len + (r.len - 1)) lsd pend' := by
  have hmlen : (m0 :: lsd).length = m.len := contents_length h.rows m _ hm
  have hrlen : (r0 :: rsd).length = right.len := contents_length h.rows right _ hr
  simp only [List.length_cons] at hmlen hrlen
  have hr0 : getAt h.rows right 0 = .ok r0 := getAt_of_contents h.rows right _ 0 r0 hr (by simp)
  obtain ⟨hnc, hvnc⟩ := valid_from1 h.strs r0 (hvr r0 (by simp)) (hr1 r0 (by simp))
  obtain ⟨ncv, hncv⟩ := contents_of_valid h.strs _ hvnc
  have hnclen : ncv.length = r0.len - 1 := contents_length h.strs _ ncv hncv
  have hm0 : getAt h.rows m 0 = .ok m0 := getAt_of_contents h.rows m _ 0 m0 hm (by simp)
  obtain ⟨lh, hm0v⟩ := contents_of_valid h.strs m0 (hvl m0 (by simp))
  obtain ⟨m0', S1, happ, _, hvm0', hlen0, _, _, _, hshape0⟩ :=
    appendTo_spec "" grow h.strs m0 ncv lh (hvl m0 (by simp)) hm0v
  obtain ⟨front, back, hAm, hfront⟩ := contents_split h.rows m _ hm (by omega)
  have hAm2 : h.rows[m.arr]? = some (front ++ m0 :: (lsd ++ back)) := by
    rw [hAm]
    simp
  have hmlt : m.arr < h.rows.length := (List.getElem?_eq_some_iff.mp hAm).1
  have hset0 : setAt h.rows m 0 m0' = .ok (h.rows.set m.arr (front ++ m0' :: (lsd ++ back))) :=
    setAt_of_split h.rows m front m0 m0' _ 0 hAm2 (by omega) (by omega)
  have hR1 : (h.rows.set m.arr (front ++ m0' :: (lsd ++ back)))[m.arr]?
      = some ((front ++ [m0']) ++ lsd ++ back) := by
    rw [List.getElem?_set_self hmlt]
    simp
  obtain ⟨hrest, hrestc⟩ := from1_of_contents h.rows right r0 rsd hr
  have hrestc1 : contents (h.rows.set m.arr (front ++ m0' :: (lsd ++ back)))
      ⟨right.arr, right.off + 1, right.len - 1, right.cap - 1⟩ = .ok rsd := by
    rw [← hrestc]
    by_cases hsame : m.arr = right.arr
    · have hset : front ++ m0' :: (lsd ++ back)
          = (front ++ m0 :: (lsd ++ back)).set m.off m0' := by
        rw [List.set_append_right _ _ (by omega), hfront, Nat.sub_self, List.set_cons_zero]
      rw [hset, hsame]
      exact contents_set_outside h.rows ⟨right.arr, right.off + 1, right.len - 1, right.cap - 1⟩
        _ m.off m0' (by rw [← hsame]; exact hAm2)
        (by
          rcases hslot with e | e | e
          · exact absurd hsame e
          · exact Or.inl (by show m.off < right.off + 1; omega)
          · exact Or.inr (by show right.off + 1 + (right.len - 1) ≤ m.off; omega))
    · exact contents_frame _ _ _ (Or.inr (List.getElem?_set_ne hsame))
  obtain ⟨k, hkeys, hklens⟩ :=
    LeftJoin_keys_lens ⟨S1, h.rows.set m.arr (front ++ m0' :: (lsd ++ back))⟩
      ⟨right.arr, right.off + 1, right.len - 1, right.cap - 1⟩ rsd rsd 0 GoMap.empty
      (fun i v hi => by
        rw [Nat.zero_add]
        exact getAt_of_contents _ _ rsd i v hrestc1 hi)
      (fun v hv => ⟨(hvr v (by simp [hv])).mono hshape0, hr1 v (by simp [hv]), hv⟩)
      (fun key sl hk => by simp [GoMap.get, GoMap.empty] at hk)
  have hrsdlen : rsd.length = right.len - 1 := by omega
  have hshape2 : SameShape S1 (S1 ++ [List.replicate (r0.len - 1) ""]) := SameShape.append _ _
  have hvfill : Valid (S1 ++ [List.replicate (r0.len - 1) ""])
      ⟨S1.length, 0, r0.len - 1, r0.len - 1⟩ :=
    ⟨Nat.le_refl _, Or.inr ⟨_, List.getElem?_concat_length _ _, by simp⟩⟩
  have hmfrom : m.from1 = .ok ⟨m.arr, m.off + 1, m.len - 1, m.cap - 1⟩ := by
    simp [Slice.from1, show 1 ≤ m.len by omega]
  obtain ⟨S', R', pend', hloop, hR', hshape', hfo⟩ :=
    LeftJoin_rows_lens grow m k ⟨S1.length, 0, r0.len - 1, r0.len - 1⟩ rsd back lsd 0
      (S1 ++ [List.replicate (r0.len - 1) ""])
      (h.rows.set m.arr (front ++ m0' :: (lsd ++ back))) (front ++ [m0'])
      hR1 (by simp; omega) (by omega)
      (fun p hp => ⟨((hvl p (by simp [hp])).mono hshape0).mono hshape2, hl1 p hp⟩)
      (hklens.sameShape hshape2) hvfill
  have hplen : pend'.length = lsd.length := hfo.length_eq.symm
  refine ⟨⟨S', R'⟩, m0', pend', ?_, ?_, (hvm0'.mono hshape2).mono hshape', ?_, ?_⟩
  · have hk2 : LeftJoin.keys ⟨S1, h.rows.set m.arr (front ++ m0' :: (lsd ++ back))⟩
        ⟨right.arr, right.off + 1, right.len - 1, right.cap - 1⟩ (right.len - 1) 0
        GoMap.empty = .ok k := by
      have hk3 := hkeys
      rw [hrsdlen] at hk3
      exact hk3
    have hl2 : LeftJoin.rows grow m k ⟨S1.length, 0, r0.len - 1, r0.len - 1⟩ (m.len - 1) 0
        ⟨S1 ++ [List.replicate (r0.len - 1) ""],
          h.rows.set m.arr (front ++ m0' :: (lsd ++ back))⟩ = .ok ⟨S', R'⟩ := by
      rw [show m.len - 1 = lsd.length by omega]
      exact hloop
    simp only [LeftJoin, hr0, bind_ok, hnc, hm0, hncv, happ, hset0, hrest, hk2, makeSlice,
      hmfrom, hl2, pure_eq_ok]
  · exact contents_of_split R' m front (m0' :: pend') back (by rw [hR']; simp) hfront
      (by simp [hplen]; omega)
  · rw [hlen0, hnclen]
  · refine hfo.imp ?_
    intro p p' hpp
    refine ⟨hpp.1, ?_⟩
    rcases hpp.2 with e | ⟨r, hr, e⟩
    · exact ⟨r0, by simp, e⟩
    · exact ⟨r, by simp [hr], e⟩

/-- The widths of the table LeftJoin returns, read from memory: for rectangular tables with
a header row, a right header of at least one field and a left table without data rows or
with a header of at least one field, LeftJoin returns the left table with every row of
width `len(left[0]) + len(right[0]) - 1`, however the rows are stored, as long as the slot
of the left header is not a slot of a data row of the right table. -/
theorem LeftJoin_view_widths (grow : Nat → Nat → Nat) (h : Heap) (m right : Slice)
    (lh : Row) (lrows : Table) (rh : Row) (rrows : Table)
    (hm : h.Holds m) (hr : h.Holds right)
    (hL : h.viewTable m = some (lh :: lrows)) (hR : h.viewTable right = some (rh :: rrows))
    (hrectL : Rectangular (lh :: lrows)) (hrectR : Rectangular (rh :: rrows))
    (hrw : 1 ≤ rh.length) (hlw : lrows = [] ∨ 1 ≤ lh.length)
    (hslot : m.arr ≠ right.arr ∨ m.off ≤ right.off ∨ right.off + right.len ≤ m.off) :
    ∃ h' res, LeftJoin grow h m right = .ok (m, h') ∧ h'.viewTable m = some res ∧
      res.length = (lh :: lrows).length ∧
      ∀ row ∈ res, row.length = lh.length + rh.length - 1 := by
  have hla := (Rectangular_cons lh lrows).mp hrectL
  have hlb := (Rectangular_cons rh rrows).mp hrectR
  obtain ⟨ms, hms, hvm⟩ := hm
  obtain ⟨rs, hrs, hvr⟩ := hr
  obtain ⟨ms2, hms2, hLf⟩ := (viewTable_eq_some h m _).mp hL
  obtain ⟨rs2, hrs2, hRf⟩ := (viewTable_eq_some h right _).mp hR
  have e1 : ms2 = ms := by
    rw [hms] at hms2
    simpa using hms2.symm
  have e2 : rs2 = rs := by
    rw [hrs] at hrs2
    simpa using hrs2.symm
  subst e1
  subst e2
  cases ms2 with
  | nil => cases hLf
  | cons m0 lsd =>
    cases rs2 with
    | nil => cases hRf
    | cons r0 rsd =>
      obtain ⟨hm0v, hlsdv⟩ := List.forall₂_cons.mp hLf
      obtain ⟨hr0v, hrsdv⟩ := List.forall₂_cons.mp hRf
      have hlenm0 : lh.length = m0.len := contents_length h.strs m0 lh hm0v
      have hlenr0 : rh.length = r0.len := contents_length h.strs r0 rh hr0v
      have hlenr : ∀ r ∈ rsd, r.len = rh.length := by
        intro r hrm
        obtain ⟨j, hj⟩ := List.mem_iff_getElem?.mp hrm
        obtain ⟨w, hw, hc⟩ := forall₂_getElem?_right hrsdv j r hj
        rw [← contents_length h.strs r w hc]
        exact hlb w (List.getElem?_mem hw)
      have hlenl : ∀ p ∈ lsd, p.len = lh.length := by
        intro p hpm
        obtain ⟨j, hj⟩ := List.mem_iff_getElem?.mp hpm
        obtain ⟨w, hw, hc⟩ := forall₂_getElem?_right hlsdv j p hj
        rw [← contents_length h.strs p w hc]
        exact hla w (List.getElem?_mem hw)
      have hl1 : ∀ p ∈ lsd, 1 ≤ p.len := by
        intro p hpm
        rcases hlw with e | e
        · subst e
          cases hlsdv
          simp at hpm
        · rw [hlenl p hpm]
          exact e
      have hr1 : ∀ r ∈ r0 :: rsd, 1 ≤ r.len := by
        intro r hrm
        rcases List.mem_cons.mp hrm with e | e
        · rw [e, ← hlenr0]
          exact hrw
        · rw [hlenr r e]
          exact hrw
      obtain ⟨h', m0', pend', hrun, hcont, hvm0', hlen0, hfo⟩ :=
        LeftJoin_lens grow h m right m0 lsd r0 rsd hms hrs hvm hvr hl1 hr1 hslot
      have hvout : ∀ s ∈ m0' :: pend', Valid h'.strs s := by
        intro s hs
        rcases List.mem_cons.mp hs with e | e
        · rw [e]
          exact hvm0'
        · obtain ⟨j, hj⟩ := List.mem_iff_getElem?.mp e
          obtain ⟨p, _, hp⟩ := forall₂_getElem?_left hfo j s hj
          exact hp.1
      obtain ⟨res, hres⟩ := forall₂_contents_of_valid h'.strs _ hvout
      refine ⟨h', res, hrun, (viewTable_eq_some h' m res).mpr ⟨_, hcont, hres⟩, ?_, ?_⟩
      · rw [← hres.length_eq]
        simp only [List.length_cons]
        rw [← hfo.length_eq, hlsdv.length_eq]
      · intro row hrow
        obtain ⟨j, hj⟩ := List.mem_iff_getElem?.mp hrow
        obtain ⟨s, hs, hc⟩ := forall₂_getElem?_left hres j row hj
        rw [contents_length h'.strs s row hc]
        cases j with
        | zero =>
          have : m0' = s := by simpa using hs
          rw [← this, hlen0, hlenm0, hlenr0]
          omega
        | succ j =>
          have hs2 : pend'[j]? = some s := by simpa using hs
          obtain ⟨p, hp, _, r, hrm, hl⟩ := forall₂_getElem?_left hfo j s hs2
          have hpl := hlenl p (List.getElem?_mem hp)
          have hrl : r.len = rh.length := by
            rcases List.mem_cons.mp hrm with e | e
            · rw [e, hlenr0]
            · exact hlenr r e
          rw [hl, hpl, hrl]
          omega

/-! ### Append: one call, and two calls in either order -/

theorem viewRows_strs (h h' : Heap) (ss : List Slice) (hs : h'.strs = h.strs) :
    h'.viewRows ss = h.viewRows ss := by
  induction ss with
  | nil => rfl
  | cons s rest ih => simp only [Heap.viewRows, Heap.viewRow, hs, ih]

theorem viewRows_append (h : Heap) (xs ys : List Slice) (vx vy : Table)
    (hx : h.viewRows xs = some vx) (hy : h.viewRows ys = some vy) :
    h.viewRows (xs ++ ys) = some (vx ++ vy) := by
  rw [viewRows_eq_some] at hx hy ⊢
  exact List.rel_append hx hy

/-- One call of Append on memory, for a left table with a row and a right table with a row
whose headers have the same length: it returns a table slice that shows the rows of the
left table followed by the rows 1..end of the right table, whatever the capacity of the
left table; the arrays of strings are not touched, and an array of rows other than the one
of a left table with spare capacity is not touched either. -/
theorem Append_spec (grow : Nat → Nat → Nat) (h : Heap) (m a : Slice)
    (m0 : Slice) (mt : List Slice) (a0 : Slice) (at_ : List Slice)
    (hm : contents h.rows m = .ok (m0 :: mt)) (ha : contents h.rows a = .ok (a0 :: at_))
    (hvm : Valid h.rows m) (hw : m0.len = a0.len) :
    ∃ m' R', Append grow h m a = .ok (m', ⟨h.strs, R'⟩) ∧
      contents R' m' = .ok ((m0 :: mt) ++ at_) ∧ Valid R' m' ∧ SameShape h.rows R' ∧
      (∀ x : Nat, x < h.rows.length → (m.len < m.cap → x ≠ m.arr) →
        R'[x]? = h.rows[x]?) := by
  have hmlen : (m0 :: mt).length = m.len := contents_length h.rows m _ hm
  simp only [List.length_cons] at hmlen
  have hm0 : getAt h.rows m 0 = .ok m0 := getAt_of_contents h.rows m _ 0 m0 hm (by simp)
  have ha0 : getAt h.rows a 0 = .ok a0 := getAt_of_contents h.rows a _ 0 a0 ha (by simp)
  obtain ⟨hfrom, hrest⟩ := from1_of_contents h.rows a a0 at_ ha
  obtain ⟨m', R', happ, hcont, hvalid, _, _, _, hframe, hshape⟩ :=
    appendTo_spec Slice.nil grow h.rows m at_ (m0 :: mt) hvm hm
  refine ⟨m', R', ?_, hcont, hvalid, hshape, hframe⟩
  simp only [Append, show m.len > 0 by omega, if_true, hm0, bind_ok, ha0, hw, ne_eq,
    not_true_eq_false, if_false, hfrom, hrest, happ, pure_eq_ok]

theorem viewTable_of_contents (h : Heap) (t : Slice) (ss : List Slice) (res : Table)
    (hc : contents h.rows t = .ok ss) (hv : h.viewRows ss = some res) :
    h.viewTable t = some res := by
  simp [Heap.viewTable, hc, hv]

theorem contents_of_viewTable (h : Heap) (t : Slice) (res : Table)
    (hv : h.viewTable t = some res) :
    ∃ ss, contents h.rows t = .ok ss ∧ h.viewRows ss = some res := by
  unfold Heap.viewTable at hv
  cases hc : contents h.rows t with
  | error e => simp [hc] at hv
  | ok ss => exact ⟨ss, rfl, by simpa [hc] using hv⟩

theorem viewRows_cons (h : Heap) (s : Slice) (rest : List Slice) (row : Row) (tl : Table)
    (hv : h.viewRows (s :: rest) = some (row :: tl)) :
    contents h.strs s = .ok row ∧ h.viewRows rest = some tl := by
  rw [viewRows_eq_some] at hv
  obtain ⟨h1, h2⟩ := List.forall₂_cons.mp hv
  exact ⟨h1, (viewRows_eq_some h rest tl).mpr h2⟩

theorem Append_empty (grow : Nat → Nat → Nat) (h : Heap) (m a : Slice) (hm : m.len = 0) :
    Append grow h m a = .ok (a, h) := by
  simp [Append, hm, pure_eq_ok]

/-- C18 (amended). For all tables `A`, `B`, `C` where `B` and `C` have at least one row and
every table among them with a row has the same header width, STORED SO THAT `C` DOES NOT LIE
IN THE ARRAY OF `A` WHEN `A` HAS SPARE CAPACITY, NOR `A` IN THE ARRAY OF `B` WHEN `B` HAS SPARE
CAPACITY (the table slices `A` and `B` lying within their arrays): run from the same memory,
`A.Append(B).Append(C)` and `A.Append(B.Append(C))` return tables that show the same rows,
those of `A` (or the header of `B` when `A` is empty), then the data rows of `B`, then the
data rows of `C`; and none of the four calls fails. -/
theorem Append_stored_assoc (grow : Nat → Nat → Nat) (h : Heap) (a b c : Slice) (A : Table)
    (bh ch : Row) (bt ct : Table)
    (hva : Valid h.rows a) (hvb : Valid h.rows b)
    (hA : h.viewTable a = some A) (hB : h.viewTable b = some (bh :: bt))
    (hC : h.viewTable c = some (ch :: ct))
    (hbc : bh.length = ch.length) (ha : ∀ ah ∈ A.head?, ah.length = bh.length)
    (hac : a.len < a.cap → c.arr ≠ a.arr) (hba : b.len < b.cap → a.arr ≠ b.arr) :
    ∃ ab h1 l h2 bc h3 r h4 res,
      Append grow h a b = .ok (ab, h1) ∧ Append grow h1 ab c = .ok (l, h2) ∧
      Append grow h b c = .ok (bc, h3) ∧ Append grow h3 a bc = .ok (r, h4) ∧
      h2.viewTable l = some res ∧ h4.viewTable r = some res ∧
      res = (if A = [] then bh :: bt else A ++ bt) ++ ct := by
  obtain ⟨as_, hca, hAv⟩ := contents_of_viewTable h a A hA
  obtain ⟨bs, hcb, hBv⟩ := contents_of_viewTable h b _ hB
  obtain ⟨cs, hcc, hCv⟩ := contents_of_viewTable h c _ hC
  cases bs with
  | nil => simp [Heap.viewRows] at hBv
  | cons b0 bts =>
  cases cs with
  | nil => simp [Heap.viewRows] at hCv
  | cons c0 cts =>
  obtain ⟨hb0, hbtv⟩ := viewRows_cons h b0 bts bh bt hBv
  obtain ⟨hc0, hctv⟩ := viewRows_cons h c0 cts ch ct hCv
  have hb0len : b0.len = bh.length := (contents_length h.strs b0 bh hb0).symm
  have hc0len : c0.len = ch.length := (contents_length h.strs c0 ch hc0).symm
  -- B.Append(C), on the initial memory
  obtain ⟨bc, R3, hbcrun, hbccont, hbcvalid, hshape3, hframe3⟩ :=
    Append_spec grow h b c b0 bts c0 cts hcb hcc hvb (by omega)
  have hbcview : (⟨h.strs, R3⟩ : Heap).viewTable bc = some ((bh :: bt) ++ ct) := by
    apply viewTable_of_contents _ bc _ _ hbccont
    rw [viewRows_strs h ⟨h.strs, R3⟩ _ rfl]
    exact viewRows_append h _ _ _ _ hBv hctv
  cases as_ with
  | nil =>
    have hAnil : A = [] := by
      simp only [Heap.viewRows, Option.some.injEq] at hAv
      exact hAv.symm
    have halen : a.len = 0 := (contents_length h.rows a [] hca).symm
    refine ⟨b, h, bc, ⟨h.strs, R3⟩, bc, ⟨h.strs, R3⟩, bc, ⟨h.strs, R3⟩, (bh :: bt) ++ ct,
      Append_empty grow h a b halen, hbcrun, hbcrun, Append_empty grow _ a bc halen,
      hbcview, hbcview, by simp [hAnil]⟩
  | cons a0 ats =>
    cases A with
    | nil =>
      rw [viewRows_eq_some] at hAv
      cases hAv
    | cons ah at_ =>
    obtain ⟨ha0, hatv⟩ := viewRows_cons h a0 ats ah at_ hAv
    have ha0len : a0.len = ah.length := (contents_length h.strs a0 ah ha0).symm
    have hab : ah.length = bh.length := ha ah (by simp)
    have halen : a.len ≠ 0 := by
      have := contents_length h.rows a _ hca
      simp only [List.length_cons] at this
      omega
    have hclen : c.len ≠ 0 := by
      have := contents_length h.rows c _ hcc
      simp only [List.length_cons] at this
      omega
    -- A.Append(B), then .Append(C)
    obtain ⟨ab, R1, habrun, habcont, habvalid, hshape1, hframe1⟩ :=
      Append_spec grow h a b a0 ats b0 bts hca hcb hva (by omega)
    have hcc1 : contents R1 c = .ok (c0 :: cts) := by
      rw [← hcc]
      apply contents_frame
      right
      exact hframe1 c.arr (contents_arr_lt h.rows c _ hcc hclen) hac
    obtain ⟨l, R2, hlrun, hlcont, _, _, _⟩ :=
      Append_spec grow ⟨h.strs, R1⟩ ab c a0 (ats ++ bts) c0 cts
        (by simpa using habcont) hcc1 habvalid (by omega)
    -- A.Append(B.Append(C))
    have hca3 : contents R3 a = .ok (a0 :: ats) := by
      rw [← hca]
      apply contents_frame
      right
      exact hframe3 a.arr (contents_arr_lt h.rows a _ hca halen) hba
    obtain ⟨r, R4, hrrun, hrcont, _, _, _⟩ :=
      Append_spec grow ⟨h.strs, R3⟩ a bc a0 ats b0 (bts ++ cts)
        hca3 (by simpa using hbccont) (hva.mono hshape3) (by omega)
    have hABv : h.viewRows ((a0 :: ats) ++ bts) = some ((ah :: at_) ++ bt) :=
      viewRows_append h _ _ _ _ hAv hbtv
    refine ⟨ab, ⟨h.strs, R1⟩, l, ⟨h.strs, R2⟩, bc, ⟨h.strs, R3⟩, r, ⟨h.strs, R4⟩,
      (ah :: at_) ++ bt ++ ct, habrun, hlrun, hbcrun, hrrun, ?_, ?_, by simp⟩
    · apply viewTable_of_contents _ l _ _ hlcont
      rw [viewRows_strs h ⟨h.strs, R2⟩ _ rfl]
      have := viewRows_append h _ _ _ _ hABv hctv
      simpa using this
    · apply viewTable_of_contents _ r _ _ hrcont
      rw [viewRows_strs h ⟨h.strs, R4⟩ _ rfl]
      have := viewRows_append h _ _ _ _ hAv (viewRows_append h _ _ _ _ hbtv hctv)
      simpa using this

/-! ### LeftJoin on tables stored apart -/

theorem rowSlices_of_contents (h : Heap) (t : Slice) (ss : List Slice)
    (hc : contents h.rows t = .ok ss) : h.rowSlices t = ss := by
  simp [Heap.rowSlices, hc]

theorem holds_of_wellFormed (h : Heap) (t : Slice) (res : Table)
    (hv : h.viewTable t = some res) (hw : h.WellFormed t) : h.Holds t := by
  obtain ⟨ss, hc, _⟩ := contents_of_viewTable h t res hv
  refine ⟨ss, hc, ?_⟩
  have := rowSlices_of_contents h t ss hc
  unfold Heap.WellFormed at hw
  rwa [this] at hw

/-- LeftJoin on memory gives the table that LeftJoin on table values gives, when the rows of
the left table are stored apart. -/
theorem LeftJoin_refines_value (grow : Nat → Nat → Nat) (h : Heap) (m right : Slice)
    (lh : Row) (lrows : Table) (rh : Row) (rrows : Table)
    (hL : h.viewTable m = some (lh :: lrows)) (hR : h.viewTable right = some (rh :: rrows))
    (hsep : h.RowsApart m right)
    (hl : ∀ row ∈ lrows, row ≠ []) (hr : ∀ v ∈ rh :: rrows, v ≠ []) :
    ∃ h' res, LeftJoin grow h m right = .ok (m, h') ∧ h'.viewTable m = some res ∧
      stringtable.LeftJoin (lh :: lrows) (rh :: rrows) = .ok res := by
  obtain ⟨ls, hcm, hlv⟩ := (viewTable_eq_some h m _).mp hL
  obtain ⟨rs, hcr, hrv⟩ := (viewTable_eq_some h right _).mp hR
  obtain ⟨hslot, hvalid, hpair, hpriv⟩ := hsep
  rw [rowSlices_of_contents h m ls hcm] at hvalid hpair hpriv
  rw [rowSlices_of_contents h right rs hcr] at hpriv
  cases rh with
  | nil => exact absurd rfl (hr [] (by simp))
  | cons rkey ncv =>
  cases ls with
  | nil => cases hlv
  | cons m0 lsd =>
  cases rs with
  | nil => cases hrv
  | cons r0 rsd =>
  have hrne : ∀ v ∈ rrows, v ≠ [] := fun v hv => hr v (by simp [hv])
  obtain ⟨h', kv, hkv, hrun, hview⟩ := LeftJoin_refines grow h m right m0 lsd r0 rsd lh lrows
    rkey ncv rrows hcm hcr hlv hrv hvalid hl hrne hslot hpair hpriv
  obtain ⟨k, hk, hjoin⟩ := LeftJoin_cons_eq lh lrows rkey ncv rrows hl hrne
  rw [hkv] at hk
  cases hk
  exact ⟨h', _, hrun, hview, hjoin⟩

/-! ### LeftJoin on stored tables -/

/-- C1 (amended). For every left table with a header row whose data rows each have at least
one field, and every right table WITH A HEADER ROW whose rows each have at least one field,
STORED SO THAT THE ROWS OF THE LEFT TABLE ARE APART (`Heap.RowsApart`: a left row with spare
capacity has a backing array that no other row of the two tables uses, and the slot of the
left header row is not the slot of a right data row), LeftJoin returns the left table slice,
and the table this slice then shows has as many rows as the left table had; its row 0 is the
left header followed by the right header without its first field; and each data row is the
left row followed by the fields 1..end of the last data row of the right table whose field 0
equals the left row's field 0, or, when no data row of the right table has that key, by
exactly `len(right[0]) - 1` empty strings. This holds for every growth policy of `append`. -/
theorem LeftJoin_stored_spec (grow : Nat → Nat → Nat) (h : Heap) (m right : Slice)
    (lh : Row) (lrows : Table) (rh : Row) (rrows : Table)
    (hL : h.viewTable m = some (lh :: lrows)) (hR : h.viewTable right = some (rh :: rrows))
    (hsep : h.RowsApart m right)
    (hl : ∀ row ∈ lrows, row ≠ []) (hr : ∀ v ∈ rh :: rrows, v ≠ []) :
    ∃ h' res, LeftJoin grow h m right = .ok (m, h') ∧ h'.viewTable m = some res ∧
      res.length = (lh :: lrows).length ∧ res[0]? = some (lh ++ rh.drop 1) ∧
      ∀ (i : Nat) (row : Row), lrows[i]? = some row →
        (∀ (j : Nat) (v : Row), rrows[j]? = some v → v[0]? = row[0]? →
          (∀ (j' : Nat) (w : Row), j < j' → rrows[j']? = some w → w[0]? ≠ row[0]?) →
          res[i + 1]? = some (row ++ v.drop 1)) ∧
        ((∀ v ∈ rrows, v[0]? ≠ row[0]?) →
          res[i + 1]? = some (row ++ List.replicate (rh.length - 1) "")) := by
  obtain ⟨h', res, hrun, hview, hval⟩ :=
    LeftJoin_refines_value grow h m right lh lrows rh rrows hL hR hsep hl hr
  obtain ⟨res2, hres2, hprops⟩ := LeftJoin_spec lh lrows rh rrows hl hr
  rw [hval] at hres2
  cases hres2
  exact ⟨h', res, hrun, hview, hprops⟩

/-- The statement of `LeftJoin_stored_spec` at tables written as literals, each row in an
array of its own: a right table with a repeated key and a left table with one matching and
one unmatched row. -/
theorem LeftJoin_stored_spec_witness :
    ∃ h' res, LeftJoin doubling literalTables ⟨0, 0, 3, 3⟩ ⟨1, 0, 3, 3⟩
        = .ok (⟨0, 0, 3, 3⟩, h') ∧
      h'.viewTable ⟨0, 0, 3, 3⟩ = some res ∧
      res.length = [["queue", "data1"], ["one", "1"], ["three", "3"]].length ∧
      res[0]? = some (["queue", "data1"] ++ ["queue", "data2", "data3"].drop 1) ∧
      ∀ (i : Nat) (row : Row), [["one", "1"], ["three", "3"]][i]? = some row →
        (∀ (j : Nat) (v : Row), [["one", "d2", "d3"], ["one", "e2"]][j]? = some v →
          v[0]? = row[0]? →
          (∀ (j' : Nat) (w : Row), j < j' →
            [["one", "d2", "d3"], ["one", "e2"]][j']? = some w → w[0]? ≠ row[0]?) →
          res[i + 1]? = some (row ++ v.drop 1)) ∧
        ((∀ v ∈ [["one", "d2", "d3"], ["one", "e2"]], v[0]? ≠ row[0]?) →
          res[i + 1]? = some (row ++ List.replicate (["queue", "data2", "data3"].length - 1) "")) :=
  LeftJoin_stored_spec doubling literalTables ⟨0, 0, 3, 3⟩ ⟨1, 0, 3, 3⟩
    ["queue", "data1"] [["one", "1"], ["three", "3"]]
    ["queue", "data2", "data3"] [["one", "d2", "d3"], ["one", "e2"]]
    (by decide) (by decide) (by decide) (by decide) (by decide)

/-- C1 (as stated) fails in two ways. A right table with zero rows satisfies "every row has
at least one field", and on it LeftJoin panics at `right[0]` instead of returning a table.
And when the rows of the left table are cut from one array, `append` writes the new fields
of a row over the key of the next row: on `flatJoinTables` LeftJoin returns
`{{key,val,x},{x,a,""},{"",b,""}}` where the claim gives `{{key,val,x},{k1,a,X1},{k2,b,X2}}`. -/
theorem LeftJoin_stored_fails :
    (literalTables.viewTable ⟨0, 0, 3, 3⟩
        = some [["queue", "data1"], ["one", "1"], ["three", "3"]] ∧
      literalTables.viewTable ⟨1, 0, 0, 0⟩ = some [] ∧
      LeftJoin doubling literalTables ⟨0, 0, 3, 3⟩ ⟨1, 0, 0, 0⟩ = .error Failure.panic) ∧
    (flatJoinTables.viewTable ⟨0, 0, 3, 3⟩ = some [["key", "val"], ["k1", "a"], ["k2", "b"]] ∧
      flatJoinTables.viewTable ⟨1, 0, 3, 3⟩ = some [["key", "x"], ["k1", "X1"], ["k2", "X2"]] ∧
      ∃ h', LeftJoin doubling flatJoinTables ⟨0, 0, 3, 3⟩ ⟨1, 0, 3, 3⟩
          = .ok (⟨0, 0, 3, 3⟩, h') ∧
        h'.viewTable ⟨0, 0, 3, 3⟩ = some [["key", "val", "x"], ["x", "a", ""], ["", "b", ""]]) :=
  ⟨⟨by decide, by decide, rfl⟩, ⟨by decide, by decide, _, rfl, by decide⟩⟩

/-- C19 (amended). For every rectangular left table of width at least 1 whose header names
are pairwise distinct, and every right table WITH A HEADER ROW whose rows each have at least
one field, whatever its column names, STORED SO THAT THE ROWS OF THE LEFT TABLE ARE APART
(`Heap.RowsApart`), LeftJoin returns the left table slice, and Select on the table this
slice then shows, with the names of the left header in order, returns no error and the
original left table. -/
theorem Select_LeftJoin_stored (grow : Nat → Nat → Nat) (h : Heap) (m right : Slice)
    (lh : Row) (lrows : Table) (rh : Row) (rrows : Table)
    (hL : h.viewTable m = some (lh :: lrows)) (hR : h.viewTable right = some (rh :: rrows))
    (hsep : h.RowsApart m right)
    (hrect : Rectangular (lh :: lrows)) (hw : 1 ≤ lh.length) (hnd : lh.Nodup)
    (hr : ∀ v ∈ rh :: rrows, v ≠ []) :
    ∃ h' joined, LeftJoin grow h m right = .ok (m, h') ∧ h'.viewTable m = some joined ∧
      Select joined lh = .ok (lh :: lrows, none) := by
  have hlen := (Rectangular_cons lh lrows).mp hrect
  have hl : ∀ row ∈ lrows, row ≠ [] := by
    intro row hrow e
    have := hlen row hrow
    rw [e] at this
    simp at this
    omega
  obtain ⟨h', res, hrun, hview, hval⟩ :=
    LeftJoin_refines_value grow h m right lh lrows rh rrows hL hR hsep hl hr
  obtain ⟨joined, hjoin, hsel⟩ := Select_LeftJoin_left lh lrows rh rrows hrect hw hnd hr
  rw [hval] at hjoin
  cases hjoin
  exact ⟨h', res, hrun, hview, hsel⟩

/-- The statement of `Select_LeftJoin_stored` at tables written as literals, each row in an
array of its own. -/
theorem Select_LeftJoin_stored_witness :
    ∃ h' joined, LeftJoin doubling literalTables ⟨0, 0, 3, 3⟩ ⟨1, 0, 3, 3⟩
        = .ok (⟨0, 0, 3, 3⟩, h') ∧
      h'.viewTable ⟨0, 0, 3, 3⟩ = some joined ∧
      Select joined ["queue", "data1"]
        = .ok ([["queue", "data1"], ["one", "1"], ["three", "3"]], none) :=
  Select_LeftJoin_stored doubling literalTables ⟨0, 0, 3, 3⟩ ⟨1, 0, 3, 3⟩
    ["queue", "data1"] [["one", "1"], ["three", "3"]]
    ["queue", "data2", "data3"] [["one", "d2", "d3"], ["one", "e2"]]
    (by decide) (by decide) (by decide) (by decide) (by decide) (by decide) (by decide)

/-- C19 (as stated) fails in two ways. A right table with zero rows satisfies "every row has
at least one field", and LeftJoin panics on it, so there is no joined table to select from.
And when the rows of the left table are cut from one array, LeftJoin writes over the keys of
its data rows, so Select returns `{{key,val},{x,a},{"",b}}` and not the left table
`{{key,val},{k1,a},{k2,b}}`. -/
theorem Select_LeftJoin_stored_fails :
    (Rectangular [["queue", "data1"], ["one", "1"], ["three", "3"]] ∧
      ["queue", "data1"].Nodup ∧
      literalTables.viewTable ⟨0, 0, 3, 3⟩
        = some [["queue", "data1"], ["one", "1"], ["three", "3"]] ∧
      literalTables.viewTable ⟨1, 0, 0, 0⟩ = some [] ∧
      LeftJoin doubling literalTables ⟨0, 0, 3, 3⟩ ⟨1, 0, 0, 0⟩ = .error Failure.panic) ∧
    (Rectangular [["key", "val"], ["k1", "a"], ["k2", "b"]] ∧ ["key", "val"].Nodup ∧
      flatJoinTables.viewTable ⟨0, 0, 3, 3⟩ = some [["key", "val"], ["k1", "a"], ["k2", "b"]] ∧
      flatJoinTables.viewTable ⟨1, 0, 3, 3⟩ = some [["key", "x"], ["k1", "X1"], ["k2", "X2"]] ∧
      ∃ h' joined, LeftJoin doubling flatJoinTables ⟨0, 0, 3, 3⟩ ⟨1, 0, 3, 3⟩
          = .ok (⟨0, 0, 3, 3⟩, h') ∧
        h'.viewTable ⟨0, 0, 3, 3⟩ = some joined ∧
        Select joined ["key", "val"] = .ok ([["key", "val"], ["x", "a"], ["", "b"]], none)) :=
  ⟨⟨by decide, by decide, by decide, by decide, rfl⟩,
    ⟨by decide, by decide, by decide, by decide, _, _, rfl, rfl, rfl⟩⟩

/-! ### AddColumns on stored tables -/

/-- C7 on the code. `AddColumns` appends to the rows of `A` themselves. With the rows of `A`
cut from one array `[h, v1, v2]` and `B = {{c},{x1},{x2}}`, the call returns
`{{h,c},{c,x1},{x1,x2}}`, where C7 gives `{{h,c},{v1,x1},{v2,x2}}`, and it leaves `A` as
`{{h},{c},{x1}}`, while the package comment says that all operations are immutable unless
documented. The same happens on tables built from literals by the operations themselves:
`j := Table{{"k","a"},{"1","x"}}.LeftJoin(Table{{"k","b"},{"1","y"}})` leaves row 1 of `j`
with spare capacity, `j.Append(j)` holds that row twice, and
`AddColumns(Table{{"c"},{"p"},{"q"}})` then writes `p` and `q` into the same cell, so that
row 1 of the result ends in `q` where C7 gives `p`. When the rows of `A` are stored apart the
call returns what C7 gives (`AddColumns_refines_value` with `AddColumns_spec`). -/
theorem AddColumns_shared_array :
    (flatColumnTables.viewTable ⟨0, 0, 3, 3⟩ = some [["h"], ["v1"], ["v2"]] ∧
      flatColumnTables.viewTable ⟨1, 0, 3, 3⟩ = some [["c"], ["x1"], ["x2"]] ∧
      ∃ T h', AddColumns doubling flatColumnTables ⟨0, 0, 3, 3⟩ ⟨1, 0, 3, 3⟩ = .ok (T, h') ∧
        h'.viewTable T = some [["h", "c"], ["c", "x1"], ["x1", "x2"]] ∧
        h'.viewTable ⟨0, 0, 3, 3⟩ = some [["h"], ["c"], ["x1"]]) ∧
    (∃ j h1 jj h2 T h3,
      LeftJoin doubling joinedTwice ⟨0, 0, 2, 2⟩ ⟨1, 0, 2, 2⟩ = .ok (j, h1) ∧
      Append doubling h1 j j = .ok (jj, h2) ∧
      h2.viewTable jj = some [["k", "a", "b"], ["1", "x", "y"], ["1", "x", "y"]] ∧
      h2.viewTable ⟨2, 0, 3, 3⟩ = some [["c"], ["p"], ["q"]] ∧
      AddColumns doubling h2 jj ⟨2, 0, 3, 3⟩ = .ok (T, h3) ∧
      h3.viewTable T
        = some [["k", "a", "b", "c"], ["1", "x", "y", "q"], ["1", "x", "y", "q"]]) :=
  ⟨⟨by decide, by decide, _, _, rfl, by decide, by decide⟩,
    ⟨_, _, _, _, _, _, rfl, rfl, by decide, by decide, rfl, by decide⟩⟩

/-- C17 (amended). For every table `A` and every table `B` consisting of a header row only,
however their rows are stored (`Heap.WellFormed` asks only that every row slice lies within
its array), AddColumns returns a table with as many rows as `A`, in which each data row is
wider than the data row of `A` at its index by `columns(B)` fields, the length of the header
row of `B`, and not by one less. -/
theorem AddColumns_stored_header_only (grow : Nat → Nat → Nat) (h : Heap) (m columns : Slice)
    (a : Table) (bh : Row) (hwm : h.WellFormed m) (hwc : h.WellFormed columns)
    (hA : h.viewTable m = some a) (hB : h.viewTable columns = some [bh]) :
    ∃ T h' res, AddColumns grow h m columns = .ok (T, h') ∧ h'.viewTable T = some res ∧
      res.length = a.length ∧
      ∀ (i : Nat) (row : Row), 1 ≤ i → a[i]? = some row →
        ∃ out, res[i]? = some out ∧ out.length = row.length + bh.length := by
  obtain ⟨T, h', res, hrun, hview, hlen, hrows⟩ :=
    AddColumns_view_widths grow h m columns a bh [] (holds_of_wellFormed h m a hA hwm)
      (holds_of_wellFormed h columns _ hB hwc) hA hB
  refine ⟨T, h', res, hrun, hview, hlen, ?_⟩
  intro i row hi hrow
  have hilt : i < res.length := by
    rw [hlen]
    exact (List.getElem?_eq_some_iff.mp hrow).1
  refine ⟨res[i], List.getElem?_eq_getElem hilt, ?_⟩
  have := hrows i row res[i] hrow (List.getElem?_eq_getElem hilt)
  rw [this]
  cases i with
  | zero => omega
  | succ n => simp

/-- The statement of `AddColumns_stored_header_only` at a table whose rows are cut from one
array and the header-only table `{{c}}`. -/
theorem AddColumns_stored_header_only_witness :
    ∃ T h' res, AddColumns doubling flatColumnTables ⟨0, 0, 3, 3⟩ ⟨1, 0, 1, 3⟩ = .ok (T, h') ∧
      h'.viewTable T = some res ∧ res.length = [["h"], ["v1"], ["v2"]].length ∧
      ∀ (i : Nat) (row : Row), 1 ≤ i → [["h"], ["v1"], ["v2"]][i]? = some row →
        ∃ out, res[i]? = some out ∧ out.length = row.length + ["c"].length :=
  AddColumns_stored_header_only doubling flatColumnTables ⟨0, 0, 3, 3⟩ ⟨1, 0, 1, 3⟩
    [["h"], ["v1"], ["v2"]] ["c"] (by decide) (by decide) (by decide) (by decide)

/-- C17 (as stated) fails: with a header-only table of three columns and a left table
written as a literal, each data row of the left table is widened by three fields, the number
of columns, and not by two. -/
theorem AddColumns_stored_header_only_width :
    literalTables.viewTable ⟨0, 0, 3, 3⟩
        = some [["queue", "data1"], ["one", "1"], ["three", "3"]] ∧
      literalTables.viewTable ⟨1, 0, 1, 3⟩ = some [["queue", "data2", "data3"]] ∧
      (∃ T h', AddColumns doubling literalTables ⟨0, 0, 3, 3⟩ ⟨1, 0, 1, 3⟩ = .ok (T, h') ∧
        h'.viewTable T = some [["queue", "data1", "queue", "data2", "data3"],
          ["one", "1", "", "", ""], ["three", "3", "", "", ""]]) ∧
      ["one", "1", "", "", ""].length
        ≠ ["one", "1"].length + (["queue", "data2", "data3"].length - 1) :=
  ⟨by decide, by decide, ⟨_, _, rfl, by decide⟩, by decide⟩

/-! ### Append on stored tables -/

/-- The statement of `Append_stored_assoc` at a table `A` with spare capacity for three
rows, with `B` written as a literal and `C = B`. -/
theorem Append_stored_assoc_witness :
    ∃ ab h1 l h2 bc h3 r h4 res,
      Append doubling spareTables ⟨0, 0, 1, 4⟩ ⟨1, 0, 3, 3⟩ = .ok (ab, h1) ∧
      Append doubling h1 ab ⟨1, 0, 3, 3⟩ = .ok (l, h2) ∧
      Append doubling spareTables ⟨1, 0, 3, 3⟩ ⟨1, 0, 3, 3⟩ = .ok (bc, h3) ∧
      Append doubling h3 ⟨0, 0, 1, 4⟩ bc = .ok (r, h4) ∧
      h2.viewTable l = some res ∧ h4.viewTable r = some res ∧
      res = (if [["ah"]] = ([] : Table) then ["bh"] :: [["b1"], ["b2"]]
        else [["ah"]] ++ [["b1"], ["b2"]]) ++ [["b1"], ["b2"]] :=
  Append_stored_assoc doubling spareTables ⟨0, 0, 1, 4⟩ ⟨1, 0, 3, 3⟩ ⟨1, 0, 3, 3⟩
    [["ah"]] ["bh"] ["bh"] [["b1"], ["b2"]] [["b1"], ["b2"]]
    (by decide) (by decide) (by decide) (by decide) (by decide) (by decide) (by decide)
    (by decide) (by decide)

/-- C18 (as stated) fails: when the rows of `C` lie in the spare capacity of `A`,
`A.Append(B)` writes the data rows of `B` over them, so `A.Append(B).Append(C)` returns
`{{ah},{b1},{b2},{b2},{c2}}`, while `A.Append(B.Append(C))` returns
`{{ah},{b1},{b2},{c1},{c2}}`. All three tables have width one. -/
theorem Append_stored_not_assoc :
    spareTables.viewTable ⟨0, 0, 1, 4⟩ = some [["ah"]] ∧
      spareTables.viewTable ⟨1, 0, 3, 3⟩ = some [["bh"], ["b1"], ["b2"]] ∧
      spareTables.viewTable ⟨0, 1, 3, 3⟩ = some [["ch"], ["c1"], ["c2"]] ∧
      (∃ ab h1 l h2, Append doubling spareTables ⟨0, 0, 1, 4⟩ ⟨1, 0, 3, 3⟩ = .ok (ab, h1) ∧
        Append doubling h1 ab ⟨0, 1, 3, 3⟩ = .ok (l, h2) ∧
        h2.viewTable l = some [["ah"], ["b1"], ["b2"], ["b2"], ["c2"]]) ∧
      (∃ bc h3 r h4, Append doubling spareTables ⟨1, 0, 3, 3⟩ ⟨0, 1, 3, 3⟩ = .ok (bc, h3) ∧
        Append doubling h3 ⟨0, 0, 1, 4⟩ bc = .ok (r, h4) ∧
        h4.viewTable r = some [["ah"], ["b1"], ["b2"], ["c1"], ["c2"]]) :=
  ⟨by decide, by decide, by decide, ⟨_, _, _, _, rfl, rfl, by decide⟩,
    ⟨_, _, _, _, rfl, rfl, by decide⟩⟩

/-! ### What a call that returns tells about its input -/

theorem bind_eq_ok {α β : Type} (x : Run α) (f : α → Run β) (b : β)
    (h : (x >>= f) = .ok b) : ∃ a, x = .ok a ∧ f a = .ok b := by
  cases x with
  | error e => cases h
  | ok a => exact ⟨a, rfl, h⟩

theorem getAt_ok_lt {α : Type} (arrays : List (List α)) (s : Slice) (i : Nat) (x : α)
    (h : getAt arrays s i = .ok x) : i < s.len := by
  unfold getAt at h
  by_cases hi : i < s.len
  · exact hi
  · simp [hi] at h

theorem from1_ok_le (s t : Slice) (h : s.from1 = .ok t) :
    1 ≤ s.len ∧ t = ⟨s.arr, s.off + 1, s.len - 1, s.cap - 1⟩ := by
  unfold Slice.from1 at h
  by_cases h1 : 1 ≤ s.len
  · simp only [h1, if_true, Except.ok.injEq] at h
    exact ⟨h1, h.symm⟩
  · simp [h1] at h

/-- AddColumns returns only when the table of columns has a row. -/
theorem AddColumns_ok_inv (grow : Nat → Nat → Nat) (h : Heap) (m columns : Slice)
    (r : Slice × Heap) (hrun : AddColumns grow h m columns = .ok r) : 0 < columns.len := by
  unfold AddColumns at hrun
  obtain ⟨c0, h1, _⟩ := bind_eq_ok _ _ _ hrun
  exact getAt_ok_lt _ _ _ _ h1

/-- LeftJoin returns only when both tables have a row 0, row 0 of the right table has a
field, and row 1 of the left table, when there is one, has a field. -/
theorem LeftJoin_ok_inv (grow : Nat → Nat → Nat) (h : Heap) (m right : Slice)
    (r : Slice × Heap) (ls rs : List Slice)
    (hm : contents h.rows m = .ok ls) (hr : contents h.rows right = .ok rs)
    (hrun : LeftJoin grow h m right = .ok r) :
    ∃ m0 lsd r0 rsd, ls = m0 :: lsd ∧ rs = r0 :: rsd ∧ 1 ≤ r0.len ∧
      ∀ p : Slice, lsd[0]? = some p → 1 ≤ p.len := by
  unfold LeftJoin at hrun
  obtain ⟨r0, h1, hrun⟩ := bind_eq_ok _ _ _ hrun
  obtain ⟨newcols, h2, hrun⟩ := bind_eq_ok _ _ _ hrun
  obtain ⟨m0, h3, hrun⟩ := bind_eq_ok _ _ _ hrun
  obtain ⟨vals, h4, hrun⟩ := bind_eq_ok _ _ _ hrun
  obtain ⟨⟨m0', strs1⟩, h5, hrun⟩ := bind_eq_ok _ _ _ hrun
  obtain ⟨rows1, h6, hrun⟩ := bind_eq_ok _ _ _ hrun
  obtain ⟨rest, h7, hrun⟩ := bind_eq_ok _ _ _ hrun
  obtain ⟨k, h8, hrun⟩ := bind_eq_ok _ _ _ hrun
  simp only [makeSlice] at hrun
  obtain ⟨mrows, h9, hrun⟩ := bind_eq_ok _ _ _ hrun
  obtain ⟨hfin, h10, _⟩ := bind_eq_ok _ _ _ hrun
  have hrl := getAt_ok_lt _ _ _ _ h1
  have hml := getAt_ok_lt _ _ _ _ h3
  have hmlen := contents_length h.rows m ls hm
  have hrlen := contents_length h.rows right rs hr
  cases ls with
  | nil => simp at hmlen; omega
  | cons m0x lsd =>
  cases rs with
  | nil => simp at hrlen; omega
  | cons r0x rsd =>
  have e1 : getAt h.rows right 0 = .ok r0x := getAt_of_contents h.rows right _ 0 r0x hr (by simp)
  have e3 : getAt h.rows m 0 = .ok m0x := getAt_of_contents h.rows m _ 0 m0x hm (by simp)
  rw [h1] at e1
  rw [h3] at e3
  cases e1
  cases e3
  refine ⟨m0, lsd, r0, rsd, rfl, rfl, (from1_ok_le _ _ h2).1, ?_⟩
  intro p hp
  cases lsd with
  | nil => simp at hp
  | cons p1 lsd2 =>
  simp only [List.getElem?_cons_zero, Option.some.injEq] at hp
  rw [← hp]
  simp only [List.length_cons] at hmlen
  obtain ⟨_, hmrows⟩ := from1_ok_le _ _ h9
  have hn : mrows.len = (m.len - 2) + 1 := by
    rw [hmrows]
    show m.len - 1 = m.len - 2 + 1
    omega
  rw [hn] at h10
  simp only [LeftJoin.rows] at h10
  obtain ⟨row, h11, h10⟩ := bind_eq_ok _ _ _ h10
  obtain ⟨key, h12, _⟩ := bind_eq_ok _ _ _ h10
  have hrowlen := getAt_ok_lt _ _ _ _ h12
  obtain ⟨front, back, hAm, hfront⟩ := contents_split h.rows m _ hm (by omega)
  have hAm2 : h.rows[m.arr]? = some (front ++ m0 :: (p1 :: lsd2 ++ back)) := by
    rw [hAm]
    simp
  have hmlt : m.arr < h.rows.length := (List.getElem?_eq_some_iff.mp hAm).1
  have hset0 := setAt_of_split h.rows m front m0 m0' _ 0 hAm2 (by omega) (by omega)
  rw [h6] at hset0
  cases hset0
  have hget : getAt (h.rows.set m.arr (front ++ m0' :: (p1 :: lsd2 ++ back))) m 1 = .ok p1 := by
    apply getAt_of_split _ m (front ++ [m0']) p1 (lsd2 ++ back) 1
    · rw [List.getElem?_set_self hmlt]
      simp
    · simp
      omega
    · omega
  rw [h11] at hget
  cases hget
  exact hrowlen

/-! ### Rectangularity of what is read from memory -/

theorem AddColumns_stored_widths (grow : Nat → Nat → Nat) (h : Heap) (ma mb : Slice)
    (a b : Table) (hA : h.viewTable ma = some a) (hB : h.viewTable mb = some b)
    (hwa : h.WellFormed ma) (hwb : h.WellFormed mb)
    (ha : Rectangular a) (hb : Rectangular b) (T : Slice) (h' : Heap) (res : Table)
    (hrun : AddColumns grow h ma mb = .ok (T, h')) (hview : h'.viewTable T = some res) :
    ∀ row ∈ res, row.length = headerWidth a + headerWidth b := by
  have hcl := AddColumns_ok_inv grow h ma mb _ hrun
  obtain ⟨rs, hcr, hrv⟩ := (viewTable_eq_some h mb b).mp hB
  have hrlen := contents_length h.rows mb rs hcr
  cases b with
  | nil =>
    exfalso
    have := hrv.length_eq
    rw [List.length_nil] at this
    omega
  | cons bh bt =>
  obtain ⟨T0, h0, res0, hrun0, hview0, hlen0, hrows0⟩ :=
    AddColumns_view_widths grow h ma mb a bh bt (holds_of_wellFormed h ma a hA hwa)
      (holds_of_wellFormed h mb _ hB hwb) hA hB
  rw [hrun] at hrun0
  cases hrun0
  rw [hview] at hview0
  cases hview0
  intro row hrow
  obtain ⟨j, hj, hjrow⟩ := List.getElem_of_mem hrow
  have hja : j < a.length := by omega
  have hout : res[j]? = some row := by
    rw [List.getElem?_eq_getElem hj, hjrow]
  have hw := hrows0 j a[j] row (List.getElem?_eq_getElem hja) hout
  rw [hw, ha a[j] (List.getElem_mem hja)]
  congr 1
  cases hbj : (bh :: bt)[j]? with
  | none => simp [headerWidth]
  | some bj => exact hb bj (List.getElem?_mem hbj)

theorem LeftJoin_stored_widths (grow : Nat → Nat → Nat) (h : Heap) (ma mb : Slice)
    (a b : Table) (hA : h.viewTable ma = some a) (hB : h.viewTable mb = some b)
    (hwa : h.WellFormed ma) (hwb : h.WellFormed mb)
    (ha : Rectangular a) (hb : Rectangular b)
    (hslot : ma.arr ≠ mb.arr ∨ ma.off ≤ mb.off ∨ mb.off + mb.len ≤ ma.off)
    (T : Slice) (h' : Heap) (res : Table)
    (hrun : LeftJoin grow h ma mb = .ok (T, h')) (hview : h'.viewTable T = some res) :
    ∀ row ∈ res, row.length = headerWidth a + headerWidth b - 1 := by
  obtain ⟨ls, hcl, hlv⟩ := (viewTable_eq_some h ma a).mp hA
  obtain ⟨rs, hcr, hrv⟩ := (viewTable_eq_some h mb b).mp hB
  obtain ⟨m0, lsd, r0, rsd, els, ers, hr0, hp⟩ := LeftJoin_ok_inv grow h ma mb _ ls rs hcl hcr hrun
  subst els
  subst ers
  cases a with
  | nil => cases hlv
  | cons lh lrows =>
  cases b with
  | nil => cases hrv
  | cons rh rrows =>
  obtain ⟨hm0v, hlsdv⟩ := List.forall₂_cons.mp hlv
  obtain ⟨hr0v, _⟩ := List.forall₂_cons.mp hrv
  have hrw : 1 ≤ rh.length := by
    rw [contents_length h.strs r0 rh hr0v]
    exact hr0
  have hlen := (Rectangular_cons lh lrows).mp ha
  have hlw : lrows = [] ∨ 1 ≤ lh.length := by
    cases lsd with
    | nil =>
      cases hlsdv
      exact Or.inl rfl
    | cons p lsd2 =>
      cases lrows with
      | nil => cases hlsdv
      | cons row1 rest =>
        obtain ⟨hpv, _⟩ := List.forall₂_cons.mp hlsdv
        right
        rw [← hlen row1 (by simp), contents_length h.strs p row1 hpv]
        exact hp p (by simp)
  obtain ⟨h0, res0, hrun0, hview0, _, hw0⟩ :=
    LeftJoin_view_widths grow h ma mb lh lrows rh rrows (holds_of_wellFormed h ma _ hA hwa)
      (holds_of_wellFormed h mb _ hB hwb) hA hB ha hb hrw hlw hslot
  rw [hrun] at hrun0
  cases hrun0
  rw [hview] at hview0
  cases hview0
  simpa [headerWidth] using hw0

/-- C12 (amended). Whenever the input tables are rectangular, the table returned by each of
Append (which returns only for equal header widths or an empty left table), AddColumns,
Filter and a Select without error is rectangular, and so is the table returned by LeftJoin
PROVIDED THE SLOT OF THE LEFT HEADER ROW IS NOT THE SLOT OF A DATA ROW OF THE RIGHT TABLE;
every row of the table LeftJoin then returns has width `len(left[0]) + len(right[0]) - 1`,
and every row of the table AddColumns returns has width `len(A[0]) + len(B[0])`. For
AddColumns and LeftJoin the tables are read from memory, and this holds however the rows are
stored (`Heap.WellFormed` asks only that every row slice lies within its array). The
operations do return such a table when both tables have a header row: Append for equal
header widths, LeftJoin for headers with at least one field and under the proviso, Select
for names that occur in the header. -/
theorem Rectangular_stored (grow : Nat → Nat → Nat) (h : Heap) (ma mb : Slice)
    (a b : Table) (f : Row → ColumnIndices → Bool) (columns : List String)
    (hA : h.viewTable ma = some a) (hB : h.viewTable mb = some b)
    (hwa : h.WellFormed ma) (hwb : h.WellFormed mb)
    (ha : Rectangular a) (hb : Rectangular b) :
    (∀ res, stringtable.Append a b = .ok res → Rectangular res) ∧
      (∀ T h' res, AddColumns grow h ma mb = .ok (T, h') → h'.viewTable T = some res →
        Rectangular res ∧ ∀ row ∈ res, row.length = headerWidth a + headerWidth b) ∧
      (∀ res, Filter a f = .ok res → Rectangular res) ∧
      ((ma.arr ≠ mb.arr ∨ ma.off ≤ mb.off ∨ mb.off + mb.len ≤ ma.off) →
        ∀ T h' res, LeftJoin grow h ma mb = .ok (T, h') → h'.viewTable T = some res →
          Rectangular res ∧ ∀ row ∈ res, row.length = headerWidth a + headerWidth b - 1) ∧
      (∀ res, Select a columns = .ok (res, none) → Rectangular res) ∧
      (∀ (ah bh : Row) (at_ bt : Table), a = ah :: at_ → b = bh :: bt →
        (ah.length = bh.length → ∃ res, stringtable.Append a b = .ok res) ∧
        (∃ T h' res, AddColumns grow h ma mb = .ok (T, h') ∧ h'.viewTable T = some res) ∧
        (∃ res, Filter a f = .ok res) ∧
        (1 ≤ ah.length → 1 ≤ bh.length →
          (ma.arr ≠ mb.arr ∨ ma.off ≤ mb.off ∨ mb.off + mb.len ≤ ma.off) →
          ∃ T h' res, LeftJoin grow h ma mb = .ok (T, h') ∧ h'.viewTable T = some res) ∧
        ((∀ c ∈ columns, c ∈ ah) → ∃ res, Select a columns = .ok (res, none))) := by
  refine ⟨fun res hr => Append_rectangular a b res ha hb hr, ?_,
    fun res hr => Filter_rectangular a res f ha hr, ?_,
    fun res hr => Select_rectangular a columns res hr, ?_⟩
  · intro T h' res hrun hview
    have hw := AddColumns_stored_widths grow h ma mb a b hA hB hwa hwb ha hb T h' res hrun hview
    exact ⟨Rectangular_of_forall res _ hw, hw⟩
  · intro hslot T h' res hrun hview
    have hw := LeftJoin_stored_widths grow h ma mb a b hA hB hwa hwb ha hb hslot T h' res
      hrun hview
    exact ⟨Rectangular_of_forall res _ hw, hw⟩
  · intro ah bh at_ bt ea eb
    subst ea
    subst eb
    have hla := (Rectangular_cons ah at_).mp ha
    refine ⟨?_, ?_, ⟨_, Filter_cons_eq ah at_ f⟩, ?_, ?_⟩
    · intro hw
      exact ⟨(ah :: at_) ++ bt,
        by simp [stringtable.Append, index_cons_zero, sliceFrom_cons_one, bind_ok, pure_eq_ok,
          hw]⟩
    · obtain ⟨T, h', res, hrun, hview, _⟩ :=
        AddColumns_view_widths grow h ma mb (ah :: at_) bh bt
          (holds_of_wellFormed h ma _ hA hwa) (holds_of_wellFormed h mb _ hB hwb) hA hB
      exact ⟨T, h', res, hrun, hview⟩
    · intro haw hbw hslot
      obtain ⟨h', res, hrun, hview, _⟩ :=
        LeftJoin_view_widths grow h ma mb ah at_ bh bt (holds_of_wellFormed h ma _ hA hwa)
          (holds_of_wellFormed h mb _ hB hwb) hA hB ha hb hbw (Or.inr haw) hslot
      exact ⟨ma, h', res, hrun, hview⟩
    · intro hall
      exact ⟨_, Select_eq_of_idx ah at_ columns hall
        (fun row hrow c hc => by rw [hla row hrow]; exact Select_scan_lt ah c (hall c hc))⟩

/-- The statement of `Rectangular_stored` for AddColumns and LeftJoin at two tables of width
two, the rows of the left one cut from one array: the rows of the results are overwritten,
but their widths are as stated. -/
theorem Rectangular_stored_witness :
    (Rectangular [["key", "val", "key", "x"], ["key", "x", "k1", "X1"],
        ["k1", "X1", "k2", "X2"]] ∧
      ∀ row ∈ ([["key", "val", "key", "x"], ["key", "x", "k1", "X1"],
          ["k1", "X1", "k2", "X2"]] : Table),
        row.length = headerWidth [["key", "val"], ["k1", "a"], ["k2", "b"]]
          + headerWidth [["key", "x"], ["k1", "X1"], ["k2", "X2"]]) ∧
    (Rectangular [["key", "val", "x"], ["x", "a", ""], ["", "b", ""]] ∧
      ∀ row ∈ ([["key", "val", "x"], ["x", "a", ""], ["", "b", ""]] : Table),
        row.length = headerWidth [["key", "val"], ["k1", "a"], ["k2", "b"]]
          + headerWidth [["key", "x"], ["k1", "X1"], ["k2", "X2"]] - 1) :=
  have hw := Rectangular_stored doubling flatJoinTables ⟨0, 0, 3, 3⟩ ⟨1, 0, 3, 3⟩
    [["key", "val"], ["k1", "a"], ["k2", "b"]] [["key", "x"], ["k1", "X1"], ["k2", "X2"]]
    (fun _ _ => true) [] (by decide) (by decide) (by decide) (by decide) (by decide)
    (by decide)
  ⟨hw.2.1 _ _ _ rfl (by decide), hw.2.2.2.1 (by decide) _ _ _ rfl (by decide)⟩

/-- C12 (as stated) fails for LeftJoin: with `right := big[0:2]` and `left := big[1:3]` of
one table `big` of width two, the header row of `left` is data row 1 of `right`. LeftJoin
first widens it, then reads it as a data row of `right` and appends its fields 1..end, now
two, to the data row of `left`: the result has a row of width 3 and a row of width 4. -/
theorem LeftJoin_overlap_not_rectangular :
    overlapTables.viewTable ⟨0, 1, 2, 2⟩ = some [["k", "v"], ["k", "z"]] ∧
      overlapTables.viewTable ⟨0, 0, 2, 3⟩ = some [["k", "w"], ["k", "v"]] ∧
      Rectangular [["k", "v"], ["k", "z"]] ∧ Rectangular [["k", "w"], ["k", "v"]] ∧
      (∃ h', LeftJoin doubling overlapTables ⟨0, 1, 2, 2⟩ ⟨0, 0, 2, 3⟩
          = .ok (⟨0, 1, 2, 2⟩, h') ∧
        h'.viewTable ⟨0, 1, 2, 2⟩ = some [["k", "v", "w"], ["k", "z", "v", "w"]]) ∧
      ¬ Rectangular [["k", "v", "w"], ["k", "z", "v", "w"]] :=
  ⟨by decide, by decide, by decide, by decide, ⟨_, rfl, by decide⟩, by decide⟩

/-! ### AddColumns: memory against table values -/

theorem getAt_congr {α : Type} (arrays arrays' : List (List α)) (s : Slice) (i : Nat)
    (h : arrays'[s.arr]? = arrays[s.arr]?) : getAt arrays' s i = getAt arrays s i := by
  unfold getAt
  rw [h]

theorem AddColumns_loop_refines (grow : Nat → Nat → Nat) (m columns filler T : Slice)
    (cs : List Slice) (cv : Table) (fv : Row) (hT : T.len = m.len) (hT0 : T.off = 0)
    (hmT : m.len = 0 ∨ m.arr ≠ T.arr) (hcT : columns.len = 0 ∨ columns.arr ≠ T.arr) :
    ∀ (pend : List Slice) (pv : Table) (i : Nat) (S : List (List String))
      (R : List (List Slice)) (done : List Slice),
      i + pend.length = m.len →
      (∀ (j : Nat) (p : Slice), pend[j]? = some p → getAt R m (i + j) = .ok p) →
      contents R columns = .ok cs →
      R[T.arr]? = some (done ++ List.replicate pend.length Slice.nil) → done.length = i →
      List.Forall₂ (fun s row => contents S s = .ok row) pend pv →
      List.Forall₂ (fun s row => contents S s = .ok row) cs cv →
      contents S filler = .ok fv →
      (∀ p ∈ pend, Valid S p) → pend.Pairwise Apart →
      (∀ p ∈ pend, p.len < p.cap → (∀ c ∈ cs, c.arr ≠ p.arr) ∧ p.arr ≠ filler.arr) →
      ∃ S' R' done' vres,
        AddColumns.loop grow m columns filler T pend.length i ⟨S, R⟩ = .ok ⟨S', R'⟩ ∧
        stringtable.AddColumns.loop cv fv i pv = .ok vres ∧
        R'[T.arr]? = some (done ++ done') ∧
        List.Forall₂ (fun s row => contents S' s = .ok row) done' vres ∧
        S.length ≤ S'.length ∧
        (∀ a : Nat, a < S.length → (∀ p ∈ pend, p.len < p.cap → a ≠ p.arr) →
          S'[a]? = S[a]?) := by
  intro pend
  induction pend with
  | nil =>
    intro pv i S R done _ _ _ hRT _ hf _ _ _ _ _
    cases hf
    exact ⟨S, R, [], [], rfl, rfl, by simpa using hRT, List.Forall₂.nil, Nat.le_refl _,
      fun _ _ _ => rfl⟩
  | cons p rest ih =>
    intro pv i S R done hin hget hc hRT hdone hf hcf hfill hvalid hpair hpriv
    cases hf with
    | @cons _ v _ pv' hpv hrestf =>
      simp only [List.length_cons] at hin hRT
      have hcslen : cs.length = columns.len := contents_length R columns cs hc
      have hcvlen : cv.length = cs.length := hcf.length_eq.symm
      have hrow : getAt R m i = .ok p := by
        have := hget 0 p (by simp)
        simpa using this
      have hvp : Valid S p := hvalid p (by simp)
      obtain ⟨hprivC, hprivF⟩ : (p.len < p.cap → ∀ c ∈ cs, c.arr ≠ p.arr) ∧
          (p.len < p.cap → p.arr ≠ filler.arr) :=
        ⟨fun hs => (hpriv p (by simp) hs).1, fun hs => (hpriv p (by simp) hs).2⟩
      -- the source of the appended fields, on memory and as a value
      have hsrc : ∃ src pay, AddColumns.source ⟨S, R⟩ columns filler i = .ok src ∧
          contents S src = .ok pay ∧
          (i < cv.length → index cv i = .ok pay) ∧ (¬ i < cv.length → pay = fv) := by
        by_cases hic : i < columns.len
        · have hic2 : i < cs.length := by omega
          have hic3 : i < cv.length := by omega
          refine ⟨cs[i], cv[i], ?_, ?_, fun _ => index_of_lt cv i hic3,
            fun hn => absurd hic3 hn⟩
          · simp only [AddColumns.source, hic, if_true]
            exact getAt_of_contents R columns cs i _ hc (List.getElem?_eq_getElem hic2)
          · exact forall₂_getElem? hcf i _ _ (List.getElem?_eq_getElem hic2)
              (List.getElem?_eq_getElem hic3)
        · have hic3 : ¬ i < cv.length := by omega
          exact ⟨filler, fv, by simp [AddColumns.source, hic, pure_eq_ok], hfill,
            fun hlt => absurd hlt hic3, fun _ => rfl⟩
      obtain ⟨src, pay, hsrcEq, hpay, hval1, hval2⟩ := hsrc
      obtain ⟨p', S1, happ, hcont', _, _, hSlen, harr', hframe, hshape⟩ :=
        appendTo_spec "" grow S p pay v hvp hpv
      -- the write of the new row
      have hTi : i < T.len := by omega
      have hTb : T.off + i < (done ++ List.replicate (rest.length + 1) Slice.nil).length := by
        simp only [List.length_append, List.length_replicate, hdone, hT0]
        omega
      have hset := setAt_eq R T i p' _ hRT hTi hTb
      have hnew : (done ++ List.replicate (rest.length + 1) Slice.nil).set (T.off + i) p'
          = (done ++ [p']) ++ List.replicate rest.length Slice.nil := by
        rw [hT0, Nat.zero_add, List.set_append_right _ _ (by omega), hdone, Nat.sub_self,
          List.replicate_succ, List.set_cons_zero]
        simp
      rw [hnew] at hset
      have hTlt : T.arr < R.length := (List.getElem?_eq_some_iff.mp hRT).1
      have hmne : m.arr ≠ T.arr := by
        rcases hmT with h0 | hne
        · omega
        · exact hne
      have hcR : contents (R.set T.arr ((done ++ [p']) ++ List.replicate rest.length Slice.nil))
          columns = .ok cs := by
        rw [← hc]
        apply contents_frame
        rcases hcT with h0 | hne
        · exact Or.inl h0
        · exact Or.inr (List.getElem?_set_ne (fun e => hne e.symm))
      have hpc := List.pairwise_cons.mp hpair
      have hfrRest : ∀ q ∈ rest, q.len = 0 ∨ S1[q.arr]? = S[q.arr]? := by
        intro q hq
        by_cases h0 : q.len = 0
        · exact Or.inl h0
        · obtain ⟨w, -, hw⟩ : ∃ w, w ∈ pv' ∧ contents S q = .ok w := by
            obtain ⟨j, hj⟩ := List.mem_iff_getElem?.mp hq
            obtain ⟨w, hw, hqw⟩ := forall₂_getElem?_right hrestf j q hj
            exact ⟨w, List.getElem?_mem hw, hqw⟩
          exact Or.inr (hframe q.arr (contents_arr_lt S q w hw h0)
            (fun hs => (hpc.1 q hq).1 hs))
      have hfrCs : ∀ c ∈ cs, c.len = 0 ∨ S1[c.arr]? = S[c.arr]? := by
        intro c hcm
        by_cases h0 : c.len = 0
        · exact Or.inl h0
        · obtain ⟨w, -, hw⟩ : ∃ w, w ∈ cv ∧ contents S c = .ok w := by
            obtain ⟨j, hj⟩ := List.mem_iff_getElem?.mp hcm
            obtain ⟨w, hw, hqw⟩ := forall₂_getElem?_right hcf j c hj
            exact ⟨w, List.getElem?_mem hw, hqw⟩
          exact Or.inr (hframe c.arr (contents_arr_lt S c w hw h0)
            (fun hs => hprivC hs c hcm))
      have hfill1 : contents S1 filler = .ok fv := by
        rw [← hfill]
        apply contents_frame
        by_cases h0 : filler.len = 0
        · exact Or.inl h0
        · exact Or.inr (hframe filler.arr (contents_arr_lt S filler fv hfill h0)
            (fun hs e => hprivF hs e.symm))
      obtain ⟨S', R', done', vres, hloop, hvloop, hR', hfo, hSlen', hframe'⟩ :=
        ih pv' (i + 1) S1 (R.set T.arr ((done ++ [p']) ++ List.replicate rest.length Slice.nil))
          (done ++ [p']) (by omega)
          (fun j q hj => by
            rw [getAt_congr R _ m (i + 1 + j) (List.getElem?_set_ne (fun e => hmne e.symm))]
            have := hget (j + 1) q (by simpa using hj)
            rw [show i + 1 + j = i + (j + 1) by omega]
            exact this)
          hcR (List.getElem?_set_self hTlt) (by simp [hdone])
          (forall₂_contents_frame S S1 rest pv' hfrRest hrestf)
          (forall₂_contents_frame S S1 cs cv hfrCs hcf) hfill1
          (fun q hq => (hvalid q (by simp [hq])).mono hshape) hpc.2
          (fun q hq hs => hpriv q (by simp [hq]) hs)
      refine ⟨S', R', p' :: done', (v ++ pay) :: vres, ?_, ?_, by simpa using hR', ?_,
        by omega, ?_⟩
      · simp only [List.length_cons, AddColumns.loop, hrow, bind_ok, hsrcEq, hpay, happ, hset]
        exact hloop
      · by_cases hi : i < cv.length
        · simp only [stringtable.AddColumns.loop, hi, if_true, hval1 hi, bind_ok, hvloop,
            pure_eq_ok]
        · simp only [stringtable.AddColumns.loop, hi, if_false, hval2 hi, bind_ok, hvloop,
            pure_eq_ok]
      · refine List.Forall₂.cons ?_ hfo
        rw [← hcont']
        apply contents_frame
        by_cases h0 : p'.len = 0
        · exact Or.inl h0
        · refine Or.inr (hframe' p'.arr (contents_arr_lt S1 p' _ hcont' h0) ?_)
          intro q hq hs
          rcases harr' with e | e
          · rw [e]
            exact (hpc.1 q hq).2 hs
          · rw [e]
            exact Nat.ne_of_gt (valid_arr_lt S q (hvalid q (by simp [hq])) hs)
      · intro a ha hap
        rw [hframe' a (by omega) (fun q hq hs => hap q (by simp [hq]) hs)]
        exact hframe a ha (fun hs => hap p (by simp) hs)

/-- AddColumns on memory gives the table that AddColumns on table values gives, when the
rows of the left table are stored apart: a row with spare capacity has a backing array that
no other row of the left table and no row of the added table uses. -/
theorem AddColumns_refines_value (grow : Nat → Nat → Nat) (h : Heap) (m columns : Slice)
    (a : Table) (bh : Row) (bt : Table)
    (hA : h.viewTable m = some a) (hB : h.viewTable columns = some (bh :: bt))
    (hwm : h.WellFormed m) (hpair : (h.rowSlices m).Pairwise Apart)
    (hpriv : ∀ p ∈ h.rowSlices m, p.len < p.cap → ∀ c ∈ h.rowSlices columns, c.arr ≠ p.arr) :
    ∃ T h' res, AddColumns grow h m columns = .ok (T, h') ∧ h'.viewTable T = some res ∧
      stringtable.AddColumns a (bh :: bt) = .ok res := by
  obtain ⟨ms, hm, hav⟩ := (viewTable_eq_some h m a).mp hA
  obtain ⟨cs, hc, hbv⟩ := (viewTable_eq_some h columns _).mp hB
  unfold Heap.WellFormed at hwm
  rw [rowSlices_of_contents h m ms hm] at hwm hpair hpriv
  rw [rowSlices_of_contents h columns cs hc] at hpriv
  cases cs with
  | nil => cases hbv
  | cons c0 ct =>
  have hmslen : ms.length = m.len := contents_length h.rows m ms hm
  have hcslen : (c0 :: ct).length = columns.len := contents_length h.rows columns _ hc
  have hc0 : getAt h.rows columns 0 = .ok c0 :=
    getAt_of_contents h.rows columns _ 0 c0 hc (by simp)
  have hc0v : contents h.strs c0 = .ok bh := (List.forall₂_cons.mp hbv).1
  have hc0len : c0.len = bh.length := (contents_length h.strs c0 bh hc0v).symm
  have hshape1 : SameShape h.strs (h.strs ++ [List.replicate c0.len ""]) :=
    SameShape.append _ _
  have hfillv : contents (h.strs ++ [List.replicate c0.len ""])
      ⟨h.strs.length, 0, c0.len, c0.len⟩ = .ok (makeStrings bh.length) := by
    rw [contents_eq_window _ ⟨h.strs.length, 0, c0.len, c0.len⟩ _
      (List.getElem?_concat_length _ _) (by simp)]
    simp [makeStrings, hc0len]
  have hmT : m.len = 0 ∨ m.arr ≠ h.rows.length := by
    by_cases h0 : m.len = 0
    · exact Or.inl h0
    · exact Or.inr (Nat.ne_of_lt (contents_arr_lt h.rows m ms hm h0))
  have hcT : columns.len = 0 ∨ columns.arr ≠ h.rows.length := by
    refine Or.inr (Nat.ne_of_lt (contents_arr_lt h.rows columns _ hc ?_))
    simp only [List.length_cons] at hcslen
    omega
  have hfr : ∀ (ss : List Slice) (vs : Table),
      List.Forall₂ (fun s row => contents h.strs s = .ok row) ss vs →
      List.Forall₂ (fun s row => contents (h.strs ++ [List.replicate c0.len ""]) s = .ok row)
        ss vs := by
    intro ss vs hf
    exact hf.imp (fun s row hs => contents_append_frame h.strs _ s row hs)
  obtain ⟨S', R', done', vres, hloop, hvloop, hR', hfo, _, _⟩ :=
    AddColumns_loop_refines grow m columns ⟨h.strs.length, 0, c0.len, c0.len⟩
      ⟨h.rows.length, 0, m.len, m.len⟩ (c0 :: ct) (bh :: bt) (makeStrings bh.length)
      rfl rfl hmT hcT ms a 0
      (h.strs ++ [List.replicate c0.len ""]) (h.rows ++ [List.replicate m.len Slice.nil]) []
      (by omega)
      (fun j p hj => by
        rw [Nat.zero_add]
        exact getAt_of_contents _ m ms j p (contents_append_frame h.rows _ m ms hm) hj)
      (contents_append_frame h.rows _ columns _ hc)
      (by simp [List.getElem?_concat_length, hmslen]) rfl
      (hfr ms a hav) (hfr _ _ hbv) hfillv
      (fun s hs => (hwm s hs).mono hshape1) hpair
      (fun p hp hs => ⟨fun c hcm => hpriv p hp hs c hcm,
        Nat.ne_of_lt (valid_arr_lt h.strs p (hwm p hp) hs)⟩)
  have hdlen : done'.length = m.len := by
    obtain ⟨res2, hres2, hlen2, _⟩ :=
      AddColumns_loop_spec (bh :: bt) (makeStrings bh.length) a 0
    rw [hvloop] at hres2
    cases hres2
    rw [hfo.length_eq, hlen2, ← hav.length_eq, hmslen]
  refine ⟨⟨h.rows.length, 0, m.len, m.len⟩, ⟨S', R'⟩, vres, ?_, ?_, ?_⟩
  · simp only [AddColumns, hc0, bind_ok, makeSlice, hmslen ▸ hloop, pure_eq_ok]
  · refine (viewTable_eq_some _ _ vres).mpr ⟨done', ?_, hfo⟩
    rw [contents_eq_window R' ⟨h.rows.length, 0, m.len, m.len⟩ done' (by simpa using hR')
      (by simp [hdlen])]
    simp [List.take_of_length_le (Nat.le_of_eq hdlen)]
  · simp only [stringtable.AddColumns, index_cons_zero, bind_ok]
    exact hvloop

/-! ### Append: memory against table values -/

/-- Append on memory returns what Append on table values returns, and fails as it fails,
whatever the capacity of the left table and however the tables are stored. -/
theorem Append_refines_value (grow : Nat → Nat → Nat) (h : Heap) (m a : Slice)
    (L A : Table) (hL : h.viewTable m = some L) (hA : h.viewTable a = some A)
    (hvm : Valid h.rows m) :
    match stringtable.Append L A with
    | .ok res => ∃ t h', Append grow h m a = .ok (t, h') ∧ h'.viewTable t = some res
    | .error e => Append grow h m a = .error e := by
  obtain ⟨ms, hcm, hLv⟩ := contents_of_viewTable h m L hL
  obtain ⟨as_, hca, hAv⟩ := contents_of_viewTable h a A hA
  have hmlen := contents_length h.rows m ms hcm
  have halen := contents_length h.rows a as_ hca
  cases ms with
  | nil =>
    have hLnil : L = [] := by
      simp only [Heap.viewRows, Option.some.injEq] at hLv
      exact hLv.symm
    subst hLnil
    simp only [stringtable.Append, List.length_nil, gt_iff_lt, Nat.lt_irrefl, if_false,
      pure_eq_ok]
    exact ⟨a, h, Append_empty grow h m a hmlen.symm, hA⟩
  | cons m0 mt =>
    cases L with
    | nil =>
      rw [viewRows_eq_some] at hLv
      cases hLv
    | cons l0 lt =>
    obtain ⟨hm0v, hmtv⟩ := viewRows_cons h m0 mt l0 lt hLv
    have hm0len : m0.len = l0.length := (contents_length h.strs m0 l0 hm0v).symm
    have hm0 : getAt h.rows m 0 = .ok m0 := getAt_of_contents h.rows m _ 0 m0 hcm (by simp)
    simp only [List.length_cons] at hmlen
    have hmpos : m.len > 0 := by omega
    cases as_ with
    | nil =>
      have hAnil : A = [] := by
        simp only [Heap.viewRows, Option.some.injEq] at hAv
        exact hAv.symm
      subst hAnil
      have ha0 : getAt h.rows a 0 = .error Failure.panic := by
        simp only [List.length_nil] at halen
        simp [getAt, ← halen]
      simp only [stringtable.Append, List.length_cons, gt_iff_lt, Nat.zero_lt_succ, if_true,
        index_cons_zero, bind_ok, index_nil, bind_error]
      simp only [Append, hmpos, if_true, hm0, bind_ok, ha0, bind_error]
    | cons a0 at_ =>
      cases A with
      | nil =>
        rw [viewRows_eq_some] at hAv
        cases hAv
      | cons r0 rt =>
      obtain ⟨ha0v, hatv⟩ := viewRows_cons h a0 at_ r0 rt hAv
      have ha0len : a0.len = r0.length := (contents_length h.strs a0 r0 ha0v).symm
      have ha0 : getAt h.rows a 0 = .ok a0 := getAt_of_contents h.rows a _ 0 a0 hca (by simp)
      by_cases hw : l0.length = r0.length
      · obtain ⟨m', R', hrun, hcont, _, _, _⟩ :=
          Append_spec grow h m a m0 mt a0 at_ hcm hca hvm (by omega)
        have hval : stringtable.Append (l0 :: lt) (r0 :: rt) = .ok ((l0 :: lt) ++ rt) := by
          simp [stringtable.Append, index_cons_zero, sliceFrom_cons_one, bind_ok, pure_eq_ok, hw]
        rw [hval]
        refine ⟨m', ⟨h.strs, R'⟩, hrun, ?_⟩
        apply viewTable_of_contents _ m' _ _ hcont
        rw [viewRows_strs h ⟨h.strs, R'⟩ _ rfl]
        exact viewRows_append h _ _ _ _ hLv hatv
      · have hval : stringtable.Append (l0 :: lt) (r0 :: rt)
            = .error (Failure.fatal l0.length r0.length l0 r0) := by
          simp only [stringtable.Append, List.length_cons, gt_iff_lt, Nat.zero_lt_succ,
            if_true, index_cons_zero, bind_ok, ne_eq, hw, not_false_eq_true]
          rfl
        rw [hval]
        have hne : m0.len ≠ a0.len := by omega
        simp only [Append, hmpos, if_true, hm0, bind_ok, ha0, ne_eq, hne, not_false_eq_true,
          hm0v, ha0v, hm0len, ha0len]
        rw [if_pos hw]
        rfl

end Mem

end stringtable
